import Mathlib

/-!
# tidal: descriptor codec, directive parser and migration registry

A shallow embedding of `descriptor.go` (`NewDescriptor` and the `Descriptor` methods `Info`,
`Package`, `Up`, `Down`, `readBetween`, `Repr`) and of `determinePackage` of `generate.go`,
together with the parts of the Go standard library whose behaviour they observe:

* `bufio.Scanner` with the default split function `bufio.ScanLines` and the default
  token limit `bufio.MaxScanTokenSize`;
* the two regular expressions `pkgre` and `migre` (Go `regexp`, RE2 syntax, flag `(?i)`);
* `strings.ToLower` on the captured keyword;
* the header of a gzip member as `gzip.Writer` writes it and `gzip.NewReader` reads it
  (the deflate stream itself is a parameter);
* the verbs `%d` and `%02x` of `fmt.Fprintf`.

The registry (`Register`, `Reset`) is in a source file that is not at hand and is modelled
from the specification.

Text is a list of runes (`List Char`): the payload of a descriptor is UTF-8 text, and the
scanner's token limit counts the UTF-8 bytes of a line.
-/

namespace Tidal

/-! ## Errors -/

/-- The error values the descriptor methods can return. -/
inductive Error
  /-- `gzip.NewReader` rejected the descriptor (for instance `gzip.ErrHeader`). -/
  | gzipHeader
  /-- the gzip stream ended with an error while it was read (checksum, truncation). -/
  | gzipRead
  /-- `bufio.ErrTooLong`: a line does not fit the scanner's buffer. -/
  | ErrTooLong
  /-- a revision is registered twice. -/
  | duplicateRevision
  /-- `io.EOF`, returned by `gzip.NewReader` on an empty input. -/
  | ioEOF
  /-- `io.ErrUnexpectedEOF`: the input ends inside the gzip header or stream. -/
  | ioUnexpectedEOF
  /-- `gzip.ErrChecksum`: the trailer of the gzip stream does not fit the data. -/
  | gzipChecksum
  /-- the error of `gzip.Writer` for a header string that is not Latin-1 or holds a NUL:
  "gzip.Write: non-Latin-1 header string". -/
  | gzipNonLatin1
  /-- `determinePackage`: "discovered %d unique package names, please specify package
  name". -/
  | uniquePackageNames (n : Nat)
  /-- `determinePackage`: "could not determine package name from %d migrations and %q
  outpath". -/
  | noPackageName (n : Nat) (outpath : List Char)
  deriving DecidableEq, Repr

/-- Descriptor is the compressed bytes of the encoded SQL file (`type Descriptor []byte`). -/
abbrev Descriptor := List UInt8

/-- What `gzip.NewReader(bytes.NewBuffer(d))` followed by reading to the end makes of a
descriptor: either `NewReader` fails, or the reader delivers the decompressed text and ends
with `io.EOF` (`err = none`) or with a read error. -/
inductive GzipReader
  | failed (err : Error)
  | stream (data : List Char) (err : Option Error)
  deriving DecidableEq, Repr

/-- The reader over a well-formed descriptor whose payload is `data`. -/
abbrev payload (data : List Char) : GzipReader := GzipReader.stream data none

/-! ## bufio.Scanner with bufio.ScanLines -/

/-- The constant `bufio.MaxScanTokenSize = 64 * 1024`: the size the scanner's buffer is
allowed to grow to. -/
def maxScanTokenSize : Nat := 64 * 1024

/-- Number of bytes of the UTF-8 encoding of a text. -/
def utf8Len (l : List Char) : Nat := (l.map Char.utf8Size).sum

/-- The pieces of a text between its newline characters (the last piece is what follows
the last newline, possibly empty). -/
def splitNL : List Char → List (List Char)
  | [] => [[]]
  | c :: cs =>
    if c = '\n' then [] :: splitNL cs
    else match splitNL cs with
      | l :: ls => (c :: l) :: ls
      | [] => [[c]]

/-- The raw lines `bufio.ScanLines` cuts the input into: every newline ends a line, and
what follows the last newline is a line of its own unless it is empty. -/
def rawLines (data : List Char) : List (List Char) :=
  let ps := splitNL data
  if ps.getLast? = some [] then ps.dropLast else ps

/-- The helper `dropCR` of package bufio: drops a terminal `\r` from the data. -/
def dropCR (l : List Char) : List Char :=
  if l.getLast? = some '\r' then l.dropLast else l

/-- The tokens that successive calls of `scanner.Scan()` deliver over the given raw lines,
and the value of `scanner.Err()` once `Scan` has returned false. A line whose bytes fill
the buffer (`maxScanTokenSize` bytes without a newline) stops the scan with `ErrTooLong`;
otherwise the scan ends with the error of the underlying reader (`none` for `io.EOF`).
For a last line without a newline and of exactly `maxScanTokenSize` bytes the answer of the
real scanner depends on how the reader hands over its final bytes (`endsAtLimit` names that
input); the statements below use lines that are shorter or lines that long that end in a
newline, exclude that input, or hold for whatever tokens the scanner delivers. -/
def scanTokens (rerr : Option Error) : List (List Char) → List (List Char) × Option Error
  | [] => ([], rerr)
  | l :: ls =>
    if maxScanTokenSize ≤ utf8Len l then ([], some Error.ErrTooLong)
    else ((dropCR l) :: (scanTokens rerr ls).1, (scanTokens rerr ls).2)

/-- Build `bufio.NewScanner(zr)` over a stream and run it to the end. -/
def scan (data : List Char) (rerr : Option Error) : List (List Char) × Option Error :=
  scanTokens rerr (rawLines data)

/-! ## The regular expressions -/

/-- The class `\s` of RE2: `[\t\n\f\r ]`. -/
def isSpace (c : Char) : Bool :=
  c = '\t' || c = '\n' || c = '\x0c' || c = '\r' || c = ' '

/-- A pattern rune under the flag `(?i)`: it matches every rune of its case-folding orbit
(`unicode.SimpleFold`). For ASCII letters that is the other case, and in addition
U+212A (Kelvin sign) for `k` and U+017F (long s) for `s`. -/
def foldMatch (p c : Char) : Bool :=
  c = p || c = p.toUpper || c = p.toLower ||
  (p.toLower = 'k' && c = '\u212a') || (p.toLower = 's' && c = '\u017f')

/-- The class `[\w\d\_]` under `(?i)`: `[0-9A-Za-z_]` closed under case folding, which
adds U+017F and U+212A. -/
def isWord (c : Char) : Bool :=
  c.isAlphanum || c = '_' || c = '\u017f' || c = '\u212a'

/-- Match `\s*` (greedy) at the front of the text and return what is left. -/
def skipSpaces (s : List Char) : List Char := s.dropWhile isSpace

/-- Match `\s+` (greedy) at the front of the text. -/
def spaces1 : List Char → Option (List Char)
  | [] => none
  | c :: cs => if isSpace c then some (skipSpaces cs) else none

/-- Match a literal exactly at the front of the text. -/
def lit : List Char → List Char → Option (List Char)
  | [], s => some s
  | _ :: _, [] => none
  | p :: ps, c :: cs => if c = p then lit ps cs else none

/-- Match a literal under `(?i)` at the front of the text. -/
def litFold : List Char → List Char → Option (List Char)
  | [], s => some s
  | _ :: _, [] => none
  | p :: ps, c :: cs => if foldMatch p c then litFold ps cs else none

/-- Match one of the alternatives (in order) under `(?i)` at the front of the text; gives
the matched text and what is left. -/
def altFold : List (List Char) → List Char → Option (List Char × List Char)
  | [], _ => none
  | a :: as, s =>
    match litFold a s with
    | some rest => some (s.take a.length, rest)
    | none => altFold as s

/-- The result of `migre.FindStringSubmatch(line)[1]` when `migre.MatchString(line)`, for
`migre = (?i)^\s*--\s+migrate:\s+(up|down|end)\s*$`; `none` when the line does not match. -/
def migreSubmatch (line : List Char) : Option (List Char) :=
  (lit "--".toList (skipSpaces line)).bind fun s1 =>
  (spaces1 s1).bind fun s2 =>
  (litFold "migrate:".toList s2).bind fun s3 =>
  (spaces1 s3).bind fun s4 =>
  (altFold ["up".toList, "down".toList, "end".toList] s4).bind fun r =>
  if skipSpaces r.2 = [] then some r.1 else none

/-- The result of `pkgre.FindStringSubmatch(line)[1]` when `pkgre.MatchString(line)`, for
`pkgre = (?i)^\s*--\s+package:\s+([\w\d\_]+)\s*$`; `none` when the line does not match. -/
def pkgreSubmatch (line : List Char) : Option (List Char) :=
  (lit "--".toList (skipSpaces line)).bind fun s1 =>
  (spaces1 s1).bind fun s2 =>
  (litFold "package:".toList s2).bind fun s3 =>
  (spaces1 s3).bind fun s4 =>
  let name := s4.takeWhile isWord
  if name ≠ [] ∧ skipSpaces (s4.dropWhile isWord) = [] then some name else none

/-- The function `strings.ToLower` on the text a directive captures (ASCII letters). -/
def toLower (s : List Char) : List Char := s.map Char.toLower

/-! ## What the regular expressions denote

The matchers above run the patterns from left to right. The two relations below say what
the patterns mean, as a split of the line into the parts of the pattern; the theorems
`migreSubmatch_iff` and `pkgreSubmatch_iff` show that the matchers compute them. -/

/-- Text made of runes of the class `\s` only. -/
def allSpace (s : List Char) : Prop := ∀ c ∈ s, isSpace c = true

/-- The text `M` matches the literal `p` under `(?i)`, rune by rune. -/
def FoldEq (p M : List Char) : Prop := List.Forall₂ (fun q c => foldMatch q c = true) p M

/-- The line matches `(?i)^\s*--\s+migrate:\s+(up|down|end)\s*$` with group 1 = `kw`. -/
def MigreMatch (line kw : List Char) : Prop :=
  ∃ a b M c d, line = a ++ ("--".toList ++ (b ++ (M ++ (c ++ (kw ++ d))))) ∧
    allSpace a ∧ (b ≠ [] ∧ allSpace b) ∧ FoldEq "migrate:".toList M ∧
    (c ≠ [] ∧ allSpace c) ∧
    (FoldEq "up".toList kw ∨ FoldEq "down".toList kw ∨ FoldEq "end".toList kw) ∧
    allSpace d

/-- The line matches `(?i)^\s*--\s+package:\s+([\w\d\_]+)\s*$` with group 1 = `name`. -/
def PkgreMatch (line name : List Char) : Prop :=
  ∃ a b P c d, line = a ++ ("--".toList ++ (b ++ (P ++ (c ++ (name ++ d))))) ∧
    allSpace a ∧ (b ≠ [] ∧ allSpace b) ∧ FoldEq "package:".toList P ∧
    (c ≠ [] ∧ allSpace c) ∧ (name ≠ [] ∧ ∀ x ∈ name, isWord x = true) ∧ allSpace d

/-- The text is empty or starts with a rune that is no whitespace. -/
def startsNonSpace (r : List Char) : Prop := ∀ c ∈ r.head?, isSpace c = false

/-! ## Descriptor methods -/

/-- The loop body of `readBetween`: the state is the builder `sb` and the flag `between`. -/
def readStep (target : List Char) (st : List Char × Bool) (line : List Char) :
    List Char × Bool :=
  match migreSubmatch line with
  | some kw => (st.1, decide (toLower kw = target))
  | none => if st.2 then (st.1 ++ line ++ ['\n'], st.2) else st

/-- The loop `for scanner.Scan() { ... }` of `readBetween` over the scanner's tokens. -/
def readLoop (target : List Char) (st : List Char × Bool) (toks : List (List Char)) :
    List Char × Bool :=
  toks.foldl (readStep target) st

/-- Helper function to read the descriptor between the target directive (e.g. up/down)
and the next directive or end. -/
def readBetween (zr : GzipReader) (target : List Char) : List Char × Option Error :=
  match zr with
  | .failed err => ([], some err)
  | .stream data rerr =>
    let sc := scan data rerr
    ((readLoop target ([], false) sc.1).1, sc.2)

/-- Up reads and returns the up migration command. -/
def Up (zr : GzipReader) : List Char × Option Error := readBetween zr "up".toList

/-- Down reads and returns the down migration command. -/
def Down (zr : GzipReader) : List Char × Option Error := readBetween zr "down".toList

/-- The loop of `Package` over the scanner's tokens: the first matching line returns. -/
def packageLoop (serr : Option Error) : List (List Char) → List Char × Option Error
  | [] => ([], serr)
  | line :: rest =>
    match pkgreSubmatch line with
    | some name => (name, none)
    | none => packageLoop serr rest

/-- Package looks for a package directive, e.g. -- package: foo and returns the name of
the specified package, otherwise it returns an empty string. -/
def Package (zr : GzipReader) : List Char × Option Error :=
  match zr with
  | .failed err => ([], some err)
  | .stream data rerr =>
    let sc := scan data rerr
    packageLoop sc.2 sc.1

/-- Which lines the loop of `readBetween` writes to the builder: the loop of `readLoop`
with the write replaced by a record, one flag per scanned line (true: the line is
written). -/
def marks (target : List Char) : Bool → List (List Char) → List Bool
  | _, [] => []
  | between, line :: rest =>
    match migreSubmatch line with
    | some kw => false :: marks target (decide (toLower kw = target)) rest
    | none => between :: marks target between rest

/-- The flags of `marks` for a call of `readBetween` on a descriptor. -/
def written (zr : GzipReader) (target : List Char) : List Bool :=
  match zr with
  | .failed _ => []
  | .stream data rerr => marks target false (scan data rerr).1

/-- Line number `i` (from 0) of the payload is written by `readBetween`; a line the
scanner never delivers is not written. -/
def lineWritten (zr : GzipReader) (target : List Char) (i : Nat) : Bool :=
  (written zr target).getD i false

/-- The elements of a list whose flag is set. -/
def pick : List (List Char) → List Bool → List (List Char)
  | l :: ls, m :: ms => if m then l :: pick ls ms else pick ls ms
  | _, _ => []

/-- The lines the scanner delivers for a descriptor (empty when the reader fails). -/
def scannedLines (zr : GzipReader) : List (List Char) :=
  match zr with
  | .failed _ => []
  | .stream data rerr => (scan data rerr).1

/-! ## Migration registry -/

/-- A migration: a `Revision` and the descriptor it carries (`Migration{Revision: 23}` in
the tests). -/
structure Migration where
  Revision : Int
  descriptor : Descriptor
  deriving DecidableEq, Repr

/-- Modelled from the spec: the insertion point of `Register` (its source file is not among
the sources; only `TestRegister` is). "Finds the insertion point that keeps `migrations`
sorted ascending by `Revision`": the number of leading entries with a smaller revision. -/
def insertionPoint (migrations : List Migration) (m : Migration) : Nat :=
  (migrations.takeWhile fun e => e.Revision < m.Revision).length

/-- Modelled from the spec: `Register(m)` on the global list `migrations`, as state
passing. "Fails with `DuplicateRevision` if an existing entry's Revision equals
`m.Revision` — no mutation occurs. Otherwise inserts `m` at the computed position." -/
def Register (migrations : List Migration) (m : Migration) : List Migration × Option Error :=
  if migrations.any (fun e => e.Revision = m.Revision) then
    (migrations, some Error.duplicateRevision)
  else
    (migrations.take (insertionPoint migrations m) ++
      m :: migrations.drop (insertionPoint migrations m), none)

/-- Modelled from the spec: `Reset()` "clears `migrations` back to empty". -/
def Reset (_migrations : List Migration) : List Migration := []

/-- A sequence of `Register` calls, one per element of `ms`, from the registry `reg`: the
final registry and the migrations whose call returned a nil error. -/
def registerAll (reg : List Migration) : List Migration → List Migration × List Migration
  | [] => (reg, [])
  | m :: ms =>
    match (Register reg m).2 with
    | none => ((registerAll (Register reg m).1 ms).1, m :: (registerAll (Register reg m).1 ms).2)
    | some _ => registerAll (Register reg m).1 ms

/-- The migrations `Migration{Revision: r}` of the test, for a list of revisions. -/
def revisions (rs : List Int) : List Migration := rs.map fun r => { Revision := r, descriptor := [] }

/-! ## Code generation: determinePackage -/

/-- What `determinePackage` takes from packages `path/filepath` and `os`. -/
structure PathEnv where
  /-- the function `filepath.Base`. -/
  base : List Char → List Char
  /-- the function `filepath.Dir`. -/
  dir : List Char → List Char
  /-- the result of `os.Getwd()`; `none` when it returns an error. -/
  getwd : Option (List Char)

/-- The statement `names[name] = true` on the map `names`, kept as the list of its keys. -/
def addName (names : List (List Char)) (name : List Char) : List (List Char) :=
  if name ∈ names then names else names ++ [name]

/-- The first loop of `determinePackage`: the keys of `names` after the loop, or the error
of the first `m.Package()` that fails. The method `Migration.Package` is the parameter
`pkg`. -/
def collectNames (pkg : Migration → List Char × Option Error) :
    List Migration → List (List Char) → Except Error (List (List Char))
  | [], names => .ok names
  | m :: ms, names =>
    match (pkg m).2 with
    | some err => .error err
    | none => collectNames pkg ms (if (pkg m).1 ≠ [] then addName names (pkg m).1 else names)

/-- The function `determinePackage(migrations, outpath)`. -/
def determinePackage (env : PathEnv) (pkg : Migration → List Char × Option Error)
    (migrations : List Migration) (outpath : List Char) : List Char × Option Error :=
  match collectNames pkg migrations [] with
  | .error err => ([], some err)
  | .ok names =>
    if names.length > 1 then ([], some (Error.uniquePackageNames names.length))
    else if names.length = 1 then (names.headD [], none)
    else if outpath ≠ [] then
      if env.base (env.dir outpath) = ['.'] then
        match env.getwd with
        | some wd => (env.base wd, none)
        | none => ([], some (Error.noPackageName migrations.length outpath))
      else (env.base (env.dir outpath), none)
    else ([], some (Error.noPackageName migrations.length outpath))

/-- The non-empty package names the migrations declare, in order, with repetitions. -/
def declaredNames (pkg : Migration → List Char × Option Error) (ms : List Migration) :
    List (List Char) :=
  (ms.map fun m => (pkg m).1).filter fun n => decide (n ≠ [])

/-! ## The gzip envelope: NewDescriptor and Info

The header of a gzip member (RFC 1952) is written by `gzip.Writer` and read back by
`gzip.NewReader`; both are embedded here byte by byte. What the library does with the
body of the stream is a parameter (`Gzip`). -/

/-- The parts of package `compress/gzip` that are taken as given. -/
structure Gzip where
  /-- the bytes `gzip.Writer` writes after the header for a content: the deflate stream
  and the trailer. -/
  deflate : List Char → List UInt8
  /-- the lower 16 bits of the CRC-32 of the header bytes, for the `FHCRC` check. -/
  headerCrc : List UInt8 → Nat
  /-- what reading the stream that follows a header delivers: the text, and the error
  that ends the stream (`none` for `io.EOF`). -/
  inflate : List UInt8 → List Char × Option Error

/-- The fields of `gzip.Header` that `Info` returns. `ModTime` is in nanoseconds since the
Unix epoch; `none` is the zero `time.Time`. -/
structure Header where
  Name : List Char
  ModTime : Option Nat
  deriving DecidableEq, Repr

/-- The nanoseconds of a second. -/
def second : Nat := 1000000000

/-- The field MTIME that `gzip.Writer` stores for `ModTime = now` (nanoseconds since the
epoch): `uint32(z.ModTime.Unix())` when `ModTime` is after the epoch, else 0. -/
def mtimeField (now : Nat) : Nat := if 0 < now then (now / second) % 2 ^ 32 else 0

/-- The call `le.PutUint32`: four bytes, least significant first. -/
def putUint32 (v : Nat) : List UInt8 :=
  [UInt8.ofNat (v % 256), UInt8.ofNat (v / 256 % 256), UInt8.ofNat (v / 65536 % 256),
    UInt8.ofNat (v / 16777216 % 256)]

/-- The call `le.Uint32`. -/
def getUint32 (b0 b1 b2 b3 : UInt8) : Nat :=
  b0.toNat + 256 * b1.toNat + 65536 * b2.toNat + 16777216 * b3.toNat

/-- The check of `Writer.writeString`: a rune that is 0 or above 0xff is refused. -/
def nonLatin1 (s : List Char) : Bool := s.any fun v => v.toNat = 0 || v.toNat > 0xff

/-- The header `gzip.Writer` writes at `BestCompression` with `Name = name`,
`ModTime = now`, no extra field, no comment and `OS = 255`. -/
def writeHeader (now : Nat) (name : List Char) : List UInt8 :=
  [0x1f, 0x8b, 8, if name ≠ [] then 0x08 else 0] ++ putUint32 (mtimeField now) ++ [2, 255] ++
    (if name ≠ [] then name.map (fun v => UInt8.ofNat v.toNat) ++ [0] else [])

/-- NewDescriptor reads the data from the source migration file and gzip compresses it
for in-memory storage. `now` is the value of `time.Now()` read in the call; `src` is the
text an error-free reader delivers. -/
def NewDescriptor (gz : Gzip) (now : Nat) (src : List Char) (name : List Char) :
    Except Error Descriptor :=
  if nonLatin1 name then .error Error.gzipNonLatin1
  else .ok (writeHeader now name ++ gz.deflate src)

/-- The method `Reader.readString` from position `i` of its 512-byte buffer: the bytes
before the NUL, and the input after it. -/
def readString (i : Nat) : List UInt8 → Except Error (List UInt8 × List UInt8)
  | [] => if i ≥ 512 then .error Error.gzipHeader else .error Error.ioUnexpectedEOF
  | b :: rest =>
    if i ≥ 512 then .error Error.gzipHeader
    else if b = 0 then .ok ([], rest)
    else match readString (i + 1) rest with
      | .ok r => .ok (b :: r.1, r.2)
      | .error e => .error e

/-- The conversion of a Latin-1 header string to a Go string. -/
def latin1 (bs : List UInt8) : List Char := bs.map fun b => Char.ofNat b.toNat

/-- Bit `k` of the flag byte. -/
def flagSet (flg : UInt8) (k : Nat) : Bool := flg.toNat / 2 ^ k % 2 = 1

/-- The field FEXTRA of the header, read when bit 2 of the flags is set: the bytes read
and the input after them. -/
def readExtra (flg : UInt8) (input : List UInt8) : Except Error (List UInt8 × List UInt8) :=
  if flagSet flg 2 then
    match input with
    | l0 :: l1 :: more =>
      if more.length < l0.toNat + 256 * l1.toNat then .error Error.ioUnexpectedEOF
      else .ok (l0 :: l1 :: more.take (l0.toNat + 256 * l1.toNat),
        more.drop (l0.toNat + 256 * l1.toNat))
    | _ => .error Error.ioUnexpectedEOF
  else .ok ([], input)

/-- A string field of the header (FNAME, bit 3, or FCOMMENT, bit 4): the string and the
input after its NUL; the empty string when the bit is not set. -/
def readField (flg : UInt8) (bit : Nat) (input : List UInt8) :
    Except Error (List UInt8 × List UInt8) :=
  if flagSet flg bit then readString 0 input else .ok ([], input)

/-- The bytes a string field takes in the header. -/
def fieldBytes (flg : UInt8) (bit : Nat) (s : List UInt8) : List UInt8 :=
  if flagSet flg bit then s ++ [0] else []

/-- The field FHCRC of the header, checked when bit 1 of the flags is set, over the header
bytes `read` so far. -/
def readCrc (gz : Gzip) (flg : UInt8) (read : List UInt8) (input : List UInt8) :
    Except Error (List UInt8) :=
  if flagSet flg 1 then
    match input with
    | c0 :: c1 :: more =>
      if c0.toNat + 256 * c1.toNat = gz.headerCrc read % 65536 then .ok more
      else .error Error.gzipHeader
    | _ => .error Error.ioUnexpectedEOF
  else .ok input

/-- The optional fields of the header, after the first ten bytes `fixed`: FEXTRA, FNAME,
FCOMMENT, FHCRC, in this order. Gives the name and the input after the header. -/
def readOptional (gz : Gzip) (flg : UInt8) (fixed : List UInt8) (input : List UInt8) :
    Except Error (List Char × List UInt8) :=
  (readExtra flg input).bind fun extra =>
  (readField flg 3 extra.2).bind fun name =>
  (readField flg 4 name.2).bind fun comment =>
  (readCrc gz flg (fixed ++ extra.1 ++ fieldBytes flg 3 name.1 ++ fieldBytes flg 4 comment.1)
    comment.2).map fun rest => (latin1 name.1, rest)

/-- The method `Reader.readHeader`, which `gzip.NewReader` runs on the descriptor: the
header fields and the input that follows the header. -/
def readHeader (gz : Gzip) (d : Descriptor) : Except Error (Header × List UInt8) :=
  match d with
  | [] => .error Error.ioEOF
  | b0 :: b1 :: b2 :: flg :: t0 :: t1 :: t2 :: t3 :: xfl :: os :: input =>
    if b0 ≠ 0x1f ∨ b1 ≠ 0x8b ∨ b2 ≠ 8 then .error Error.gzipHeader
    else
      (readOptional gz flg [b0, b1, b2, flg, t0, t1, t2, t3, xfl, os] input).map fun r =>
        ({ Name := r.1,
           ModTime := if 0 < getUint32 t0 t1 t2 t3 then
             some (getUint32 t0 t1 t2 t3 * second) else none }, r.2)
  | _ => .error Error.ioUnexpectedEOF

/-- Info returns header information from the compressed data: name, modification time
and error. -/
def Info (gz : Gzip) (d : Descriptor) : List Char × Option Nat × Option Error :=
  match readHeader gz d with
  | .error err => ([], none, some err)
  | .ok r => (r.1.Name, r.1.ModTime, none)

/-- The reader `gzip.NewReader(bytes.NewBuffer(d))` as the methods `Package`, `Up` and
`Down` use it. -/
def openReader (gz : Gzip) (d : Descriptor) : GzipReader :=
  match readHeader gz d with
  | .error err => .failed err
  | .ok r => .stream (gz.inflate r.2).1 (gz.inflate r.2).2

/-- A descriptor is a valid compressed envelope: its header is read and its stream ends
with `io.EOF`. -/
def validEnvelope (gz : Gzip) (d : Descriptor) : Prop :=
  ∃ r, readHeader gz d = .ok r ∧ (gz.inflate r.2).2 = none

/-- A stand-in for the library on a stream that is cut off right after the header:
nothing is delivered and the read ends with `io.ErrUnexpectedEOF`. -/
def cutOff : Gzip :=
  { deflate := fun _ => [], headerCrc := fun _ => 0,
    inflate := fun _ => ([], some Error.ioUnexpectedEOF) }

/-- A stand-in for the library on a stream whose trailer is damaged: the text is
delivered in full and the read ends with `gzip.ErrChecksum`. -/
def badTrailer (text : List Char) : Gzip :=
  { deflate := fun _ => [], headerCrc := fun _ => 0,
    inflate := fun _ => (text, some Error.gzipChecksum) }

/-! ## Repr -/

/-- The call `fmt.Fprintf(&b, "0x%02x,", bit)`: two lower-case hexadecimal digits. -/
def fmtByte (bit : UInt8) : List Char :=
  ['0', 'x', Nat.digitChar (bit.toNat / 16), Nat.digitChar (bit.toNat % 16), ',']

/-- The inner loop of `Repr`, `for k, bit := range d[i:j]`, from index `k`, with
`m = j - i`. -/
def reprRow (m : Nat) : Nat → List UInt8 → List Char
  | _, [] => []
  | k, bit :: rest =>
    fmtByte bit ++ (if k < m - 1 then [' '] else []) ++ reprRow m (k + 1) rest

/-- The outer loop of `Repr`, `for i := 0; i < len(d); i += 16`, from `i`, for at most
`fuel` rounds. -/
def reprLoop (d : Descriptor) : Nat → Nat → List Char
  | 0, _ => []
  | fuel + 1, i =>
    if i < d.length then
      "\n\t".toList ++
        reprRow ((if i + 16 > d.length then d.length else i + 16) - i) 0
          ((d.drop i).take ((if i + 16 > d.length then d.length else i + 16) - i)) ++
        reprLoop d fuel (i + 16)
    else []

/-- Repr returns a string representation of the bytes data for embedding into source
code. The loop runs `ceil(len(d)/16)` rounds, so `len(d)` rounds of fuel are enough
(`reprLoop_eq` holds for every sufficient fuel). -/
def Repr (d : Descriptor) : List Char :=
  "[]byte\x7b\n".toList ++
    ("\t// ".toList ++ Nat.toDigits 10 d.length ++
      " bytes of compressed tidal.Descriptor data".toList) ++
    reprLoop d d.length 0 ++ "\n\x7d".toList

/-- The number of hex rows: `ceil(n/16)`. -/
def numRows (d : Descriptor) : Nat := (d.length + 15) / 16

/-- The bytes of row `r`: `d[16r : min(16r+16, n)]`. -/
def rowBytes (d : Descriptor) (r : Nat) : List UInt8 := (d.drop (16 * r)).take 16

/-- A hex row as the specification describes it: a tab, then the literals of the row's
bytes with one space between consecutive literals. -/
def hexRow (d : Descriptor) (r : Nat) : List Char :=
  '\t' :: (" ".toList).intercalate ((rowBytes d r).map fmtByte)

/-- The comment line of `Repr`. -/
def commentLine (d : Descriptor) : List Char :=
  "\t// ".toList ++ Nat.toDigits 10 d.length ++
    " bytes of compressed tidal.Descriptor data".toList

/-- The lines of `Repr` as the specification describes them. -/
def reprLines (d : Descriptor) : List (List Char) :=
  "[]byte\x7b".toList :: commentLine d :: ((List.range (numRows d)).map (hexRow d) ++ ["\x7d".toList])

/-- The value of a lower-case hexadecimal digit. -/
def hexVal (c : Char) : Option Nat :=
  if c.isDigit then some (c.toNat - 48)
  else if 97 ≤ c.toNat ∧ c.toNat ≤ 102 then some (c.toNat - 87) else none

/-- The byte of the literal `0xhh` that starts the text, if one does. -/
def literalAt : List Char → Option UInt8
  | '0' :: 'x' :: h :: l :: _ =>
    match hexVal h, hexVal l with
    | some a, some b => some (UInt8.ofNat (16 * a + b))
    | _, _ => none
  | _ => none

/-- The bytes of the `0x..` literals of a text, in order of appearance. -/
def readLiterals : List Char → List UInt8
  | [] => []
  | c :: rest =>
    match literalAt (c :: rest) with
    | some b => b :: readLiterals rest
    | none => readLiterals rest

/-- The number a run of decimal digits denotes. -/
def parseDigits (s : List Char) : Nat := s.foldl (fun a c => 10 * a + (c.toNat - 48)) 0

/-- The number written in the comment line (the second line) of a `Repr` text, after
the tab, the slashes and the space. -/
def commentCount (text : List Char) : Nat :=
  parseDigits ((((splitNL text).getD 1 []).drop 4).takeWhile Char.isDigit)

/-- The descriptor `generatedDescriptor` of `tidal_test.go`. -/
def generatedDescriptor : Descriptor :=
  [0x1f, 0x8b, 0x08, 0x08, 0x23, 0x3f, 0x35, 0x5f, 0x02, 0xff, 0x30, 0x30, 0x30, 0x31, 0x5f, 0x74,
   0x65, 0x73, 0x74, 0x5f, 0x6d, 0x69, 0x67, 0x72, 0x61, 0x74, 0x69, 0x6f, 0x6e, 0x2e, 0x73, 0x71,
   0x6c, 0x00, 0x8c, 0x92, 0x41, 0x6f, 0x9c, 0x30, 0x10, 0x85, 0xef, 0xfc, 0x8a, 0xa7, 0x3d, 0x2d,
   0xd2, 0x72, 0x68, 0xa4, 0x48, 0xd5, 0xe6, 0x44, 0x59, 0x53, 0xa1, 0x52, 0x36, 0x65, 0x41, 0x6a,
   0x4e, 0x95, 0x81, 0x01, 0xac, 0x82, 0x8d, 0x6c, 0x93, 0xfe, 0xfd, 0x8a, 0x40, 0xb2, 0x6c, 0xd5,
   0xa6, 0x1c, 0xad, 0x79, 0xf3, 0xe6, 0xf3, 0x9b, 0xf1, 0x3c, 0x64, 0xad, 0x30, 0x10, 0x06, 0x1c,
   0x0d, 0x49, 0xd2, 0xbc, 0x43, 0xa9, 0xfa, 0x9e, 0xa4, 0x45, 0xad, 0x34, 0x6c, 0x4b, 0x20, 0x69,
   0x85, 0x26, 0xf4, 0xa2, 0xd1, 0xdc, 0x0a, 0x25, 0x51, 0x8b, 0x8e, 0x1c, 0xcf, 0xc3, 0xc0, 0xcb,
   0x9f, 0xbc, 0xa1, 0x23, 0x6a, 0xa5, 0xa6, 0xf7, 0xac, 0xa0, 0x23, 0xc6, 0x61, 0x7a, 0x26, 0xe7,
   0x8c, 0x1d, 0x61, 0xdf, 0xfc, 0xff, 0xf4, 0x1d, 0x87, 0xab, 0xe7, 0xa4, 0x0f, 0xe6, 0xba, 0x81,
   0x69, 0xd5, 0xd8, 0x55, 0x28, 0x08, 0x42, 0x96, 0xdd, 0x58, 0x51, 0x85, 0x62, 0xb4, 0x10, 0x8d,
   0x54, 0x9a, 0x2a, 0xc7, 0x09, 0x52, 0xe6, 0x67, 0x0c, 0x99, 0xff, 0x29, 0x66, 0x88, 0xc2, 0x69,
   0x10, 0xd8, 0xf7, 0xe8, 0x92, 0x5d, 0x30, 0x1a, 0xd2, 0x06, 0x7b, 0x07, 0x00, 0x76, 0xa2, 0xda,
   0x41, 0x48, 0x4b, 0x0d, 0x69, 0x3c, 0xa6, 0xd1, 0x57, 0x3f, 0x7d, 0xc2, 0x17, 0xf6, 0x74, 0x98,
   0xab, 0x93, 0x54, 0xf2, 0x9e, 0x76, 0x78, 0xe6, 0xba, 0x6c, 0xb9, 0xde, 0x7f, 0xb8, 0xfb, 0xe8,
   0xbe, 0x98, 0x25, 0x79, 0x1c, 0x23, 0x4f, 0xa2, 0x6f, 0x39, 0x5b, 0xc4, 0xd4, 0x73, 0xd1, 0x6d,
   0x51, 0xae, 0xe6, 0x60, 0x3f, 0x11, 0xb8, 0x8e, 0xfb, 0xf0, 0x2e, 0x72, 0xa3, 0xd5, 0x38, 0x6c,
   0x64, 0xbe, 0xe5, 0xbd, 0xbb, 0xbf, 0xff, 0x17, 0x2f, 0x2f, 0xad, 0x78, 0xa6, 0x1d, 0x0a, 0xa5,
   0x3a, 0xe2, 0x12, 0x27, 0x16, 0xfa, 0x79, 0x9c, 0xa1, 0xe6, 0x9d, 0xa1, 0xc3, 0xff, 0x90, 0x7a,
   0xea, 0x0b, 0xd2, 0xa6, 0x15, 0xc3, 0xf6, 0x28, 0x7f, 0xac, 0x25, 0xaf, 0x50, 0x4b, 0xfd, 0xe5,
   0x8b, 0xef, 0x08, 0xc2, 0x73, 0xca, 0xa2, 0xcf, 0xc9, 0x12, 0xda, 0xab, 0x9b, 0x8b, 0x94, 0x85,
   0x2c, 0x65, 0x49, 0xc0, 0x96, 0xc5, 0xce, 0x81, 0xfe, 0xad, 0xe7, 0x6d, 0xc2, 0x4d, 0xd3, 0x1c,
   0xed, 0xba, 0x6b, 0x0e, 0xe9, 0x3a, 0xe3, 0xb0, 0x82, 0x9b, 0x37, 0xb5, 0xbe, 0xe3, 0x4a, 0xfd,
   0x92, 0x5b, 0x2e, 0x79, 0xd2, 0xad, 0x6e, 0xd9, 0x39, 0xa5, 0xe7, 0xc7, 0x6b, 0xb0, 0x37, 0xa7,
   0x19, 0xf8, 0x97, 0xc0, 0x3f, 0xb1, 0x87, 0xdf, 0x01, 0x00, 0x00, 0xff, 0xff, 0x3d, 0x3c, 0x7c,
   0xe3, 0x7a, 0x03, 0x00, 0x00]

/-- The lines of the literal `generatedDescriptor` in `tidal_test.go` after the opening
line `[]byte` with its brace: the comment, the hex rows and the closing brace. -/
def generatedLines : List (List Char) :=
  ["\t// 405 bytes of compressed tidal.Descriptor data".toList,
   "\t0x1f, 0x8b, 0x08, 0x08, 0x23, 0x3f, 0x35, 0x5f, 0x02, 0xff, 0x30, 0x30, 0x30, 0x31, 0x5f, 0x74,".toList,
   "\t0x65, 0x73, 0x74, 0x5f, 0x6d, 0x69, 0x67, 0x72, 0x61, 0x74, 0x69, 0x6f, 0x6e, 0x2e, 0x73, 0x71,".toList,
   "\t0x6c, 0x00, 0x8c, 0x92, 0x41, 0x6f, 0x9c, 0x30, 0x10, 0x85, 0xef, 0xfc, 0x8a, 0xa7, 0x3d, 0x2d,".toList,
   "\t0xd2, 0x72, 0x68, 0xa4, 0x48, 0xd5, 0xe6, 0x44, 0x59, 0x53, 0xa1, 0x52, 0x36, 0x65, 0x41, 0x6a,".toList,
   "\t0x4e, 0x95, 0x81, 0x01, 0xac, 0x82, 0x8d, 0x6c, 0x93, 0xfe, 0xfd, 0x8a, 0x40, 0xb2, 0x6c, 0xd5,".toList,
   "\t0xa6, 0x1c, 0xad, 0x79, 0xf3, 0xe6, 0xf3, 0x9b, 0xf1, 0x3c, 0x64, 0xad, 0x30, 0x10, 0x06, 0x1c,".toList,
   "\t0x0d, 0x49, 0xd2, 0xbc, 0x43, 0xa9, 0xfa, 0x9e, 0xa4, 0x45, 0xad, 0x34, 0x6c, 0x4b, 0x20, 0x69,".toList,
   "\t0x85, 0x26, 0xf4, 0xa2, 0xd1, 0xdc, 0x0a, 0x25, 0x51, 0x8b, 0x8e, 0x1c, 0xcf, 0xc3, 0xc0, 0xcb,".toList,
   "\t0x9f, 0xbc, 0xa1, 0x23, 0x6a, 0xa5, 0xa6, 0xf7, 0xac, 0xa0, 0x23, 0xc6, 0x61, 0x7a, 0x26, 0xe7,".toList,
   "\t0x8c, 0x1d, 0x61, 0xdf, 0xfc, 0xff, 0xf4, 0x1d, 0x87, 0xab, 0xe7, 0xa4, 0x0f, 0xe6, 0xba, 0x81,".toList,
   "\t0x69, 0xd5, 0xd8, 0x55, 0x28, 0x08, 0x42, 0x96, 0xdd, 0x58, 0x51, 0x85, 0x62, 0xb4, 0x10, 0x8d,".toList,
   "\t0x54, 0x9a, 0x2a, 0xc7, 0x09, 0x52, 0xe6, 0x67, 0x0c, 0x99, 0xff, 0x29, 0x66, 0x88, 0xc2, 0x69,".toList,
   "\t0x10, 0xd8, 0xf7, 0xe8, 0x92, 0x5d, 0x30, 0x1a, 0xd2, 0x06, 0x7b, 0x07, 0x00, 0x76, 0xa2, 0xda,".toList,
   "\t0x41, 0x48, 0x4b, 0x0d, 0x69, 0x3c, 0xa6, 0xd1, 0x57, 0x3f, 0x7d, 0xc2, 0x17, 0xf6, 0x74, 0x98,".toList,
   "\t0xab, 0x93, 0x54, 0xf2, 0x9e, 0x76, 0x78, 0xe6, 0xba, 0x6c, 0xb9, 0xde, 0x7f, 0xb8, 0xfb, 0xe8,".toList,
   "\t0xbe, 0x98, 0x25, 0x79, 0x1c, 0x23, 0x4f, 0xa2, 0x6f, 0x39, 0x5b, 0xc4, 0xd4, 0x73, 0xd1, 0x6d,".toList,
   "\t0x51, 0xae, 0xe6, 0x60, 0x3f, 0x11, 0xb8, 0x8e, 0xfb, 0xf0, 0x2e, 0x72, 0xa3, 0xd5, 0x38, 0x6c,".toList,
   "\t0x64, 0xbe, 0xe5, 0xbd, 0xbb, 0xbf, 0xff, 0x17, 0x2f, 0x2f, 0xad, 0x78, 0xa6, 0x1d, 0x0a, 0xa5,".toList,
   "\t0x3a, 0xe2, 0x12, 0x27, 0x16, 0xfa, 0x79, 0x9c, 0xa1, 0xe6, 0x9d, 0xa1, 0xc3, 0xff, 0x90, 0x7a,".toList,
   "\t0xea, 0x0b, 0xd2, 0xa6, 0x15, 0xc3, 0xf6, 0x28, 0x7f, 0xac, 0x25, 0xaf, 0x50, 0x4b, 0xfd, 0xe5,".toList,
   "\t0x8b, 0xef, 0x08, 0xc2, 0x73, 0xca, 0xa2, 0xcf, 0xc9, 0x12, 0xda, 0xab, 0x9b, 0x8b, 0x94, 0x85,".toList,
   "\t0x2c, 0x65, 0x49, 0xc0, 0x96, 0xc5, 0xce, 0x81, 0xfe, 0xad, 0xe7, 0x6d, 0xc2, 0x4d, 0xd3, 0x1c,".toList,
   "\t0xed, 0xba, 0x6b, 0x0e, 0xe9, 0x3a, 0xe3, 0xb0, 0x82, 0x9b, 0x37, 0xb5, 0xbe, 0xe3, 0x4a, 0xfd,".toList,
   "\t0x92, 0x5b, 0x2e, 0x79, 0xd2, 0xad, 0x6e, 0xd9, 0x39, 0xa5, 0xe7, 0xc7, 0x6b, 0xb0, 0x37, 0xa7,".toList,
   "\t0x19, 0xf8, 0x97, 0xc0, 0x3f, 0xb1, 0x87, 0xdf, 0x01, 0x00, 0x00, 0xff, 0xff, 0x3d, 0x3c, 0x7c,".toList,
   "\t0xe3, 0x7a, 0x03, 0x00, 0x00,".toList,
   "\x7d".toList]

/-- The text of the literal `generatedDescriptor` in `tidal_test.go`, from `[]byte` to the
closing brace. -/
def generatedText : List Char :=
  "[]byte\x7b".toList ++ (generatedLines.map fun l => '\n' :: l).flatten

/-! ## Vocabulary of the specification -/

/-- The text made of the given lines, each followed by a newline. -/
def unlines : List (List Char) → List Char
  | [] => []
  | l :: ls => l ++ '\n' :: unlines ls

/-- The keyword of a migrate-directive line, lower-cased; `none` for any other line. -/
def directive (line : List Char) : Option (List Char) :=
  (migreSubmatch line).map toLower

/-- The keyword of the nearest directive line among the lines `pre` that precede a line;
`none` when no directive line precedes it. -/
def nearestDirective (pre : List (List Char)) : Option (List Char) :=
  (pre.reverse.filterMap directive).head?

/-- The lines of `rest` that belong to a region of `target`, in document order: the
non-directive lines whose nearest preceding directive line exists and has keyword
`target`. The lines `pre` are the ones before `rest`. -/
def regionLines (target : List Char) : List (List Char) → List (List Char) → List (List Char)
  | _, [] => []
  | pre, l :: ls =>
    if directive l = none ∧ nearestDirective pre = some target then
      l :: regionLines target (pre ++ [l]) ls
    else regionLines target (pre ++ [l]) ls

/-- A line the scanner can hold: fewer than `maxScanTokenSize` bytes. -/
def fits (l : List Char) : Prop := utf8Len l < maxScanTokenSize

instance (l : List Char) : Decidable (fits l) := by unfold fits; infer_instance

/-- A region of a migration file: a directive line and the lines that follow it up to the
next directive line. -/
abbrev Region := List Char × List (List Char)

/-- The lines of a file made of the given regions, in order. -/
def regionsLines : List Region → List (List Char)
  | [] => []
  | r :: rs => r.1 :: r.2 ++ regionsLines rs

/-- The body lines of the regions whose directive has keyword `target`, in order. -/
def regionBodies (target : List Char) : List Region → List (List Char)
  | [] => []
  | r :: rs =>
    if directive r.1 = some target then r.2 ++ regionBodies target rs
    else regionBodies target rs

/-- A line as the claims speak of it inside a block: it holds no newline, is not a
migrate directive, and the scanner can hold it. -/
def plainLine (l : List Char) : Prop := '\n' ∉ l ∧ directive l = none ∧ fits l

instance (l : List Char) : Decidable (plainLine l) := by unfold plainLine; infer_instance

/-- A directive line with keyword `kw` as it can stand in a file: it holds no newline and
the scanner can hold it. -/
def directiveLine (kw l : List Char) : Prop := '\n' ∉ l ∧ directive l = some kw ∧ fits l

instance (kw l : List Char) : Decidable (directiveLine kw l) := by
  unfold directiveLine; infer_instance

/-- A line that is some migrate directive and can stand in a file. -/
def isDirectiveLine (l : List Char) : Prop :=
  '\n' ∉ l ∧ (directive l).isSome = true ∧ fits l

instance (l : List Char) : Decidable (isDirectiveLine l) := by
  unfold isDirectiveLine; infer_instance

/-- A line of 65536 bytes, the smallest the scanner cannot hold. -/
def longLine : List Char := List.replicate maxScanTokenSize 'a'

/-- The line `-- migrate: up`. -/
def upLine : List Char := "-- migrate: up".toList

/-- The line `-- migrate: down`. -/
def downLine : List Char := "-- migrate: down".toList

/-- The line `-- migrate: end`. -/
def endLine : List Char := "-- migrate: end".toList

/-- A space or a tab. -/
def isBlank (c : Char) : Bool := c = ' ' || c = '\t'

/-- The upper-case ASCII letters, the runes `strings.ToLower` changes in ASCII text. -/
def upperLetters : List Char := "ABCDEFGHIJKLMNOPQRSTUVWXYZ".toList

/-- The runes of the literals of `migre` and `pkgre` that stand under `(?i)`. -/
def patternRunes : List Char := "migrate:updownendpackage".toList

/-- The lines that follow a line when the text after it is `Q` (empty, or a newline and
the rest of the file). -/
def restLines (Q : List Char) : List (List Char) :=
  match Q with
  | [] => []
  | _ :: Q' => rawLines Q'

/-- What comes after a line inside a file: nothing, or a newline and more text. -/
def lineEnd (Q : List Char) : Prop := Q = [] ∨ Q.head? = some '\n'

instance (Q : List Char) : Decidable (lineEnd Q) := by unfold lineEnd; infer_instance

/-- Whitespace that can stand inside a line: runes of the class `\s` other than the
newline. -/
def lineSpace (s : List Char) : Prop := ∀ c ∈ s, isSpace c = true ∧ c ≠ '\n'

instance (s : List Char) : Decidable (lineSpace s) := by unfold lineSpace; infer_instance

/-- The text ends in a line of exactly `maxScanTokenSize` bytes that no newline ends: the
one input on which the answer of the scanner is not fixed by the text (the buffer is full
when the reader reports its end, and the line is delivered or refused with `ErrTooLong`
depending on whether the last read brings `io.EOF` along with its bytes). -/
def endsAtLimit (T : List Char) : Bool :=
  match (rawLines T).getLast? with
  | some x => decide (utf8Len x = maxScanTokenSize) && decide (T.getLast? ≠ some '\n')
  | none => false

/-- The line `-- migrate: up` behind 65536 spaces. -/
def paddedUpLine : List Char := List.replicate maxScanTokenSize ' ' ++ upLine

/-! ## Lemmas: lines and the scanner -/

theorem splitNL_ne_nil (s : List Char) : splitNL s ≠ [] := by
  cases s with
  | nil => simp [splitNL]
  | cons c cs =>
    simp only [splitNL]
    split
    · simp
    · split <;> simp

theorem splitNL_append_nl (l rest : List Char) (h : '\n' ∉ l) :
    splitNL (l ++ '\n' :: rest) = l :: splitNL rest := by
  induction l with
  | nil => simp [splitNL]
  | cons c cs ih =>
    have hc : c ≠ '\n' := fun e => h (by simp [e])
    have hcs : '\n' ∉ cs := fun e => h (by simp [e])
    have e := ih hcs
    rw [List.cons_append]
    simp only [splitNL, hc, if_false]
    rw [e]

theorem splitNL_noNL (s : List Char) : ∀ p ∈ splitNL s, '\n' ∉ p := by
  induction s with
  | nil => simp [splitNL]
  | cons c cs ih =>
    intro p hp
    simp only [splitNL] at hp
    split at hp
    · rcases List.mem_cons.1 hp with rfl | hp
      · simp
      · exact ih p hp
    · rename_i hc
      split at hp
      · rename_i l ls heq
        rcases List.mem_cons.1 hp with rfl | hp
        · have := ih l (by simp [heq])
          intro hm
          rcases List.mem_cons.1 hm with e | e
          · exact hc e.symm
          · exact this e
        · exact ih p (by simp [heq, hp])
      · simp at hp
        subst hp
        simpa using fun e : '\n' = c => hc e.symm

theorem rawLines_nil : rawLines [] = [] := by
  simp [rawLines, splitNL]

theorem rawLines_line (l rest : List Char) (h : '\n' ∉ l) :
    rawLines (l ++ '\n' :: rest) = l :: rawLines rest := by
  unfold rawLines
  simp only [splitNL_append_nl l rest h]
  obtain ⟨p, ps, hps⟩ := List.exists_cons_of_ne_nil (splitNL_ne_nil rest)
  simp only [hps, List.getLast?_cons_cons, List.dropLast_cons₂]
  split <;> rfl

theorem rawLines_unlines_append (ls : List (List Char)) (tail : List Char)
    (h : ∀ l ∈ ls, '\n' ∉ l) : rawLines (unlines ls ++ tail) = ls ++ rawLines tail := by
  induction ls with
  | nil => simp [unlines]
  | cons l ls ih =>
    have h1 : '\n' ∉ l := h l (by simp)
    have h2 : ∀ x ∈ ls, '\n' ∉ x := fun x hx => h x (by simp [hx])
    simp only [unlines, List.append_assoc, List.cons_append]
    rw [rawLines_line l _ h1, ih h2]

theorem rawLines_unlines (ls : List (List Char)) (h : ∀ l ∈ ls, '\n' ∉ l) :
    rawLines (unlines ls) = ls := by
  have := rawLines_unlines_append ls [] h
  simpa [rawLines_nil] using this

theorem rawLines_last (l : List Char) (h : '\n' ∉ l) (hne : l ≠ []) :
    rawLines l = [l] := by
  have hs : splitNL l = [l] := by
    induction l with
    | nil => exact absurd rfl hne
    | cons c cs ih =>
      have hc : c ≠ '\n' := fun e => h (by simp [e])
      have hcs : '\n' ∉ cs := fun e => h (by simp [e])
      cases cs with
      | nil => simp [splitNL, hc]
      | cons d ds =>
        have := ih hcs (by simp)
        simp only [splitNL, hc, if_false] at this ⊢
        rw [this]
  unfold rawLines
  simp [hs, hne]

theorem rawLines_noNL (s : List Char) : ∀ l ∈ rawLines s, '\n' ∉ l := by
  intro l hl
  unfold rawLines at hl
  simp only at hl
  split at hl
  · exact splitNL_noNL s l (List.mem_of_mem_dropLast hl)
  · exact splitNL_noNL s l hl

theorem utf8Len_replicate (n : Nat) (c : Char) :
    utf8Len (List.replicate n c) = n * c.utf8Size := by
  simp [utf8Len, List.sum_replicate]

theorem scanTokens_fits (rerr : Option Error) (ls : List (List Char))
    (h : ∀ l ∈ ls, fits l) : scanTokens rerr ls = (ls.map dropCR, rerr) := by
  induction ls with
  | nil => rfl
  | cons l ls ih =>
    have h1 : ¬ maxScanTokenSize ≤ utf8Len l := Nat.not_le.2 (h l (by simp))
    have h2 := ih (fun x hx => h x (by simp [hx]))
    simp [scanTokens, h1, h2]

theorem scanTokens_append (rerr : Option Error) (a b : List (List Char))
    (h : ∀ l ∈ a, fits l) :
    scanTokens rerr (a ++ b) =
      (a.map dropCR ++ (scanTokens rerr b).1, (scanTokens rerr b).2) := by
  induction a with
  | nil => rfl
  | cons l ls ih =>
    have h1 : ¬ maxScanTokenSize ≤ utf8Len l := Nat.not_le.2 (h l (by simp))
    have h2 := ih (fun x hx => h x (by simp [hx]))
    simp [scanTokens, h1, h2]

theorem scanTokens_tooLong (rerr : Option Error) (l : List Char) (ls : List (List Char))
    (h : maxScanTokenSize ≤ utf8Len l) :
    scanTokens rerr (l :: ls) = ([], some Error.ErrTooLong) := by
  simp [scanTokens, h]

/-! ## Lemmas: whitespace around a directive -/

theorem isSpace_cases {w : Char} (hw : isSpace w = true) :
    w = '\t' ∨ w = '\n' ∨ w = '\x0c' ∨ w = '\r' ∨ w = ' ' := by
  simpa [isSpace, or_assoc] using hw

theorem skipSpaces_snoc (x : List Char) (w : Char) (hw : isSpace w = true) :
    skipSpaces (x ++ [w]) = if skipSpaces x = [] then [] else skipSpaces x ++ [w] := by
  induction x with
  | nil => simp [skipSpaces, hw]
  | cons c cs ih =>
    simp only [skipSpaces, List.cons_append, List.dropWhile_cons] at ih ⊢
    by_cases hc : isSpace c = true
    · simp only [hc, if_true]; exact ih
    · simp [hc]

theorem skipSpaces_snoc_congr {α : Type} (G : List Char → Option α) (w : Char)
    (hw : isSpace w = true) (hG : ∀ y, G (y ++ [w]) = G y) (x : List Char) :
    G (skipSpaces (x ++ [w])) = G (skipSpaces x) := by
  rw [skipSpaces_snoc x w hw]
  split
  · rename_i h; rw [h]
  · exact hG _

theorem spaces1_snoc_congr {α : Type} (G : List Char → Option α) (w : Char)
    (hw : isSpace w = true) (hG : ∀ y, G (y ++ [w]) = G y) (hnil : G [] = none)
    (x : List Char) : (spaces1 (x ++ [w])).bind G = (spaces1 x).bind G := by
  cases x with
  | nil => simp [spaces1, hw, skipSpaces, hnil]
  | cons c cs =>
    simp only [List.cons_append, spaces1]
    by_cases hc : isSpace c = true
    · simp only [hc, if_true, Option.some_bind]
      exact skipSpaces_snoc_congr G w hw hG cs
    · simp [hc]

theorem lit_snoc (p : List Char) (w : Char) (hp : ∀ q ∈ p, w ≠ q) (x : List Char) :
    lit p (x ++ [w]) = (lit p x).map (· ++ [w]) := by
  induction p generalizing x with
  | nil => simp [lit]
  | cons q qs ih =>
    have hq : w ≠ q := hp q (by simp)
    have hqs : ∀ r ∈ qs, w ≠ r := fun r hr => hp r (by simp [hr])
    cases x with
    | nil => simp [lit, hq]
    | cons c cs =>
      simp only [List.cons_append, lit]
      split
      · exact ih hqs cs
      · rfl

theorem litFold_snoc (p : List Char) (w : Char) (hp : ∀ q ∈ p, foldMatch q w = false)
    (x : List Char) : litFold p (x ++ [w]) = (litFold p x).map (· ++ [w]) := by
  induction p generalizing x with
  | nil => simp [litFold]
  | cons q qs ih =>
    have hq : foldMatch q w = false := hp q (by simp)
    have hqs : ∀ r ∈ qs, foldMatch r w = false := fun r hr => hp r (by simp [hr])
    cases x with
    | nil => simp [litFold, hq]
    | cons c cs =>
      simp only [List.cons_append, litFold]
      split
      · exact ih hqs cs
      · rfl

theorem litFold_length (p x r : List Char) (h : litFold p x = some r) :
    x.length = p.length + r.length := by
  induction p generalizing x with
  | nil => simp [litFold] at h; subst h; simp
  | cons q qs ih =>
    cases x with
    | nil => simp [litFold] at h
    | cons c cs =>
      simp only [litFold] at h
      split at h
      · have := ih cs h; simp [this]; omega
      · cases h

theorem altFold_snoc (alts : List (List Char)) (w : Char)
    (hp : ∀ a ∈ alts, ∀ q ∈ a, foldMatch q w = false) (x : List Char) :
    altFold alts (x ++ [w]) = (altFold alts x).map (fun r => (r.1, r.2 ++ [w])) := by
  induction alts with
  | nil => simp [altFold]
  | cons a as ih =>
    have ha := litFold_snoc a w (hp a (by simp)) x
    have has := ih (fun b hb => hp b (by simp [hb]))
    simp only [altFold, ha]
    cases hx : litFold a x with
    | none => simpa using has
    | some r =>
      have hl := litFold_length a x r hx
      simp [List.take_append_of_le_length (show a.length ≤ x.length by omega)]

theorem space_not_fold (pat : List Char) (w : Char) (hw : isSpace w = true)
    (hpat : ∀ q ∈ pat, ∀ v ∈ ['\t', '\n', '\x0c', '\r', ' '], foldMatch q v = false) :
    ∀ q ∈ pat, foldMatch q w = false := by
  intro q hq
  rcases isSpace_cases hw with h | h | h | h | h <;> subst h <;> exact hpat q hq _ (by simp)

theorem migreSubmatch_snoc (l : List Char) (w : Char) (hw : isSpace w = true) :
    migreSubmatch (l ++ [w]) = migreSubmatch l := by
  have hdash : ∀ q ∈ "--".toList, w ≠ q := by
    intro q hq
    have : q = '-' := by simpa using hq
    subst this
    rcases isSpace_cases hw with h | h | h | h | h <;> subst h <;> decide
  have hmig := space_not_fold "migrate:".toList w hw (by decide)
  have halt : ∀ a ∈ ["up".toList, "down".toList, "end".toList], ∀ q ∈ a,
      foldMatch q w = false := by
    intro a ha
    simp only [List.mem_cons, List.mem_singleton, List.not_mem_nil, or_false] at ha
    rcases ha with rfl | rfl | rfl
    · exact space_not_fold _ w hw (by decide)
    · exact space_not_fold _ w hw (by decide)
    · exact space_not_fold _ w hw (by decide)
  let G5 : List Char × List Char → Option (List Char) :=
    fun r => if skipSpaces r.2 = [] then some r.1 else none
  let G4 : List Char → Option (List Char) :=
    fun s4 => (altFold ["up".toList, "down".toList, "end".toList] s4).bind G5
  let G3 : List Char → Option (List Char) := fun s3 => (spaces1 s3).bind G4
  let G2 : List Char → Option (List Char) :=
    fun s2 => (litFold "migrate:".toList s2).bind G3
  let G1 : List Char → Option (List Char) := fun s1 => (spaces1 s1).bind G2
  let G0 : List Char → Option (List Char) := fun s => (lit "--".toList s).bind G1
  have h4 : ∀ y, G4 (y ++ [w]) = G4 y := by
    intro y
    show (altFold _ (y ++ [w])).bind G5 = (altFold _ y).bind G5
    rw [altFold_snoc _ w halt y, Option.bind_map]
    congr 1; funext r
    show (if skipSpaces (r.2 ++ [w]) = [] then some r.1 else none) =
      (if skipSpaces r.2 = [] then some r.1 else none)
    rw [skipSpaces_snoc r.2 w hw]
    by_cases h : skipSpaces r.2 = [] <;> simp [h]
  have h3 : ∀ y, G3 (y ++ [w]) = G3 y := spaces1_snoc_congr G4 w hw h4 rfl
  have h2 : ∀ y, G2 (y ++ [w]) = G2 y := by
    intro y
    show (litFold _ (y ++ [w])).bind G3 = (litFold _ y).bind G3
    rw [litFold_snoc _ w hmig y, Option.bind_map]
    congr 1; funext r
    exact h3 r
  have h1 : ∀ y, G1 (y ++ [w]) = G1 y := spaces1_snoc_congr G2 w hw h2 rfl
  have h0 : ∀ y, G0 (y ++ [w]) = G0 y := by
    intro y
    show (lit _ (y ++ [w])).bind G1 = (lit _ y).bind G1
    rw [lit_snoc _ w hdash y, Option.bind_map]
    congr 1; funext r
    exact h1 r
  exact skipSpaces_snoc_congr G0 w hw h0 l

theorem migreSubmatch_append_spaces (l ws : List Char) (hws : ∀ w ∈ ws, isSpace w = true) :
    migreSubmatch (l ++ ws) = migreSubmatch l := by
  induction ws using List.reverseRecOn with
  | nil => simp
  | append_singleton ws w ih =>
    rw [← List.append_assoc, migreSubmatch_snoc _ w (hws w (by simp))]
    exact ih (fun v hv => hws v (by simp [hv]))

theorem migreSubmatch_spaces_append (ws l : List Char) (hws : ∀ w ∈ ws, isSpace w = true) :
    migreSubmatch (ws ++ l) = migreSubmatch l := by
  unfold migreSubmatch skipSpaces
  rw [List.dropWhile_append_of_pos hws]

theorem dropCR_cases (l : List Char) : dropCR l = l ∨ l = dropCR l ++ ['\r'] := by
  unfold dropCR
  split
  · rename_i h
    right
    exact (List.dropLast_append_getLast? _ h).symm
  · left; rfl

theorem migreSubmatch_dropCR (l : List Char) : migreSubmatch (dropCR l) = migreSubmatch l := by
  rcases dropCR_cases l with h | h
  · rw [h]
  · conv => rhs; rw [h]
    exact (migreSubmatch_snoc _ '\r' (by decide)).symm

theorem directive_dropCR (l : List Char) : directive (dropCR l) = directive l := by
  simp [directive, migreSubmatch_dropCR]

/-! ## Lemmas: the loop of readBetween -/

theorem directive_eq_none_iff (l : List Char) : directive l = none ↔ migreSubmatch l = none := by
  simp [directive]

theorem unlines_append (a b : List (List Char)) : unlines (a ++ b) = unlines a ++ unlines b := by
  induction a with
  | nil => rfl
  | cons l ls ih => simp [unlines, ih]

theorem readLoop_cons (target : List Char) (st : List Char × Bool) (l : List Char)
    (ls : List (List Char)) :
    readLoop target st (l :: ls) = readLoop target (readStep target st l) ls := rfl

theorem readLoop_append (target : List Char) (st : List Char × Bool)
    (a b : List (List Char)) :
    readLoop target st (a ++ b) = readLoop target (readLoop target st a) b := by
  simp [readLoop, List.foldl_append]

theorem readStep_directive (target : List Char) (st : List Char × Bool) (l kw : List Char)
    (h : directive l = some kw) : readStep target st l = (st.1, decide (kw = target)) := by
  unfold directive at h
  cases hm : migreSubmatch l with
  | none => simp [hm] at h
  | some k =>
    simp [hm] at h
    simp [readStep, hm, h]

theorem readStep_plain (target : List Char) (st : List Char × Bool) (l : List Char)
    (h : directive l = none) :
    readStep target st l = if st.2 then (st.1 ++ l ++ ['\n'], st.2) else st := by
  rw [directive_eq_none_iff] at h
  simp [readStep, h]

theorem readLoop_plain (target : List Char) (sb : List Char) (b : Bool)
    (block : List (List Char)) (h : ∀ l ∈ block, directive l = none) :
    readLoop target (sb, b) block = (if b then sb ++ unlines block else sb, b) := by
  induction block generalizing sb with
  | nil => cases b <;> simp [readLoop, unlines]
  | cons l ls ih =>
    have h1 := h l (by simp)
    have h2 : ∀ x ∈ ls, directive x = none := fun x hx => h x (by simp [hx])
    rw [readLoop_cons, readStep_plain target _ l h1]
    cases b
    · simpa using ih sb h2
    · simp only [if_true]
      rw [ih _ h2]
      simp [unlines]

theorem nearestDirective_snoc (pre : List (List Char)) (l : List Char) :
    nearestDirective (pre ++ [l]) =
      match directive l with
      | some k => some k
      | none => nearestDirective pre := by
  unfold nearestDirective
  rw [List.reverse_append]
  simp only [List.reverse_cons, List.reverse_nil, List.nil_append, List.singleton_append,
    List.filterMap_cons]
  cases directive l <;> simp

theorem readLoop_regionLines (target : List Char) (toks : List (List Char)) :
    ∀ (pre : List (List Char)) (sb : List Char),
      readLoop target (sb, decide (nearestDirective pre = some target)) toks =
        (sb ++ unlines (regionLines target pre toks),
          decide (nearestDirective (pre ++ toks) = some target)) := by
  induction toks with
  | nil => intro pre sb; simp [readLoop, regionLines, unlines]
  | cons l ls ih =>
    intro pre sb
    have hpre : pre ++ l :: ls = (pre ++ [l]) ++ ls := by simp
    rw [readLoop_cons, hpre]
    cases hd : directive l with
    | some k =>
      have hn : nearestDirective (pre ++ [l]) = some k := by
        rw [nearestDirective_snoc, hd]
      rw [readStep_directive target _ l k hd]
      have := ih (pre ++ [l]) sb
      rw [hn] at this
      simp only [Option.some.injEq] at this
      rw [this]
      simp [regionLines, hd, hn]
    | none =>
      have hn : nearestDirective (pre ++ [l]) = nearestDirective pre := by
        rw [nearestDirective_snoc, hd]
      rw [readStep_plain target _ l hd]
      by_cases hb : nearestDirective pre = some target
      · have := ih (pre ++ [l]) (sb ++ l ++ ['\n'])
        rw [hn] at this
        simp only [hb, decide_True, if_true] at this ⊢
        rw [this]
        simp [regionLines, hd, hb, unlines, hn]
      · have := ih (pre ++ [l]) sb
        rw [hn] at this
        simp only [hb, decide_False] at this ⊢
        simp only [Bool.false_eq_true, if_false]
        rw [this]
        simp [regionLines, hd, hb, hn]

theorem nearestDirective_nil : nearestDirective [] = none := rfl

theorem readBetween_payload_fits (T target : List Char) (hfit : ∀ l ∈ rawLines T, fits l) :
    readBetween (payload T) target =
      ((readLoop target ([], false) ((rawLines T).map dropCR)).1, none) := by
  simp [readBetween, payload, scan, scanTokens_fits none _ hfit]

theorem regionLines_map_dropCR (target : List Char) (ls : List (List Char)) :
    ∀ pre, regionLines target (pre.map dropCR) (ls.map dropCR) =
      (regionLines target pre ls).map dropCR := by
  induction ls with
  | nil => intro pre; rfl
  | cons l ls ih =>
    intro pre
    have hn : nearestDirective (pre.map dropCR) = nearestDirective pre := by
      unfold nearestDirective
      rw [← List.map_reverse, List.filterMap_map]
      congr 1
      apply List.filterMap_congr
      intro x _
      exact directive_dropCR x
    have ih' := ih (pre ++ [l])
    simp only [List.map_append, List.map_cons, List.map_nil] at ih'
    simp only [List.map_cons, regionLines, directive_dropCR, hn, ih']
    split <;> simp

theorem longLine_noNL : '\n' ∉ longLine := by
  simp [longLine, List.mem_replicate]

theorem longLine_tooLong : maxScanTokenSize ≤ utf8Len longLine := by
  have h : Char.utf8Size 'a' = 1 := by decide
  rw [longLine, utf8Len_replicate, h]
  simp

theorem scan_tooLong (pre : List (List Char)) (l tail : List Char) (rerr : Option Error)
    (hpre : ∀ x ∈ pre, '\n' ∉ x ∧ fits x) (hl : '\n' ∉ l)
    (hlong : maxScanTokenSize ≤ utf8Len l) :
    scan (unlines pre ++ (l ++ '\n' :: tail)) rerr =
      (pre.map dropCR, some Error.ErrTooLong) := by
  unfold scan
  rw [rawLines_unlines_append pre _ (fun x hx => (hpre x hx).1), rawLines_line l tail hl,
    scanTokens_append rerr pre _ (fun x hx => (hpre x hx).2), scanTokens_tooLong rerr l _ hlong]
  simp

theorem readBetween_tooLong (pre : List (List Char)) (l tail target : List Char)
    (hpre : ∀ x ∈ pre, '\n' ∉ x ∧ fits x) (hl : '\n' ∉ l)
    (hlong : maxScanTokenSize ≤ utf8Len l) :
    readBetween (payload (unlines pre ++ (l ++ '\n' :: tail))) target =
      ((readLoop target ([], false) (pre.map dropCR)).1, some Error.ErrTooLong) := by
  simp only [readBetween, payload, scan_tooLong pre l tail none hpre hl hlong]

theorem regionsLines_map_dropCR (rs : List Region) :
    (regionsLines rs).map dropCR =
      regionsLines (rs.map fun r => (dropCR r.1, r.2.map dropCR)) := by
  induction rs with
  | nil => rfl
  | cons r rs ih => simp [regionsLines, ih]

theorem regionBodies_map_dropCR (target : List Char) (rs : List Region) :
    regionBodies target (rs.map fun r => (dropCR r.1, r.2.map dropCR)) =
      (regionBodies target rs).map dropCR := by
  induction rs with
  | nil => rfl
  | cons r rs ih =>
    simp only [List.map_cons, regionBodies, directive_dropCR, ih]
    split <;> simp

theorem readLoop_regions (target : List Char) (rs : List Region)
    (h : ∀ r ∈ rs, (directive r.1).isSome = true ∧ ∀ l ∈ r.2, directive l = none) :
    ∀ (sb : List Char) (b : Bool),
      (readLoop target (sb, b) (regionsLines rs)).1 =
        sb ++ unlines (regionBodies target rs) := by
  induction rs with
  | nil => intro sb b; simp [regionsLines, regionBodies, readLoop, unlines]
  | cons r rs ih =>
    intro sb b
    have hr := h r (by simp)
    have hrs := ih (fun x hx => h x (by simp [hx]))
    obtain ⟨kw, hkw⟩ := Option.isSome_iff_exists.1 hr.1
    simp only [regionsLines, regionBodies, List.cons_append]
    rw [readLoop_cons, readLoop_append, readStep_directive target _ r.1 kw hkw,
      readLoop_plain target _ _ r.2 hr.2, hrs, hkw]
    by_cases e : kw = target
    · simp [e, unlines_append]
    · simp [e]

theorem readBetween_preamble_regions (target : List Char) (pre : List (List Char))
    (rs : List Region) (hpre : ∀ l ∈ pre, plainLine l)
    (h : ∀ r ∈ rs, isDirectiveLine r.1 ∧ ∀ l ∈ r.2, plainLine l) :
    readBetween (payload (unlines (pre ++ regionsLines rs))) target =
      (unlines ((regionBodies target rs).map dropCR), none) := by
  have hall : ∀ l ∈ regionsLines rs, '\n' ∉ l ∧ fits l := by
    induction rs with
    | nil => simp [regionsLines]
    | cons r rs ih =>
      intro l hl
      simp only [regionsLines, List.mem_cons, List.mem_append] at hl
      have hr := h r (by simp)
      rcases hl with (rfl | hl) | hl
      · exact ⟨hr.1.1, hr.1.2.2⟩
      · exact ⟨(hr.2 l hl).1, (hr.2 l hl).2.2⟩
      · exact ih (fun x hx => h x (by simp [hx])) l hl
  have hall' : ∀ l ∈ pre ++ regionsLines rs, '\n' ∉ l ∧ fits l := by
    intro l hl
    rcases List.mem_append.1 hl with hl | hl
    · exact ⟨(hpre l hl).1, (hpre l hl).2.2⟩
    · exact hall l hl
  have hraw : rawLines (unlines (pre ++ regionsLines rs)) = pre ++ regionsLines rs :=
    rawLines_unlines _ (fun l hl => (hall' l hl).1)
  have hplain : ∀ l ∈ pre.map dropCR, directive l = none := by
    intro l hl
    obtain ⟨y, hy, rfl⟩ := List.mem_map.1 hl
    rw [directive_dropCR]
    exact (hpre y hy).2.1
  rw [readBetween_payload_fits _ _ (by rw [hraw]; exact fun l hl => (hall' l hl).2), hraw,
    List.map_append, readLoop_append, readLoop_plain target [] false _ hplain,
    regionsLines_map_dropCR]
  simp only [Bool.false_eq_true, if_false]
  rw [readLoop_regions, regionBodies_map_dropCR]
  · simp
  · intro r hr
    obtain ⟨x, hx, rfl⟩ := List.mem_map.1 hr
    obtain ⟨⟨_, hkw, _⟩, hb⟩ := h x hx
    refine ⟨by simpa [directive_dropCR] using hkw, ?_⟩
    intro l hl
    obtain ⟨y, hy, rfl⟩ := List.mem_map.1 hl
    rw [directive_dropCR]
    exact (hb y hy).2.1

theorem readBetween_regions (target : List Char) (rs : List Region)
    (h : ∀ r ∈ rs, isDirectiveLine r.1 ∧ ∀ l ∈ r.2, plainLine l) :
    readBetween (payload (unlines (regionsLines rs))) target =
      (unlines ((regionBodies target rs).map dropCR), none) := by
  simpa using readBetween_preamble_regions target [] rs (by simp) h

theorem unlines_middle (pre post : List (List Char)) (l : List Char) :
    unlines (pre ++ l :: post) = unlines pre ++ (l ++ '\n' :: unlines post) := by
  rw [unlines_append]; rfl

theorem readBetween_tooLong_lines (pre post : List (List Char)) (l target : List Char)
    (hpre : ∀ x ∈ pre, '\n' ∉ x ∧ fits x) (hl : '\n' ∉ l)
    (hlong : maxScanTokenSize ≤ utf8Len l) :
    readBetween (payload (unlines (pre ++ l :: post))) target =
      ((readLoop target ([], false) (pre.map dropCR)).1, some Error.ErrTooLong) := by
  rw [unlines_middle]
  exact readBetween_tooLong pre l _ target hpre hl hlong

theorem directive_longLine : directive longLine = none := by
  have h : longLine = 'a' :: List.replicate 65535 'a' := by
    rw [longLine, show maxScanTokenSize = 65535 + 1 from rfl, List.replicate_succ]
  rw [h]
  rfl

theorem scanTokens_sub (rerr : Option Error) (ls : List (List Char)) :
    ∀ t ∈ (scanTokens rerr ls).1, ∃ l ∈ ls, t = dropCR l := by
  induction ls with
  | nil => simp [scanTokens]
  | cons l ls ih =>
    intro t ht
    simp only [scanTokens] at ht
    split at ht
    · simp at ht
    · rcases List.mem_cons.1 ht with rfl | ht
      · exact ⟨l, by simp, rfl⟩
      · obtain ⟨x, hx, e⟩ := ih t ht
        exact ⟨x, by simp [hx], e⟩

/-! ## The claims -/

/-- C1 (as amended): for every payload whose lines are all shorter than 65536 bytes and
every target, `readBetween` (hence `Up` and `Down`) returns, with a nil error, the
concatenation in document order of the non-directive lines whose nearest preceding
directive line exists and has keyword `target`, each without its trailing carriage return
and followed by a newline. -/
theorem readBetween_region_lines (T : List Char) (hfit : ∀ l ∈ rawLines T, fits l) :
    (∀ target, readBetween (payload T) target =
      (unlines ((regionLines target [] (rawLines T)).map dropCR), none)) ∧
    Up (payload T) = (unlines ((regionLines "up".toList [] (rawLines T)).map dropCR), none) ∧
    Down (payload T) =
      (unlines ((regionLines "down".toList [] (rawLines T)).map dropCR), none) := by
  have key : ∀ target, readBetween (payload T) target =
      (unlines ((regionLines target [] (rawLines T)).map dropCR), none) := by
    intro target
    rw [readBetween_payload_fits T target hfit]
    have h := readLoop_regionLines target ((rawLines T).map dropCR) [] []
    rw [nearestDirective_nil] at h
    simp only [reduceCtorEq, decide_False] at h
    rw [h]
    have := regionLines_map_dropCR target (rawLines T) []
    simp only [List.map_nil] at this
    simp [this]
  exact ⟨key, key _, key _⟩

/-- C1, witness: a payload with a carriage return before a newline. -/
theorem readBetween_region_lines_witness :
    (∀ l ∈ rawLines "-- migrate: up\nSELECT 1;\r\n-- migrate: down\nSELECT 2;\n".toList,
      fits l) ∧
    Up (payload "-- migrate: up\nSELECT 1;\r\n-- migrate: down\nSELECT 2;\n".toList) =
      (unlines ((regionLines "up".toList []
        (rawLines "-- migrate: up\nSELECT 1;\r\n-- migrate: down\nSELECT 2;\n".toList)).map
          dropCR), none) :=
  ⟨by decide, (readBetween_region_lines _ (by decide)).2.1⟩

/-- C1 as stated fails: a line that ends in a carriage return is written without it, and
a line of 65536 bytes ends the scan with `ErrTooLong` before the lines after it are read. -/
theorem readBetween_region_lines_counterexample :
    readBetween (payload "-- migrate: up\nA;\r\n".toList) "up".toList ≠
      (unlines (regionLines "up".toList [] (rawLines "-- migrate: up\nA;\r\n".toList)), none) ∧
    readBetween (payload (unlines ["-- migrate: up".toList, longLine, "A;".toList]))
        "up".toList ≠
      (unlines (regionLines "up".toList []
        (rawLines (unlines ["-- migrate: up".toList, longLine, "A;".toList]))), none) := by
  refine ⟨by decide, ?_⟩
  intro h
  have h1 := readBetween_tooLong_lines ["-- migrate: up".toList] ["A;".toList] longLine
    "up".toList (by decide) longLine_noNL longLine_tooLong
  have h2 := (congrArg Prod.snd h1).symm.trans (congrArg Prod.snd h)
  exact absurd h2 (by simp)

theorem directiveLine_upLine : directiveLine "up".toList upLine := by decide

theorem directiveLine_downLine : directiveLine "down".toList downLine := by decide

theorem directiveLine_endLine : directiveLine "end".toList endLine := by decide

theorem isDirectiveLine_of {kw l : List Char} (h : directiveLine kw l) : isDirectiveLine l :=
  ⟨h.1, by simp [h.2.1], h.2.2⟩

theorem plainLine_longLine_left : '\n' ∉ longLine ∧ directive longLine = none :=
  ⟨longLine_noNL, directive_longLine⟩

/-- C2 (as amended): for all blocks A, B, C of lines that hold no newline, are no
directives and are shorter than 65536 bytes, the payload made of an up directive, A, a
down directive, B, an up directive, C yields Up = A ++ C and Down = B, each line without
its trailing carriage return and followed by a newline; and for every file made of lines
before the first directive and then of regions (a directive line and its body),
`readBetween` returns the bodies of all regions of the target keyword, concatenated in
document order. -/
theorem repeated_regions_concatenated (A B C : List (List Char))
    (hABC : ∀ l ∈ A ++ B ++ C, plainLine l)
    (target : List Char) (pre : List (List Char)) (rs : List Region)
    (hpre : ∀ l ∈ pre, plainLine l)
    (hrs : ∀ r ∈ rs, isDirectiveLine r.1 ∧ ∀ l ∈ r.2, plainLine l) :
    (Up (payload (unlines ([upLine] ++ A ++ [downLine] ++ B ++ [upLine] ++ C))) =
        (unlines ((A ++ C).map dropCR), none) ∧
      Down (payload (unlines ([upLine] ++ A ++ [downLine] ++ B ++ [upLine] ++ C))) =
        (unlines (B.map dropCR), none)) ∧
    readBetween (payload (unlines (pre ++ regionsLines rs))) target =
      (unlines ((regionBodies target rs).map dropCR), none) := by
  refine ⟨?_, readBetween_preamble_regions target pre rs hpre hrs⟩
  have hl : [upLine] ++ A ++ [downLine] ++ B ++ [upLine] ++ C =
      regionsLines [(upLine, A), (downLine, B), (upLine, C)] := by
    simp [regionsLines]
  have hr : ∀ r ∈ [(upLine, A), (downLine, B), (upLine, C)],
      isDirectiveLine r.1 ∧ ∀ l ∈ r.2, plainLine l := by
    intro r hr
    simp only [List.mem_cons, List.mem_singleton, List.not_mem_nil, or_false] at hr
    rcases hr with rfl | rfl | rfl
    · exact ⟨isDirectiveLine_of directiveLine_upLine, fun l hl => hABC l (by simp [hl])⟩
    · exact ⟨isDirectiveLine_of directiveLine_downLine, fun l hl => hABC l (by simp [hl])⟩
    · exact ⟨isDirectiveLine_of directiveLine_upLine, fun l hl => hABC l (by simp [hl])⟩
  have hu : directive upLine = some "up".toList := directiveLine_upLine.2.1
  have hd : directive downLine = some "down".toList := directiveLine_downLine.2.1
  rw [hl]
  constructor
  · rw [Up, readBetween_regions _ _ hr]
    simp [regionBodies, hu, hd]
  · rw [Down, readBetween_regions _ _ hr]
    simp [regionBodies, hu, hd]

/-- C2, witness: the bodies `A;`, `B;`, `C;` of the specification. -/
theorem repeated_regions_concatenated_witness :
    Up (payload "-- migrate: up\nA;\n-- migrate: down\nB;\n-- migrate: up\nC;\n".toList) =
      ("A;\nC;\n".toList, none) ∧
    Down (payload "-- migrate: up\nA;\n-- migrate: down\nB;\n-- migrate: up\nC;\n".toList) =
      ("B;\n".toList, none) :=
  (repeated_regions_concatenated ["A;".toList] ["B;".toList] ["C;".toList] (by decide)
    "up".toList ["-- package: foo".toList]
    [(upLine, ["A;".toList]), (downLine, ["B;".toList]), (upLine, ["C;".toList])]
    (by decide) (by decide)).1

/-- C2 as stated fails: a body line that ends in a carriage return comes back without it,
and a body line of 65536 bytes makes Up fail with `ErrTooLong`. -/
theorem repeated_regions_concatenated_counterexample :
    ((∀ l ∈ ["A;\r".toList] ++ ["B;".toList] ++ ["C;".toList],
        '\n' ∉ l ∧ directive l = none) ∧
      Up (payload (unlines ([upLine] ++ ["A;\r".toList] ++ [downLine] ++ ["B;".toList] ++
          [upLine] ++ ["C;".toList]))) ≠
        (unlines (["A;\r".toList] ++ ["C;".toList]), none)) ∧
    ((∀ l ∈ [longLine] ++ ["B;".toList] ++ ["C;".toList], '\n' ∉ l ∧ directive l = none) ∧
      Up (payload (unlines ([upLine] ++ [longLine] ++ [downLine] ++ ["B;".toList] ++
          [upLine] ++ ["C;".toList]))) ≠
        (unlines ([longLine] ++ ["C;".toList]), none)) := by
  refine ⟨⟨by decide, by decide⟩, ⟨?_, ?_⟩⟩
  · intro l hl
    simp only [List.mem_append, List.mem_singleton] at hl
    rcases hl with (rfl | rfl) | rfl
    · exact plainLine_longLine_left
    · decide
    · decide
  · intro h
    have h1 := readBetween_tooLong_lines [upLine]
      [downLine, "B;".toList, upLine, "C;".toList] longLine
      "up".toList (by decide) longLine_noNL longLine_tooLong
    have h2 := (congrArg Prod.snd h1).symm.trans (congrArg Prod.snd h)
    exact absurd h2 (by simp)

/-- C3 (as amended): for all blocks U and D of lines that hold no newline, are no
directives and are shorter than 65536 bytes, the payload made of the line
`-- migrate: up`, U, the line `-- migrate: down`, D yields Up = U and Down = D, each line
without its trailing carriage return and followed by a newline, both with a nil error. -/
theorem up_down_slicing (U D : List (List Char)) (hU : ∀ l ∈ U, plainLine l)
    (hD : ∀ l ∈ D, plainLine l) :
    Up (payload (unlines ([upLine] ++ U ++ [downLine] ++ D))) =
      (unlines (U.map dropCR), none) ∧
    Down (payload (unlines ([upLine] ++ U ++ [downLine] ++ D))) =
      (unlines (D.map dropCR), none) := by
  have hl : [upLine] ++ U ++ [downLine] ++ D = regionsLines [(upLine, U), (downLine, D)] := by
    simp [regionsLines]
  have hr : ∀ r ∈ [(upLine, U), (downLine, D)],
      isDirectiveLine r.1 ∧ ∀ l ∈ r.2, plainLine l := by
    intro r hr
    simp only [List.mem_cons, List.mem_singleton, List.not_mem_nil, or_false] at hr
    rcases hr with rfl | rfl
    · exact ⟨isDirectiveLine_of directiveLine_upLine, hU⟩
    · exact ⟨isDirectiveLine_of directiveLine_downLine, hD⟩
  have hu : directive upLine = some "up".toList := directiveLine_upLine.2.1
  have hd : directive downLine = some "down".toList := directiveLine_downLine.2.1
  rw [hl]
  constructor
  · rw [Up, readBetween_regions _ _ hr]
    simp [regionBodies, hu, hd]
  · rw [Down, readBetween_regions _ _ hr]
    simp [regionBodies, hu, hd]

/-- C3, witness: the payload of the specification. -/
theorem up_down_slicing_witness :
    Up (payload "-- migrate: up\nSELECT 1;\n-- migrate: down\nSELECT 2;\n".toList) =
      ("SELECT 1;\n".toList, none) ∧
    Down (payload "-- migrate: up\nSELECT 1;\n-- migrate: down\nSELECT 2;\n".toList) =
      ("SELECT 2;\n".toList, none) :=
  up_down_slicing ["SELECT 1;".toList] ["SELECT 2;".toList] (by decide) (by decide)

/-- C3 as stated fails: with U the line `SELECT 1;` followed by a carriage return, Up is
not U; with D a line of 65536 bytes, Down returns `ErrTooLong`. -/
theorem up_down_slicing_counterexample :
    ((∀ l ∈ ["SELECT 1;\r".toList], '\n' ∉ l ∧ directive l = none) ∧
      Up (payload (unlines ([upLine] ++ ["SELECT 1;\r".toList] ++ [downLine] ++ []))) ≠
        (unlines ["SELECT 1;\r".toList], none)) ∧
    ((∀ l ∈ [longLine], '\n' ∉ l ∧ directive l = none) ∧
      Down (payload (unlines ([upLine] ++ [] ++ [downLine] ++ [longLine]))) ≠
        (unlines [longLine], none)) := by
  refine ⟨⟨by decide, by decide⟩, ⟨?_, ?_⟩⟩
  · intro l hl
    rw [List.mem_singleton] at hl
    subst hl
    exact plainLine_longLine_left
  · intro h
    have h1 := readBetween_tooLong_lines [upLine, downLine] [] longLine
      "down".toList (by decide) longLine_noNL longLine_tooLong
    have h2 := (congrArg Prod.snd h1).symm.trans (congrArg Prod.snd h)
    exact absurd h2 (by simp)

theorem dropCR_eq_self (l : List Char) (h : l.getLast? ≠ some '\r') : dropCR l = l := by
  simp [dropCR, h]

theorem map_dropCR_eq_self (ls : List (List Char)) (h : ∀ l ∈ ls, l.getLast? ≠ some '\r') :
    ls.map dropCR = ls := by
  induction ls with
  | nil => rfl
  | cons l ls ih =>
    simp [dropCR_eq_self l (h l (by simp)), ih (fun x hx => h x (by simp [hx]))]

theorem readBetween_single_region (d target : List Char) (ls : List (List Char))
    (hd : directiveLine target d) (h : ∀ l ∈ ls, plainLine l) :
    readBetween (payload (unlines (d :: ls))) target = (unlines (ls.map dropCR), none) := by
  have hr : ∀ r ∈ [(d, ls)], isDirectiveLine r.1 ∧ ∀ l ∈ r.2, plainLine l := by
    intro r hr
    rw [List.mem_singleton] at hr
    subst hr
    exact ⟨isDirectiveLine_of hd, h⟩
  have := readBetween_regions target [(d, ls)] hr
  simpa [regionsLines, regionBodies, hd.2.1] using this

/-- C6 (as amended): for every directive-free text T made of lines that are each ended by
a newline and shorter than 65536 bytes, the payload `-- migrate: up` + newline + T yields
Up = T with the carriage return directly before a newline removed, and so Up = T exactly,
byte for byte, when no line of T ends in a carriage return; likewise for Down. -/
theorem region_body_verbatim (ls : List (List Char)) (h : ∀ l ∈ ls, plainLine l) :
    (Up (payload ("-- migrate: up\n".toList ++ unlines ls)) = (unlines (ls.map dropCR), none) ∧
      Down (payload ("-- migrate: down\n".toList ++ unlines ls)) =
        (unlines (ls.map dropCR), none)) ∧
    ((∀ l ∈ ls, l.getLast? ≠ some '\r') →
      Up (payload ("-- migrate: up\n".toList ++ unlines ls)) = (unlines ls, none) ∧
      Down (payload ("-- migrate: down\n".toList ++ unlines ls)) = (unlines ls, none)) := by
  have hu : Up (payload ("-- migrate: up\n".toList ++ unlines ls)) =
      (unlines (ls.map dropCR), none) :=
    readBetween_single_region upLine "up".toList ls directiveLine_upLine h
  have hd : Down (payload ("-- migrate: down\n".toList ++ unlines ls)) =
      (unlines (ls.map dropCR), none) :=
    readBetween_single_region downLine "down".toList ls directiveLine_downLine h
  refine ⟨⟨hu, hd⟩, fun hcr => ?_⟩
  rw [hu, hd, map_dropCR_eq_self ls hcr]
  exact ⟨rfl, rfl⟩

/-- C6, witness: a body of two lines, with a carriage return inside a line. -/
theorem region_body_verbatim_witness :
    Up (payload "-- migrate: up\nCREATE TABLE t (\r id INT);\nDROP\tTABLE u;\n".toList) =
      ("CREATE TABLE t (\r id INT);\nDROP\tTABLE u;\n".toList, none) :=
  ((region_body_verbatim ["CREATE TABLE t (\r id INT);".toList, "DROP\tTABLE u;".toList]
    (by decide)).2 (by decide)).1

/-- C6 as stated fails: a carriage return before the newline is not returned, and a line
of 65536 bytes is not returned at all. -/
theorem region_body_verbatim_counterexample :
    ((∀ l ∈ ["A;\r".toList], '\n' ∉ l ∧ directive l = none) ∧
      Up (payload ("-- migrate: up\n".toList ++ unlines ["A;\r".toList])) ≠
        (unlines ["A;\r".toList], none)) ∧
    ((∀ l ∈ [longLine], '\n' ∉ l ∧ directive l = none) ∧
      Up (payload ("-- migrate: up\n".toList ++ unlines [longLine])) ≠
        (unlines [longLine], none)) := by
  refine ⟨⟨by decide, by decide⟩, ⟨?_, ?_⟩⟩
  · intro l hl
    rw [List.mem_singleton] at hl
    subst hl
    exact plainLine_longLine_left
  · intro h
    have h1 := readBetween_tooLong_lines [upLine] [] longLine
      "up".toList (by decide) longLine_noNL longLine_tooLong
    have h2 := (congrArg Prod.snd h1).symm.trans (congrArg Prod.snd h)
    exact absurd h2 (by simp)

theorem scan_tokens_directive (data : List Char) (rerr : Option Error)
    (hno : ∀ l ∈ rawLines data, directive l = none) :
    ∀ t ∈ (scan data rerr).1, directive t = none := by
  intro t ht
  obtain ⟨l, hl, rfl⟩ := scanTokens_sub rerr _ t ht
  rw [directive_dropCR]
  exact hno l hl

/-- C8 (as amended): for every payload text T that contains no migrate-directive line, both
Up and Down return the empty string; the error is nil when every line of T is shorter than
65536 bytes. -/
theorem no_directive_empty (T : List Char) (hno : ∀ l ∈ rawLines T, directive l = none) :
    ((Up (payload T)).1 = [] ∧ (Down (payload T)).1 = []) ∧
    ((∀ l ∈ rawLines T, fits l) →
      Up (payload T) = ([], none) ∧ Down (payload T) = ([], none)) := by
  have key : ∀ target, (readBetween (payload T) target).1 = [] := by
    intro target
    simp only [readBetween, payload]
    rw [readLoop_plain target [] false _ (scan_tokens_directive T none hno)]
    rfl
  refine ⟨⟨key _, key _⟩, fun hfit => ?_⟩
  have key2 : ∀ target, (readBetween (payload T) target).2 = none := by
    intro target
    rw [readBetween_payload_fits T target hfit]
  exact ⟨Prod.ext (key _) (key2 _), Prod.ext (key _) (key2 _)⟩

/-- C8, witness: a file of plain SQL and a package directive. -/
theorem no_directive_empty_witness :
    Up (payload "-- package: foo\nSELECT 1;\n\n-- a comment\r\nSELECT 2;".toList) = ([], none) ∧
    Down (payload "-- package: foo\nSELECT 1;\n\n-- a comment\r\nSELECT 2;".toList) =
      ([], none) :=
  (no_directive_empty "-- package: foo\nSELECT 1;\n\n-- a comment\r\nSELECT 2;".toList
    (by decide)).2 (by decide)

/-- C8 as stated fails: a directive-free payload with a line of 65536 bytes makes Up
return `ErrTooLong`, not a nil error. -/
theorem no_directive_empty_counterexample :
    (∀ l ∈ rawLines (unlines [longLine]), directive l = none) ∧
    Up (payload (unlines [longLine])) = ([], some Error.ErrTooLong) := by
  constructor
  · rw [rawLines_unlines _ (by simpa using longLine_noNL)]
    intro l hl
    rw [List.mem_singleton] at hl
    subst hl
    exact directive_longLine
  · exact readBetween_tooLong_lines [] [] longLine "up".toList (by simp) longLine_noNL
      longLine_tooLong

theorem regionLines_sub (target : List Char) (ls : List (List Char)) :
    ∀ pre, ∀ l ∈ regionLines target pre ls, l ∈ ls ∧ directive l = none := by
  induction ls with
  | nil => intro pre l hl; simp [regionLines] at hl
  | cons x xs ih =>
    intro pre l hl
    simp only [regionLines] at hl
    split at hl
    · rename_i hc
      rcases List.mem_cons.1 hl with rfl | hl
      · exact ⟨by simp, hc.1⟩
      · exact ⟨by simp [(ih _ l hl).1], (ih _ l hl).2⟩
    · exact ⟨by simp [(ih _ l hl).1], (ih _ l hl).2⟩

theorem splitNL_unlines (ls : List (List Char)) (h : ∀ l ∈ ls, '\n' ∉ l) :
    splitNL (unlines ls) = ls ++ [[]] := by
  induction ls with
  | nil => rfl
  | cons l ls ih =>
    simp only [unlines]
    rw [splitNL_append_nl l _ (h l (by simp)), ih (fun x hx => h x (by simp [hx]))]
    rfl

theorem dropCR_noNL (l : List Char) (h : '\n' ∉ l) : '\n' ∉ dropCR l := by
  unfold dropCR
  split
  · exact fun hm => h (List.mem_of_mem_dropLast hm)
  · exact h

theorem scan_noNL (data : List Char) (rerr : Option Error) :
    ∀ t ∈ (scan data rerr).1, '\n' ∉ t := by
  intro t ht
  obtain ⟨l, hl, rfl⟩ := scanTokens_sub rerr _ t ht
  exact dropCR_noNL l (rawLines_noNL data l hl)

theorem readLoop_output_lines (target : List Char) (toks : List (List Char))
    (h : ∀ t ∈ toks, '\n' ∉ t) :
    ∀ l ∈ splitNL (readLoop target ([], false) toks).1, directive l = none := by
  have hl := readLoop_regionLines target toks [] []
  rw [nearestDirective_nil] at hl
  simp only [reduceCtorEq, decide_False] at hl
  rw [hl]
  simp only [List.nil_append]
  rw [splitNL_unlines _ (fun l hl => h l (regionLines_sub target toks [] l hl).1)]
  intro l hl
  rcases List.mem_append.1 hl with hl | hl
  · exact (regionLines_sub target toks [] l hl).2
  · rw [List.mem_singleton] at hl
    subst hl
    rfl

theorem readBetween_output_lines (zr : GzipReader) (target : List Char) :
    ∀ l ∈ splitNL (readBetween zr target).1, directive l = none := by
  cases zr with
  | failed err =>
    intro l hl
    simp only [readBetween, splitNL, List.mem_singleton] at hl
    subst hl
    rfl
  | stream data rerr =>
    exact readLoop_output_lines target _ (scan_noNL data rerr)

/-- C4: directive lines never appear in any output. For every descriptor (well-formed or
not) no line of the text returned by Up or by Down, split at newlines, matches the
migrate-directive pattern. -/
theorem directive_lines_excluded (zr : GzipReader) :
    (∀ l ∈ splitNL (Up zr).1, migreSubmatch l = none) ∧
    (∀ l ∈ splitNL (Down zr).1, migreSubmatch l = none) :=
  ⟨fun l hl => (directive_eq_none_iff l).1 (readBetween_output_lines zr _ l hl),
   fun l hl => (directive_eq_none_iff l).1 (readBetween_output_lines zr _ l hl)⟩

/-! ## Lemmas: which lines are written -/

theorem readLoop_pick (target : List Char) (toks : List (List Char)) :
    ∀ (sb : List Char) (b : Bool),
      (readLoop target (sb, b) toks).1 = sb ++ unlines (pick toks (marks target b toks)) := by
  induction toks with
  | nil => intro sb b; simp [readLoop, marks, pick, unlines]
  | cons l ls ih =>
    intro sb b
    rw [readLoop_cons]
    cases hm : migreSubmatch l with
    | some kw =>
      simp only [readStep, hm, marks, pick]
      rw [ih]
      simp
    | none =>
      simp only [readStep, hm, marks, pick]
      cases b
      · simp only [Bool.false_eq_true, if_false]
        exact ih sb false
      · simp only [if_true]
        rw [ih]
        simp [unlines]

theorem readBetween_pick (zr : GzipReader) (target : List Char) :
    (readBetween zr target).1 = unlines (pick (scannedLines zr) (written zr target)) := by
  cases zr with
  | failed err => rfl
  | stream data rerr =>
    simp only [readBetween, scannedLines, written]
    rw [readLoop_pick]
    rfl

theorem marks_getD (target : List Char) (toks : List (List Char)) :
    ∀ (pre : List (List Char)) (i : Nat),
      (marks target (decide (nearestDirective pre = some target)) toks).getD i false = true ↔
        (i < toks.length ∧ directive (toks.getD i []) = none ∧
          nearestDirective (pre ++ toks.take i) = some target) := by
  induction toks with
  | nil => intro pre i; simp [marks]
  | cons l ls ih =>
    intro pre i
    have hsn := nearestDirective_snoc pre l
    cases hm : migreSubmatch l with
    | some kw =>
      have hd : directive l = some (toLower kw) := by simp [directive, hm]
      rw [hd] at hsn
      have ih' := ih (pre ++ [l])
      rw [hsn] at ih'
      simp only [Option.some.injEq] at ih'
      cases i with
      | zero => simp [marks, hm, hd]
      | succ j =>
        simp only [marks, hm, List.getD_cons_succ, List.length_cons, List.take_succ_cons,
          Nat.add_lt_add_iff_right]
        rw [ih' j]
        simp
    | none =>
      have hd : directive l = none := by simp [directive, hm]
      rw [hd] at hsn
      have ih' := ih (pre ++ [l])
      rw [hsn] at ih'
      cases i with
      | zero => simp [marks, hm, hd]
      | succ j =>
        simp only [marks, hm, List.getD_cons_succ, List.length_cons, List.take_succ_cons,
          Nat.add_lt_add_iff_right]
        rw [ih' j]
        simp

theorem nearestDirective_map_dropCR (pre : List (List Char)) :
    nearestDirective (pre.map dropCR) = nearestDirective pre := by
  unfold nearestDirective
  rw [← List.map_reverse, List.filterMap_map]
  congr 1
  apply List.filterMap_congr
  intro x _
  exact directive_dropCR x

theorem scanTokens_take (rerr : Option Error) (ls : List (List Char)) :
    (scanTokens rerr ls).1 = (ls.take (scanTokens rerr ls).1.length).map dropCR := by
  induction ls with
  | nil => simp [scanTokens]
  | cons l ls ih =>
    simp only [scanTokens]
    split
    · simp
    · simp only [List.length_cons, List.take_succ_cons, List.map_cons]
      rw [← ih]

theorem scan_take (data : List Char) (rerr : Option Error) (i : Nat)
    (hi : i < (scan data rerr).1.length) :
    (scan data rerr).1.take i = ((rawLines data).take i).map dropCR ∧
    (scan data rerr).1.getD i [] = dropCR ((rawLines data).getD i []) := by
  obtain ⟨n, hn⟩ : ∃ n, (scanTokens rerr (rawLines data)).1 =
      ((rawLines data).take n).map dropCR := ⟨_, scanTokens_take rerr _⟩
  unfold scan at hi ⊢
  rw [hn] at hi ⊢
  rw [List.length_map, List.length_take] at hi
  have hin : i < n := by omega
  have hil : i < (rawLines data).length := by omega
  constructor
  · rw [← List.map_take, List.take_take, Nat.min_eq_left (Nat.le_of_lt hin)]
  · rw [List.getD_eq_getElem?_getD, List.getD_eq_getElem?_getD, List.getElem?_map,
      List.getElem?_take_of_lt hin, List.getElem?_eq_getElem hil]
    rfl

theorem lineWritten_iff (T target : List Char) (i : Nat) :
    lineWritten (payload T) target i = true ↔
      (i < (scannedLines (payload T)).length ∧ directive ((rawLines T).getD i []) = none ∧
        nearestDirective ((rawLines T).take i) = some target) := by
  have h := marks_getD target (scan T none).1 [] i
  rw [nearestDirective_nil] at h
  simp only [reduceCtorEq, decide_False, List.nil_append] at h
  simp only [lineWritten, written, scannedLines, payload]
  rw [h]
  constructor
  · rintro ⟨h1, h2, h3⟩
    obtain ⟨e1, e2⟩ := scan_take T none i h1
    rw [e2, directive_dropCR] at h2
    rw [e1, nearestDirective_map_dropCR] at h3
    exact ⟨h1, h2, h3⟩
  · rintro ⟨h1, h2, h3⟩
    obtain ⟨e1, e2⟩ := scan_take T none i h1
    rw [e2, directive_dropCR, e1, nearestDirective_map_dropCR]
    exact ⟨h1, h2, h3⟩

/-- C5: an end directive always deactivates, for either target. For every payload, the
text Up and Down return is made of the written lines (`readBetween_pick`), and a line whose
nearest preceding directive line is an end directive is written neither by Up nor by
Down. -/
theorem end_deactivates (T : List Char) (i : Nat)
    (hend : nearestDirective ((rawLines T).take i) = some "end".toList) :
    ((Up (payload T)).1 =
        unlines (pick (scannedLines (payload T)) (written (payload T) "up".toList)) ∧
      (Down (payload T)).1 =
        unlines (pick (scannedLines (payload T)) (written (payload T) "down".toList))) ∧
    lineWritten (payload T) "up".toList i = false ∧
    lineWritten (payload T) "down".toList i = false := by
  refine ⟨⟨readBetween_pick _ _, readBetween_pick _ _⟩, ?_, ?_⟩
  · rw [← Bool.not_eq_true, lineWritten_iff, hend]
    rintro ⟨_, _, h⟩
    exact absurd h (by decide)
  · rw [← Bool.not_eq_true, lineWritten_iff, hend]
    rintro ⟨_, _, h⟩
    exact absurd h (by decide)

/-- C5, witness: line 3 follows an end directive; the down directive after it opens a
region again. -/
theorem end_deactivates_witness :
    nearestDirective ((rawLines
      "-- migrate: up\nA;\n-- migrate: end\nB;\n-- migrate: down\nC;\n".toList).take 3) =
      some "end".toList ∧
    lineWritten (payload "-- migrate: up\nA;\n-- migrate: end\nB;\n-- migrate: down\nC;\n".toList)
      "up".toList 3 = false ∧
    lineWritten (payload "-- migrate: up\nA;\n-- migrate: end\nB;\n-- migrate: down\nC;\n".toList)
      "down".toList 3 = false :=
  ⟨by decide, (end_deactivates _ 3 (by decide)).2⟩

/-! ## Lemmas: letter case -/

theorem upper_mem (c : Char) (h : 65 ≤ c.toNat ∧ c.toNat ≤ 90) : c ∈ upperLetters := by
  obtain ⟨h1, h2⟩ := h
  have hc := Char.ofNat_toNat c
  generalize c.toNat = n at h1 h2 hc
  subst hc
  interval_cases n <;> decide

theorem toLower_cases (P : Char → Prop) (hup : ∀ c ∈ upperLetters, P c)
    (hother : ∀ c : Char, c.toLower = c → P c) (c : Char) : P c := by
  by_cases h : 65 ≤ c.toNat ∧ c.toNat ≤ 90
  · exact hup c (upper_mem c h)
  · apply hother
    unfold Char.toLower
    simp only [ge_iff_le]
    rw [if_neg h]

theorem isSpace_toLower (c : Char) : isSpace c.toLower = isSpace c :=
  toLower_cases (fun c => isSpace c.toLower = isSpace c) (by decide)
    (fun c h => by simp only [h]) c

theorem toLower_toLower (c : Char) : c.toLower.toLower = c.toLower :=
  toLower_cases (fun c => c.toLower.toLower = c.toLower) (by decide)
    (fun c h => by simp only [h]) c

theorem toLower_eq_dash (c : Char) : c.toLower = '-' ↔ c = '-' :=
  toLower_cases (fun c => c.toLower = '-' ↔ c = '-') (by decide)
    (fun c h => by simp only [h]) c

theorem toLower_eq_nl (c : Char) : c.toLower = '\n' ↔ c = '\n' :=
  toLower_cases (fun c => c.toLower = '\n' ↔ c = '\n') (by decide)
    (fun c h => by simp only [h]) c

theorem foldMatch_toLower (c : Char) : ∀ q ∈ patternRunes, foldMatch q c.toLower = foldMatch q c :=
  toLower_cases (fun c => ∀ q ∈ patternRunes, foldMatch q c.toLower = foldMatch q c) (by decide)
    (fun c h => by simp only [h, implies_true]) c

theorem utf8Size_toLower (c : Char) : c.toLower.utf8Size = c.utf8Size :=
  toLower_cases (fun c => c.toLower.utf8Size = c.utf8Size) (by decide)
    (fun c h => by simp only [h]) c

theorem utf8Len_append (a b : List Char) : utf8Len (a ++ b) = utf8Len a + utf8Len b := by
  simp [utf8Len]

theorem utf8Len_map_toLower (x : List Char) : utf8Len (x.map Char.toLower) = utf8Len x := by
  induction x with
  | nil => rfl
  | cons c cs ih =>
    simp only [utf8Len, List.map_cons, List.sum_cons] at ih ⊢
    rw [ih, utf8Size_toLower]

theorem skipSpaces_map (x : List Char) :
    skipSpaces (x.map Char.toLower) = (skipSpaces x).map Char.toLower := by
  induction x with
  | nil => rfl
  | cons c cs ih =>
    simp only [skipSpaces, List.map_cons, List.dropWhile_cons, isSpace_toLower] at ih ⊢
    split
    · exact ih
    · rfl

theorem spaces1_map (x : List Char) :
    spaces1 (x.map Char.toLower) = (spaces1 x).map (List.map Char.toLower) := by
  cases x with
  | nil => rfl
  | cons c cs =>
    simp only [List.map_cons, spaces1, isSpace_toLower, skipSpaces_map]
    split <;> rfl

theorem lit_dashes_map (x : List Char) :
    lit "--".toList (x.map Char.toLower) =
      (lit "--".toList x).map (List.map Char.toLower) := by
  have h : "--".toList = ['-', '-'] := rfl
  rw [h]
  rcases x with _ | ⟨a, _ | ⟨b, cs⟩⟩
  · rfl
  · simp only [List.map_cons, List.map_nil, lit, toLower_eq_dash]
    split <;> rfl
  · simp only [List.map_cons, lit, toLower_eq_dash]
    split
    · split <;> rfl
    · rfl

theorem litFold_map (p : List Char) (hp : ∀ q ∈ p, q ∈ patternRunes) (x : List Char) :
    litFold p (x.map Char.toLower) = (litFold p x).map (List.map Char.toLower) := by
  induction p generalizing x with
  | nil => rfl
  | cons q qs ih =>
    cases x with
    | nil => rfl
    | cons c cs =>
      simp only [List.map_cons, litFold, foldMatch_toLower c q (hp q (by simp))]
      split
      · exact ih (fun r hr => hp r (by simp [hr])) cs
      · rfl

theorem altFold_map (alts : List (List Char)) (hp : ∀ a ∈ alts, ∀ q ∈ a, q ∈ patternRunes)
    (x : List Char) :
    altFold alts (x.map Char.toLower) =
      (altFold alts x).map (fun r => (r.1.map Char.toLower, r.2.map Char.toLower)) := by
  induction alts with
  | nil => rfl
  | cons a as ih =>
    simp only [altFold, litFold_map a (hp a (by simp)) x]
    cases litFold a x with
    | none => simpa using ih (fun b hb => hp b (by simp [hb]))
    | some r => simp [List.map_take]

/-- The keyword of a directive line as a chain of continuations, one per part of `migre`. -/
theorem directive_chain (x : List Char) :
    directive x =
      (lit "--".toList (skipSpaces x)).bind fun s1 =>
      (spaces1 s1).bind fun s2 =>
      (litFold "migrate:".toList s2).bind fun s3 =>
      (spaces1 s3).bind fun s4 =>
      (altFold ["up".toList, "down".toList, "end".toList] s4).bind fun r =>
      if skipSpaces r.2 = [] then some (toLower r.1) else none := by
  unfold directive migreSubmatch
  simp only [Option.map_bind, Function.comp_def, apply_ite (Option.map toLower),
    Option.map_some', Option.map_none']

theorem directive_map_toLower (x : List Char) : directive (x.map Char.toLower) = directive x := by
  have halt : ∀ a ∈ ["up".toList, "down".toList, "end".toList], ∀ q ∈ a,
      q ∈ patternRunes := by decide
  have hmig : ∀ q ∈ "migrate:".toList, q ∈ patternRunes := by decide
  rw [directive_chain, directive_chain, skipSpaces_map, lit_dashes_map, Option.bind_map]
  congr 1; funext s1
  simp only [Function.comp]
  rw [spaces1_map, Option.bind_map]
  congr 1; funext s2
  simp only [Function.comp]
  rw [litFold_map _ hmig, Option.bind_map]
  congr 1; funext s3
  simp only [Function.comp]
  rw [spaces1_map, Option.bind_map]
  congr 1; funext s4
  simp only [Function.comp]
  rw [altFold_map _ halt, Option.bind_map]
  congr 1; funext r
  simp only [Function.comp, skipSpaces_map, List.map_eq_nil_iff]
  have : toLower (r.1.map Char.toLower) = toLower r.1 := by
    simp [toLower, toLower_toLower]
  rw [this]

theorem directive_congr_case (m l : List Char)
    (h : m.map Char.toLower = l.map Char.toLower) : directive m = directive l := by
  rw [← directive_map_toLower m, h, directive_map_toLower]

/-! ## Lemmas: the package directive -/

theorem rawLines_mid (pre : List (List Char)) (l Q : List Char) (hpre : ∀ x ∈ pre, '\n' ∉ x)
    (hl : '\n' ∉ l) (hne : l ≠ []) (hQ : lineEnd Q) :
    rawLines (unlines pre ++ l ++ Q) = pre ++ l :: restLines Q := by
  rw [List.append_assoc, rawLines_unlines_append pre _ hpre]
  congr 1
  rcases hQ with rfl | hQ
  · simpa [restLines] using rawLines_last l hl hne
  · cases Q with
    | nil => simp at hQ
    | cons c Q' =>
      simp only [List.head?_cons, Option.some.injEq] at hQ
      subst hQ
      exact rawLines_line l Q' hl

theorem takeWhile_snoc_neg (p : Char → Bool) (y : List Char) (w : Char) (hw : p w = false) :
    (y ++ [w]).takeWhile p = y.takeWhile p := by
  induction y with
  | nil => simp [List.takeWhile, hw]
  | cons c cs ih =>
    simp only [List.cons_append, List.takeWhile_cons]
    split
    · rw [ih]
    · rfl

theorem dropWhile_snoc_neg (p : Char → Bool) (y : List Char) (w : Char) (hw : p w = false) :
    (y ++ [w]).dropWhile p = y.dropWhile p ++ [w] := by
  induction y with
  | nil => simp [List.dropWhile, hw]
  | cons c cs ih =>
    simp only [List.cons_append, List.dropWhile_cons]
    split
    · rw [ih]
    · rfl

theorem isWord_of_isSpace {w : Char} (hw : isSpace w = true) : isWord w = false := by
  rcases isSpace_cases hw with h | h | h | h | h <;> subst h <;> decide

theorem pkgreSubmatch_snoc (l : List Char) (w : Char) (hw : isSpace w = true) :
    pkgreSubmatch (l ++ [w]) = pkgreSubmatch l := by
  have hdash : ∀ q ∈ "--".toList, w ≠ q := by
    intro q hq
    have : q = '-' := by simpa using hq
    subst this
    rcases isSpace_cases hw with h | h | h | h | h <;> subst h <;> decide
  have hpkg := space_not_fold "package:".toList w hw (by decide)
  have hword := isWord_of_isSpace hw
  let G4 : List Char → Option (List Char) := fun s4 =>
    if s4.takeWhile isWord ≠ [] ∧ skipSpaces (s4.dropWhile isWord) = [] then
      some (s4.takeWhile isWord) else none
  let G3 : List Char → Option (List Char) := fun s3 => (spaces1 s3).bind G4
  let G2 : List Char → Option (List Char) :=
    fun s2 => (litFold "package:".toList s2).bind G3
  let G1 : List Char → Option (List Char) := fun s1 => (spaces1 s1).bind G2
  let G0 : List Char → Option (List Char) := fun s => (lit "--".toList s).bind G1
  have h4 : ∀ y, G4 (y ++ [w]) = G4 y := by
    intro y
    show (if (y ++ [w]).takeWhile isWord ≠ [] ∧
        skipSpaces ((y ++ [w]).dropWhile isWord) = [] then
          some ((y ++ [w]).takeWhile isWord) else none) = G4 y
    rw [takeWhile_snoc_neg isWord y w hword, dropWhile_snoc_neg isWord y w hword,
      skipSpaces_snoc _ w hw]
    by_cases h : skipSpaces (y.dropWhile isWord) = [] <;> simp [G4, h]
  have h3 : ∀ y, G3 (y ++ [w]) = G3 y := spaces1_snoc_congr G4 w hw h4 (by simp [G4])
  have h2 : ∀ y, G2 (y ++ [w]) = G2 y := by
    intro y
    show (litFold _ (y ++ [w])).bind G3 = (litFold _ y).bind G3
    rw [litFold_snoc _ w hpkg y, Option.bind_map]
    congr 1; funext r
    exact h3 r
  have h1 : ∀ y, G1 (y ++ [w]) = G1 y := spaces1_snoc_congr G2 w hw h2 rfl
  have h0 : ∀ y, G0 (y ++ [w]) = G0 y := by
    intro y
    show (lit _ (y ++ [w])).bind G1 = (lit _ y).bind G1
    rw [lit_snoc _ w hdash y, Option.bind_map]
    congr 1; funext r
    exact h1 r
  exact skipSpaces_snoc_congr G0 w hw h0 l

theorem pkgreSubmatch_dropCR (l : List Char) : pkgreSubmatch (dropCR l) = pkgreSubmatch l := by
  rcases dropCR_cases l with h | h
  · rw [h]
  · conv => rhs; rw [h]
    exact (pkgreSubmatch_snoc _ '\r' (by decide)).symm

theorem pkgreSubmatch_name (l name : List Char) (h : pkgreSubmatch l = some name) :
    name ≠ [] ∧ ∀ c ∈ name, isWord c = true := by
  unfold pkgreSubmatch at h
  simp only [Option.bind_eq_some] at h
  obtain ⟨s1, _, s2, _, s3, _, s4, _, h⟩ := h
  split at h
  · rename_i hc
    simp only [Option.some.injEq] at h
    subst h
    exact ⟨hc.1, fun c hc' => (List.mem_takeWhile_imp hc')⟩
  · cases h

theorem pkgreSubmatch_nil : pkgreSubmatch [] = none := rfl

theorem packageLoop_none (serr : Option Error) (toks : List (List Char))
    (h : ∀ t ∈ toks, pkgreSubmatch t = none) : packageLoop serr toks = ([], serr) := by
  induction toks with
  | nil => rfl
  | cons t ts ih =>
    simp only [packageLoop, h t (by simp)]
    exact ih (fun x hx => h x (by simp [hx]))

theorem packageLoop_first (serr : Option Error) (pre post : List (List Char)) (t name : List Char)
    (h : ∀ x ∈ pre, pkgreSubmatch x = none) (ht : pkgreSubmatch t = some name) :
    packageLoop serr (pre ++ t :: post) = (name, none) := by
  induction pre with
  | nil => simp [packageLoop, ht]
  | cons x xs ih =>
    simp only [List.cons_append, packageLoop, h x (by simp)]
    exact ih (fun y hy => h y (by simp [hy]))

theorem Package_first (pre : List (List Char)) (l Q name : List Char)
    (hpre : ∀ x ∈ pre, '\n' ∉ x ∧ fits x ∧ pkgreSubmatch x = none)
    (hl : '\n' ∉ l) (hfit : fits l) (hm : pkgreSubmatch l = some name) (hQ : lineEnd Q) :
    Package (payload (unlines pre ++ l ++ Q)) = (name, none) := by
  have hne : l ≠ [] := by
    rintro rfl
    rw [pkgreSubmatch_nil] at hm
    cases hm
  simp only [Package, payload, scan]
  rw [rawLines_mid pre l Q (fun x hx => (hpre x hx).1) hl hne hQ,
    scanTokens_append none pre _ (fun x hx => (hpre x hx).2.1)]
  have h1 : ¬ maxScanTokenSize ≤ utf8Len l := Nat.not_le.2 hfit
  simp only [scanTokens, h1, if_false]
  apply packageLoop_first
  · intro x hx
    obtain ⟨y, hy, rfl⟩ := List.mem_map.1 hx
    rw [pkgreSubmatch_dropCR]
    exact (hpre y hy).2.2
  · rw [pkgreSubmatch_dropCR]
    exact hm

theorem Package_none (T : List Char) (h : ∀ l ∈ rawLines T, fits l ∧ pkgreSubmatch l = none) :
    Package (payload T) = ([], none) := by
  simp only [Package, payload, scan]
  rw [scanTokens_fits none _ (fun l hl => (h l hl).1)]
  apply packageLoop_none
  intro t ht
  obtain ⟨y, hy, rfl⟩ := List.mem_map.1 ht
  rw [pkgreSubmatch_dropCR]
  exact (h y hy).2

theorem Package_tooLong (pre post : List (List Char)) (l : List Char)
    (hpre : ∀ x ∈ pre, '\n' ∉ x ∧ fits x ∧ pkgreSubmatch x = none) (hl : '\n' ∉ l)
    (hlong : maxScanTokenSize ≤ utf8Len l) :
    Package (payload (unlines (pre ++ l :: post))) = ([], some Error.ErrTooLong) := by
  rw [unlines_middle]
  simp only [Package, payload,
    scan_tooLong pre l _ none (fun x hx => ⟨(hpre x hx).1, (hpre x hx).2.1⟩) hl hlong]
  apply packageLoop_none
  intro t ht
  obtain ⟨y, hy, rfl⟩ := List.mem_map.1 ht
  rw [pkgreSubmatch_dropCR]
  exact (hpre y hy).2.2

/-- C9 (as amended): when every line up to and including the first line that matches
`pkgre` is shorter than 65536 bytes, Package returns with a nil error the identifier that
line captures, a non-empty run of runes of the class `[\w\d\_]` under `(?i)` (ASCII letters
and digits, the underscore, U+017F and U+212A), whatever follows that line; when no line
matches and every line is shorter than 65536 bytes, Package returns the empty string with a
nil error. -/
theorem package_first_match (pre : List (List Char)) (l Q name T : List Char)
    (hpre : ∀ x ∈ pre, '\n' ∉ x ∧ fits x ∧ pkgreSubmatch x = none)
    (hl : '\n' ∉ l) (hfit : fits l) (hm : pkgreSubmatch l = some name) (hQ : lineEnd Q)
    (hT : ∀ x ∈ rawLines T, fits x ∧ pkgreSubmatch x = none) :
    (Package (payload (unlines pre ++ l ++ Q)) = (name, none) ∧
      name ≠ [] ∧ ∀ c ∈ name, isWord c = true) ∧
    Package (payload T) = ([], none) :=
  ⟨⟨Package_first pre l Q name hpre hl hfit hm hQ, pkgreSubmatch_name l name hm⟩,
    Package_none T hT⟩

/-- C9, witness: the payload of the specification, and a payload with two package lines. -/
theorem package_first_match_witness :
    (Package (payload "-- package: foo\n".toList) = ("foo".toList, none) ∧
      Package (payload "SELECT 1;\n-- Package:\tfoo_1 \r\n-- package: bar\n".toList) =
        ("foo_1".toList, none)) ∧
    Package (payload "-- migrate: up\nSELECT 1;\n".toList) = ([], none) :=
  ⟨⟨(package_first_match [] "-- package: foo".toList "\n".toList "foo".toList []
      (by decide) (by decide) (by decide) (by decide) (by decide) (by decide)).1.1,
    (package_first_match ["SELECT 1;".toList] "-- Package:\tfoo_1 \r".toList
      "\n-- package: bar\n".toList "foo_1".toList [] (by decide) (by decide) (by decide)
      (by decide) (by decide) (by decide)).1.1⟩,
   (package_first_match [] "-- package: foo".toList "\n".toList "foo".toList
      "-- migrate: up\nSELECT 1;\n".toList (by decide) (by decide) (by decide) (by decide)
      (by decide) (by decide)).2⟩

/-- C9 as stated fails: a line of 65536 bytes before the package line makes Package return
the empty string and `ErrTooLong` instead of the identifier of the first matching line, and
in a payload without a package line it makes the error non-nil. -/
theorem package_first_match_counterexample :
    Package (payload (unlines [longLine, "-- package: foo".toList])) =
      ([], some Error.ErrTooLong) ∧
    ((∀ l ∈ rawLines (unlines [longLine]), pkgreSubmatch l = none) ∧
      Package (payload (unlines [longLine])) = ([], some Error.ErrTooLong)) := by
  have hp : pkgreSubmatch longLine = none := by
    have h : longLine = 'a' :: List.replicate 65535 'a' := by
      rw [longLine, show maxScanTokenSize = 65535 + 1 from rfl, List.replicate_succ]
    rw [h]
    rfl
  refine ⟨Package_tooLong [] ["-- package: foo".toList] longLine (by simp) longLine_noNL
    longLine_tooLong, ?_, Package_tooLong [] [] longLine (by simp) longLine_noNL
    longLine_tooLong⟩
  rw [rawLines_unlines _ (by simpa using longLine_noNL)]
  intro l hl
  rw [List.mem_singleton] at hl
  subst hl
  exact hp

/-- The class `\w` under `(?i)` holds U+017F: Package returns it as an identifier. -/
theorem Package_fold_rune :
    Package (payload "-- package: \u017f\n".toList) = (['\u017f'], none) := by decide

/-! ## Lemmas: respelling a directive line -/

theorem isSpace_of_isBlank {c : Char} (h : isBlank c = true) : isSpace c = true := by
  have : c = ' ' ∨ c = '\t' := by simpa [isBlank] using h
  rcases this with rfl | rfl <;> decide

theorem isBlank_ne_nl {c : Char} (h : isBlank c = true) : c ≠ '\n' := by
  have : c = ' ' ∨ c = '\t' := by simpa [isBlank] using h
  rcases this with rfl | rfl <;> decide

theorem utf8Size_isBlank {c : Char} (h : isBlank c = true) : c.utf8Size = 1 := by
  have : c = ' ' ∨ c = '\t' := by simpa [isBlank] using h
  rcases this with rfl | rfl <;> decide

theorem noNL_of_case (m l : List Char) (h : m.map Char.toLower = l.map Char.toLower)
    (hl : '\n' ∉ l) : '\n' ∉ m := by
  intro hm
  have h1 : Char.toLower '\n' ∈ m.map Char.toLower := List.mem_map_of_mem _ hm
  rw [h] at h1
  obtain ⟨c, hc, e⟩ := List.mem_map.1 h1
  have : c.toLower = '\n' := e
  rw [toLower_eq_nl] at this
  exact hl (this ▸ hc)

theorem directive_nil : directive [] = none := rfl

theorem scan_replace (rerr : Option Error) (target : List Char)
    (pre rest : List (List Char)) (l l' : List Char) (hf : fits l) (hf' : fits l')
    (hstep : ∀ st, readStep target st (dropCR l') = readStep target st (dropCR l)) :
    ∀ st, ((readLoop target st (scanTokens rerr (pre ++ l' :: rest)).1).1,
        (scanTokens rerr (pre ++ l' :: rest)).2) =
      ((readLoop target st (scanTokens rerr (pre ++ l :: rest)).1).1,
        (scanTokens rerr (pre ++ l :: rest)).2) := by
  induction pre with
  | nil =>
    intro st
    have h1 : ¬ maxScanTokenSize ≤ utf8Len l := Nat.not_le.2 hf
    have h2 : ¬ maxScanTokenSize ≤ utf8Len l' := Nat.not_le.2 hf'
    simp only [List.nil_append, scanTokens, h1, h2, if_false, readLoop_cons, hstep]
  | cons x xs ih =>
    intro st
    simp only [List.cons_append, scanTokens]
    split
    · rfl
    · simp only [readLoop_cons]
      exact ih _

theorem readBetween_replace_line (pre : List (List Char)) (Q l l' target : List Char)
    (hpre : ∀ x ∈ pre, '\n' ∉ x) (hQ : lineEnd Q) (hnl : '\n' ∉ l) (hnl' : '\n' ∉ l')
    (hd : (directive l).isSome = true) (hdd : directive l' = directive l)
    (hf : fits l) (hf' : fits l') :
    readBetween (payload (unlines pre ++ l' ++ Q)) target =
      readBetween (payload (unlines pre ++ l ++ Q)) target := by
  have hne : l ≠ [] := by
    rintro rfl
    rw [directive_nil] at hd
    cases hd
  have hne' : l' ≠ [] := by
    rintro rfl
    rw [hdd.symm, directive_nil] at hd
    cases hd
  obtain ⟨kw, hkw⟩ := Option.isSome_iff_exists.1 hd
  have hstep : ∀ st, readStep target st (dropCR l') = readStep target st (dropCR l) := by
    intro st
    rw [readStep_directive target st (dropCR l') kw (by rw [directive_dropCR, hdd, hkw]),
      readStep_directive target st (dropCR l) kw (by rw [directive_dropCR, hkw])]
  simp only [readBetween, payload, scan]
  rw [rawLines_mid pre l Q hpre hnl hne hQ, rawLines_mid pre l' Q hpre hnl' hne' hQ]
  exact scan_replace none target pre (restLines Q) l l' hf hf' hstep ([], false)

theorem directive_respelled (l m ws1 ws2 : List Char)
    (hm : m.map Char.toLower = l.map Char.toLower)
    (h1 : ∀ c ∈ ws1, isBlank c = true) (h2 : ∀ c ∈ ws2, isBlank c = true) :
    directive (ws1 ++ m ++ ws2) = directive l := by
  unfold directive
  rw [migreSubmatch_append_spaces _ ws2 (fun c hc => isSpace_of_isBlank (h2 c hc)),
    migreSubmatch_spaces_append ws1 m (fun c hc => isSpace_of_isBlank (h1 c hc))]
  exact directive_congr_case m l hm

theorem utf8Len_le_respelled (l m ws1 ws2 : List Char)
    (hm : m.map Char.toLower = l.map Char.toLower) :
    utf8Len l ≤ utf8Len (ws1 ++ m ++ ws2) := by
  rw [utf8Len_append, utf8Len_append, ← utf8Len_map_toLower m, hm, utf8Len_map_toLower]
  omega

theorem litFold_of_lower (p P R : List Char) (hP : P.map Char.toLower = p)
    (hp : ∀ q ∈ p, q ∈ patternRunes ∧ foldMatch q q = true) : litFold p (P ++ R) = some R := by
  induction p generalizing P with
  | nil =>
    have : P = [] := by simpa using hP
    subst this
    rfl
  | cons q qs ih =>
    cases P with
    | nil => simp at hP
    | cons c cs =>
      simp only [List.map_cons, List.cons.injEq] at hP
      have hq := hp q (by simp)
      have hc : foldMatch q c = true := by
        rw [← foldMatch_toLower c q hq.1, hP.1]
        exact hq.2
      simp only [List.cons_append, litFold, hc, if_true]
      exact ih cs hP.2 (fun r hr => hp r (by simp [hr]))

theorem isSpace_of_isWord {c : Char} (h : isWord c = true) : isSpace c = false := by
  cases hs : isSpace c with
  | false => rfl
  | true => rw [isWord_of_isSpace hs] at h; cases h

theorem skipSpaces_of_head (c : Char) (cs : List Char) (h : isSpace c = false) :
    skipSpaces (c :: cs) = c :: cs := by
  simp [skipSpaces, List.dropWhile_cons, h]

theorem pkgreSubmatch_spelled (ws1 P name ws2 : List Char)
    (h1 : ∀ c ∈ ws1, isBlank c = true) (h2 : ∀ c ∈ ws2, isBlank c = true)
    (hP : P.map Char.toLower = "package:".toList) (hn : name ≠ [])
    (hw : ∀ c ∈ name, isWord c = true) :
    pkgreSubmatch (ws1 ++ "-- ".toList ++ P ++ ' ' :: name ++ ws2) = some name := by
  have hshape : ws1 ++ "-- ".toList ++ P ++ ' ' :: name ++ ws2 =
      ws1 ++ ('-' :: '-' :: ' ' :: (P ++ ' ' :: (name ++ ws2))) := by
    simp
  obtain ⟨p0, P', rfl⟩ : ∃ p0 P', P = p0 :: P' := by
    cases P with
    | nil => simp at hP
    | cons a b => exact ⟨a, b, rfl⟩
  obtain ⟨n0, name', rfl⟩ := List.exists_cons_of_ne_nil hn
  have hp0 : isSpace p0 = false := by
    have : p0.toLower = 'p' := by
      have := congrArg List.head? hP
      simpa using this
    rw [← isSpace_toLower, this]
    rfl
  have hn0 : isSpace n0 = false := isSpace_of_isWord (hw n0 (by simp))
  have hws2 : ∀ c ∈ ws2, isSpace c = true := fun c hc => isSpace_of_isBlank (h2 c hc)
  have htake : (n0 :: name' ++ ws2).takeWhile isWord = n0 :: name' := by
    rw [List.takeWhile_append_of_pos hw]
    have : ws2.takeWhile isWord = [] := by
      cases ws2 with
      | nil => rfl
      | cons c cs =>
        simp [List.takeWhile_cons, isWord_of_isSpace (hws2 c (by simp))]
    rw [this, List.append_nil]
  have hdrop : (n0 :: name' ++ ws2).dropWhile isWord = ws2 := by
    rw [List.dropWhile_append_of_pos hw]
    cases ws2 with
    | nil => rfl
    | cons c cs =>
      simp [List.dropWhile_cons, isWord_of_isSpace (hws2 c (by simp))]
  have hskip2 : skipSpaces ws2 = [] := by
    simpa [skipSpaces, List.dropWhile_eq_nil_iff] using hws2
  rw [hshape]
  unfold pkgreSubmatch
  have e1 : skipSpaces (ws1 ++ ('-' :: '-' :: ' ' :: (p0 :: P' ++ ' ' :: (n0 :: name' ++ ws2)))) =
      '-' :: '-' :: ' ' :: (p0 :: P' ++ ' ' :: (n0 :: name' ++ ws2)) := by
    unfold skipSpaces
    rw [List.dropWhile_append_of_pos (fun c hc => isSpace_of_isBlank (h1 c hc))]
    exact skipSpaces_of_head '-' _ (by decide)
  have e2 : lit "--".toList ('-' :: '-' :: ' ' :: (p0 :: P' ++ ' ' :: (n0 :: name' ++ ws2))) =
      some (' ' :: (p0 :: P' ++ ' ' :: (n0 :: name' ++ ws2))) := by
    simp [lit]
  have e3 : spaces1 (' ' :: (p0 :: P' ++ ' ' :: (n0 :: name' ++ ws2))) =
      some (p0 :: P' ++ ' ' :: (n0 :: name' ++ ws2)) := by
    have hsp : isSpace ' ' = true := by decide
    simp only [spaces1, hsp, if_true]
    rw [List.cons_append, skipSpaces_of_head p0 _ hp0]
  have e4 : litFold "package:".toList (p0 :: P' ++ ' ' :: (n0 :: name' ++ ws2)) =
      some (' ' :: (n0 :: name' ++ ws2)) :=
    litFold_of_lower _ _ _ hP (by decide)
  have e5 : spaces1 (' ' :: (n0 :: name' ++ ws2)) = some (n0 :: name' ++ ws2) := by
    have hsp : isSpace ' ' = true := by decide
    simp only [spaces1, hsp, if_true]
    rw [List.cons_append, skipSpaces_of_head n0 _ hn0]
  rw [e1, e2, Option.some_bind, e3, Option.some_bind, e4, Option.some_bind, e5,
    Option.some_bind]
  simp only [htake, hdrop, hskip2]
  simp

theorem noNL_spelled (ws1 m ws2 : List Char) (h1 : ∀ c ∈ ws1, isBlank c = true)
    (h2 : ∀ c ∈ ws2, isBlank c = true) (hm : '\n' ∉ m) : '\n' ∉ ws1 ++ m ++ ws2 := by
  intro h
  simp only [List.mem_append] at h
  rcases h with (h | h) | h
  · exact isBlank_ne_nl (h1 _ h) rfl
  · exact hm h
  · exact isBlank_ne_nl (h2 _ h) rfl

/-! ## Lemmas: the registry -/

theorem Register_take_drop (reg : List Migration) (m : Migration) :
    reg.take (insertionPoint reg m) = reg.takeWhile (fun e => e.Revision < m.Revision) ∧
    reg.drop (insertionPoint reg m) = reg.dropWhile (fun e => e.Revision < m.Revision) := by
  have h := List.takeWhile_append_dropWhile (fun e : Migration => e.Revision < m.Revision) reg
  unfold insertionPoint
  generalize reg.takeWhile (fun e : Migration => e.Revision < m.Revision) = a at h ⊢
  generalize reg.dropWhile (fun e : Migration => e.Revision < m.Revision) = b at h ⊢
  subst h
  exact ⟨List.take_left _ _, List.drop_left _ _⟩

theorem dropWhile_ge (reg : List Migration) (r : Int)
    (hs : reg.Pairwise (fun a b => a.Revision < b.Revision)) :
    ∀ e ∈ reg.dropWhile (fun e => e.Revision < r), r ≤ e.Revision := by
  induction reg with
  | nil => simp
  | cons a as ih =>
    rw [List.pairwise_cons] at hs
    intro e he
    rw [List.dropWhile_cons] at he
    split at he
    · exact ih hs.2 e he
    · rename_i ha
      have ha' : r ≤ a.Revision := by simpa using ha
      rcases List.mem_cons.1 he with rfl | he
      · exact ha'
      · exact le_of_lt (lt_of_le_of_lt ha' (hs.1 e he))

theorem Register_sorted (reg : List Migration) (m : Migration)
    (hs : reg.Pairwise (fun a b => a.Revision < b.Revision)) :
    (Register reg m).1.Pairwise (fun a b => a.Revision < b.Revision) := by
  unfold Register
  split
  · exact hs
  · rename_i hdup
    simp only [List.any_eq_true, decide_eq_true_eq, not_exists, not_and] at hdup
    obtain ⟨ht, hd⟩ := Register_take_drop reg m
    simp only [ht, hd]
    have hlt : ∀ e ∈ reg.takeWhile (fun e => e.Revision < m.Revision),
        e.Revision < m.Revision := fun e he => by simpa using List.mem_takeWhile_imp he
    have hgt : ∀ e ∈ reg.dropWhile (fun e => e.Revision < m.Revision),
        m.Revision < e.Revision := by
      intro e he
      have h1 := dropWhile_ge reg m.Revision hs e he
      have h2 := hdup e ((List.dropWhile_sublist _).subset he)
      exact lt_of_le_of_ne h1 (fun h => h2 h.symm)
    rw [List.pairwise_append]
    refine ⟨hs.sublist (List.takeWhile_sublist _), ?_, ?_⟩
    · rw [List.pairwise_cons]
      exact ⟨hgt, hs.sublist (List.dropWhile_sublist _)⟩
    · intro a ha b hb
      rcases List.mem_cons.1 hb with rfl | hb
      · exact hlt a ha
      · exact lt_trans (hlt a ha) (hgt b hb)

theorem Register_perm (reg : List Migration) (m : Migration) (h : (Register reg m).2 = none) :
    (Register reg m).1.Perm (m :: reg) := by
  unfold Register at h ⊢
  split
  · rename_i hdup
    simp [hdup] at h
  · obtain ⟨ht, hd⟩ := Register_take_drop reg m
    simp only [ht, hd]
    refine List.perm_middle.trans ?_
    rw [List.takeWhile_append_dropWhile]

theorem Register_fail (reg : List Migration) (m : Migration) (e : Error)
    (h : (Register reg m).2 = some e) : (Register reg m).1 = reg := by
  unfold Register at h ⊢
  split
  · rfl
  · rename_i hdup
    simp [hdup] at h

theorem registerAll_sorted (ms : List Migration) :
    ∀ reg : List Migration, reg.Pairwise (fun a b => a.Revision < b.Revision) →
      (registerAll reg ms).1.Pairwise (fun a b => a.Revision < b.Revision) := by
  induction ms with
  | nil => intro reg hs; exact hs
  | cons m ms ih =>
    intro reg hs
    simp only [registerAll]
    split
    · exact ih _ (Register_sorted reg m hs)
    · exact ih _ (Register_sorted reg m hs)

theorem registerAll_perm (ms : List Migration) :
    ∀ reg : List Migration, (registerAll reg ms).1.Perm ((registerAll reg ms).2 ++ reg) := by
  induction ms with
  | nil => intro reg; exact List.Perm.refl _
  | cons m ms ih =>
    intro reg
    simp only [registerAll]
    split
    · rename_i h
      refine (ih _).trans ?_
      refine (List.Perm.append_left _ (Register_perm reg m h)).trans ?_
      simp
    · rename_i e h
      have := ih (Register reg m).1
      rw [Register_fail reg m e h] at this ⊢
      exact this

/-- C10: registry order invariant. Starting from an empty (Reset) registry, after any
sequence of Register calls the list of migrations is strictly ascending by Revision, so it
holds no two entries with the same Revision, and it holds exactly the migrations whose
Register call succeeded; registering 23, 2, 9, 8, 41, 5, 13, 14 in that order yields the
8 entries 2, 5, 8, 9, 13, 14, 23, 41. -/
theorem registry_order_invariant :
    (∀ (old ms : List Migration),
      ((registerAll (Reset old) ms).1.map Migration.Revision).Pairwise (· < ·) ∧
      ((registerAll (Reset old) ms).1.map Migration.Revision).Nodup ∧
      (registerAll (Reset old) ms).1.Perm (registerAll (Reset old) ms).2) ∧
    (registerAll (Reset []) (revisions [23, 2, 9, 8, 41, 5, 13, 14])).1 =
      revisions [2, 5, 8, 9, 13, 14, 23, 41] ∧
    (registerAll (Reset []) (revisions [23, 2, 9, 8, 41, 5, 13, 14])).2 =
      revisions [23, 2, 9, 8, 41, 5, 13, 14] := by
  refine ⟨fun old ms => ?_, by decide, by decide⟩
  have hs := registerAll_sorted ms (Reset old) List.Pairwise.nil
  have hs' : ((registerAll (Reset old) ms).1.map Migration.Revision).Pairwise (· < ·) :=
    List.pairwise_map.2 hs
  refine ⟨hs', hs'.nodup, ?_⟩
  have hp := registerAll_perm ms (Reset old)
  rw [show Reset old = [] from rfl, List.append_nil] at hp
  exact hp

/-! ## The matchers compute what the patterns denote -/

theorem skipSpaces_split (s : List Char) : ∃ a, allSpace a ∧ s = a ++ skipSpaces s :=
  ⟨s.takeWhile isSpace, fun _ hc => List.mem_takeWhile_imp hc,
    (List.takeWhile_append_dropWhile isSpace s).symm⟩

theorem skipSpaces_append (a r : List Char) (ha : allSpace a) (hr : startsNonSpace r) :
    skipSpaces (a ++ r) = r := by
  unfold skipSpaces
  rw [List.dropWhile_append_of_pos ha]
  cases r with
  | nil => rfl
  | cons c cs => exact skipSpaces_of_head c cs (hr c (by simp))

theorem startsNonSpace_skipSpaces (s : List Char) : startsNonSpace (skipSpaces s) := by
  intro c hc
  unfold skipSpaces at hc
  cases h : s.dropWhile isSpace with
  | nil => simp [h] at hc
  | cons d ds =>
    simp only [h, List.head?_cons, Option.mem_def, Option.some.injEq] at hc
    subst hc
    have := List.head_dropWhile_not isSpace s (by simp [h])
    simpa [h] using this

theorem lit_eq_some (p s r : List Char) : lit p s = some r ↔ s = p ++ r := by
  induction p generalizing s with
  | nil => simp [lit, eq_comm]
  | cons q qs ih =>
    cases s with
    | nil => simp [lit]
    | cons c cs =>
      simp only [lit, List.cons_append, List.cons.injEq]
      split
      · rename_i h
        simp [ih, h]
      · rename_i h
        simp [h]

theorem litFold_eq_some (p s r : List Char) :
    litFold p s = some r ↔ ∃ M, FoldEq p M ∧ s = M ++ r := by
  induction p generalizing s with
  | nil =>
    simp only [litFold, Option.some.injEq, FoldEq]
    constructor
    · rintro rfl
      exact ⟨[], List.Forall₂.nil, rfl⟩
    · rintro ⟨M, hM, rfl⟩
      cases hM
      rfl
  | cons q qs ih =>
    cases s with
    | nil =>
      simp only [litFold, false_iff, not_exists, not_and, reduceCtorEq]
      intro M hM h
      cases hM
      simp at h
    | cons c cs =>
      simp only [litFold]
      split
      · rename_i h
        rw [ih]
        constructor
        · rintro ⟨M, hM, rfl⟩
          exact ⟨c :: M, List.Forall₂.cons h hM, rfl⟩
        · rintro ⟨M, hM, e⟩
          cases hM with
          | cons h1 h2 =>
            simp only [List.cons_append, List.cons.injEq] at e
            exact ⟨_, h2, e.2⟩
      · rename_i h
        simp only [false_iff, not_exists, not_and, reduceCtorEq]
        intro M hM e
        cases hM with
        | cons h1 h2 =>
          simp only [List.cons_append, List.cons.injEq] at e
          rw [← e.1] at h1
          exact h h1

theorem spaces1_eq_some (s r : List Char) (h : spaces1 s = some r) :
    ∃ b, (b ≠ [] ∧ allSpace b) ∧ s = b ++ r := by
  cases s with
  | nil => simp [spaces1] at h
  | cons c cs =>
    simp only [spaces1] at h
    split at h
    · rename_i hc
      simp only [Option.some.injEq] at h
      obtain ⟨a, ha, e⟩ := skipSpaces_split cs
      refine ⟨c :: a, ⟨by simp, ?_⟩, ?_⟩
      · intro x hx
        rcases List.mem_cons.1 hx with rfl | hx
        · exact hc
        · exact ha x hx
      · rw [← h, List.cons_append, ← e]
    · cases h

theorem spaces1_append (b r : List Char) (hb : b ≠ [] ∧ allSpace b) (hr : startsNonSpace r) :
    spaces1 (b ++ r) = some r := by
  obtain ⟨c, cs, rfl⟩ := List.exists_cons_of_ne_nil hb.1
  have hc : isSpace c = true := hb.2 c (by simp)
  simp only [List.cons_append, spaces1, hc, if_true]
  rw [skipSpaces_append cs r (fun x hx => hb.2 x (by simp [hx])) hr]

theorem spaces1_startsNonSpace (s r : List Char) (h : spaces1 s = some r) :
    startsNonSpace r := by
  cases s with
  | nil => simp [spaces1] at h
  | cons c cs =>
    simp only [spaces1] at h
    split at h
    · simp only [Option.some.injEq] at h
      rw [← h]
      exact startsNonSpace_skipSpaces cs
    · cases h

theorem FoldEq_length {p M : List Char} (h : FoldEq p M) : M.length = p.length :=
  (List.Forall₂.length_eq h).symm

theorem FoldEq_startsNonSpace {p M : List Char} (rest : List Char) (h : FoldEq p M)
    (hp : ∀ q ∈ p, ∀ v ∈ ['\t', '\n', '\x0c', '\r', ' '], foldMatch q v = false)
    (hne : p ≠ []) : startsNonSpace (M ++ rest) := by
  cases h with
  | nil => exact absurd rfl hne
  | cons h1 h2 =>
    rename_i q c qs cs
    intro x hx
    simp only [List.cons_append, List.head?_cons, Option.mem_def, Option.some.injEq] at hx
    subst hx
    cases hs : isSpace c with
    | false => rfl
    | true =>
      have := space_not_fold _ c hs hp q (by simp)
      rw [this] at h1
      cases h1

theorem altFold_eq_some (alts : List (List Char)) (s k r : List Char)
    (h : altFold alts s = some (k, r)) : (∃ a ∈ alts, FoldEq a k) ∧ s = k ++ r := by
  induction alts with
  | nil => simp [altFold] at h
  | cons a as ih =>
    simp only [altFold] at h
    cases hl : litFold a s with
    | none =>
      rw [hl] at h
      obtain ⟨⟨b, hb, hk⟩, e⟩ := ih h
      exact ⟨⟨b, by simp [hb], hk⟩, e⟩
    | some r' =>
      rw [hl] at h
      simp only [Option.some.injEq, Prod.mk.injEq] at h
      obtain ⟨M, hM, e⟩ := (litFold_eq_some a s r').1 hl
      have hk : k = M := by
        rw [← h.1, e, ← FoldEq_length hM, List.take_left]
      rw [hk, ← h.2]
      exact ⟨⟨a, by simp, hM⟩, e⟩

theorem foldMatch_cases (q c : Char) (h : foldMatch q c = true) :
    c = q ∨ c = q.toUpper ∨ c = q.toLower ∨ (q.toLower = 'k' ∧ c = '\u212a') ∨
      (q.toLower = 's' ∧ c = '\u017f') := by
  simpa [foldMatch, or_assoc] using h

theorem foldMatch_keyword_head (q c : Char) (hq : q ∈ ['u', 'd', 'e'])
    (h : foldMatch q c = true) : c.toLower = q := by
  simp only [List.mem_cons, List.mem_singleton, List.not_mem_nil, or_false] at hq
  rcases hq with rfl | rfl | rfl
  · rcases foldMatch_cases _ _ h with rfl | rfl | rfl | ⟨e, _⟩ | ⟨e, _⟩
    · rfl
    · rfl
    · rfl
    · exact absurd e (by decide)
    · exact absurd e (by decide)
  · rcases foldMatch_cases _ _ h with rfl | rfl | rfl | ⟨e, _⟩ | ⟨e, _⟩
    · rfl
    · rfl
    · rfl
    · exact absurd e (by decide)
    · exact absurd e (by decide)
  · rcases foldMatch_cases _ _ h with rfl | rfl | rfl | ⟨e, _⟩ | ⟨e, _⟩
    · rfl
    · rfl
    · rfl
    · exact absurd e (by decide)
    · exact absurd e (by decide)

theorem litFold_head_mismatch (q q' : Char) (qs M rest : List Char) (p' : List Char)
    (hq : q ∈ ['u', 'd', 'e']) (hq' : q' ∈ ['u', 'd', 'e']) (hne : q ≠ q')
    (hM : FoldEq (q' :: p') M) : litFold (q :: qs) (M ++ rest) = none := by
  cases hM with
  | cons h1 h2 =>
    rename_i c cs
    simp only [List.cons_append, litFold]
    split
    · rename_i h
      have e1 := foldMatch_keyword_head q c hq h
      have e2 := foldMatch_keyword_head q' c hq' h1
      exact absurd (e1.symm.trans e2) hne
    · rfl

theorem litFold_append (p M rest : List Char) (h : FoldEq p M) :
    litFold p (M ++ rest) = some rest :=
  (litFold_eq_some p _ rest).2 ⟨M, h, rfl⟩

theorem altFold_keyword (kw d : List Char)
    (h : FoldEq "up".toList kw ∨ FoldEq "down".toList kw ∨ FoldEq "end".toList kw) :
    altFold ["up".toList, "down".toList, "end".toList] (kw ++ d) = some (kw, d) := by
  have hu : "up".toList = 'u' :: ['p'] := rfl
  have hd : "down".toList = 'd' :: ['o', 'w', 'n'] := rfl
  have he : "end".toList = 'e' :: ['n', 'd'] := rfl
  rcases h with h | h | h
  · simp only [altFold, litFold_append _ kw d h]
    rw [show ("up".toList).length = kw.length from (FoldEq_length h).symm, List.take_left]
  · have n1 : litFold "up".toList (kw ++ d) = none := by
      rw [hu]; rw [hd] at h
      exact litFold_head_mismatch 'u' 'd' _ kw d _ (by decide) (by decide) (by decide) h
    simp only [altFold, n1, litFold_append _ kw d h]
    rw [show ("down".toList).length = kw.length from (FoldEq_length h).symm, List.take_left]
  · have n1 : litFold "up".toList (kw ++ d) = none := by
      rw [hu]; rw [he] at h
      exact litFold_head_mismatch 'u' 'e' _ kw d _ (by decide) (by decide) (by decide) h
    have n2 : litFold "down".toList (kw ++ d) = none := by
      rw [hd]; rw [he] at h
      exact litFold_head_mismatch 'd' 'e' _ kw d _ (by decide) (by decide) (by decide) h
    simp only [altFold, n1, n2, litFold_append _ kw d h]
    rw [show ("end".toList).length = kw.length from (FoldEq_length h).symm, List.take_left]

theorem keyword_startsNonSpace (kw d : List Char)
    (h : FoldEq "up".toList kw ∨ FoldEq "down".toList kw ∨ FoldEq "end".toList kw) :
    startsNonSpace (kw ++ d) := by
  rcases h with h | h | h
  · exact FoldEq_startsNonSpace d h (by decide) (by decide)
  · exact FoldEq_startsNonSpace d h (by decide) (by decide)
  · exact FoldEq_startsNonSpace d h (by decide) (by decide)

/-- The matcher of `migre` computes the pattern: it returns `kw` exactly when the line
splits into whitespace, `--`, whitespace, `migrate:` in any case, whitespace, one of the
keywords in any case (`kw`), whitespace. -/
theorem migreSubmatch_iff (line kw : List Char) :
    migreSubmatch line = some kw ↔ MigreMatch line kw := by
  constructor
  · intro h
    unfold migreSubmatch at h
    simp only [Option.bind_eq_some] at h
    obtain ⟨s1, h1, s2, h2, s3, h3, s4, h4, r, h5, h6⟩ := h
    obtain ⟨a, ha, ea⟩ := skipSpaces_split line
    rw [lit_eq_some] at h1
    obtain ⟨b, hb, eb⟩ := spaces1_eq_some _ _ h2
    obtain ⟨M, hM, eM⟩ := (litFold_eq_some _ _ _).1 h3
    obtain ⟨c, hc, ec⟩ := spaces1_eq_some _ _ h4
    obtain ⟨k, d⟩ := r
    obtain ⟨⟨alt, halt, hk⟩, ek⟩ := altFold_eq_some _ _ _ _ h5
    split at h6
    · rename_i hd
      simp only [Option.some.injEq] at h6
      subst h6
      refine ⟨a, b, M, c, d, ?_, ha, hb, hM, hc, ?_, ?_⟩
      · rw [ea, h1, eb, eM, ec, ek]
      · simp only [List.mem_cons, List.mem_singleton, List.not_mem_nil, or_false] at halt
        rcases halt with rfl | rfl | rfl
        · exact Or.inl hk
        · exact Or.inr (Or.inl hk)
        · exact Or.inr (Or.inr hk)
      · exact fun x hx => (List.dropWhile_eq_nil_iff.1 hd) x hx
    · cases h6
  · rintro ⟨a, b, M, c, d, rfl, ha, hb, hM, hc, hk, hd⟩
    unfold migreSubmatch
    have e0 : skipSpaces (a ++ ("--".toList ++ (b ++ (M ++ (c ++ (kw ++ d)))))) =
        "--".toList ++ (b ++ (M ++ (c ++ (kw ++ d)))) :=
      skipSpaces_append a _ ha (by intro x hx; simp at hx; subst hx; rfl)
    have e1 : lit "--".toList ("--".toList ++ (b ++ (M ++ (c ++ (kw ++ d))))) =
        some (b ++ (M ++ (c ++ (kw ++ d)))) := (lit_eq_some _ _ _).2 rfl
    have e2 : spaces1 (b ++ (M ++ (c ++ (kw ++ d)))) = some (M ++ (c ++ (kw ++ d))) :=
      spaces1_append b _ hb (FoldEq_startsNonSpace _ hM (by decide) (by decide))
    have e3 : litFold "migrate:".toList (M ++ (c ++ (kw ++ d))) = some (c ++ (kw ++ d)) :=
      litFold_append _ M _ hM
    have e4 : spaces1 (c ++ (kw ++ d)) = some (kw ++ d) :=
      spaces1_append c _ hc (keyword_startsNonSpace kw d hk)
    have e5 := altFold_keyword kw d hk
    have e6 : skipSpaces d = [] := List.dropWhile_eq_nil_iff.2 hd
    rw [e0, e1, Option.some_bind, e2, Option.some_bind, e3, Option.some_bind, e4,
      Option.some_bind, e5, Option.some_bind]
    simp [e6]

theorem takeWhile_word_append (name d : List Char) (hn : ∀ x ∈ name, isWord x = true)
    (hd : allSpace d) :
    (name ++ d).takeWhile isWord = name ∧ (name ++ d).dropWhile isWord = d := by
  rw [List.takeWhile_append_of_pos hn, List.dropWhile_append_of_pos hn]
  cases d with
  | nil => exact ⟨by simp, rfl⟩
  | cons c cs =>
    have hc : isWord c = false := isWord_of_isSpace (hd c (by simp))
    simp [List.takeWhile_cons, List.dropWhile_cons, hc]

/-- The matcher of `pkgre` computes the pattern: it returns `name` exactly when the line
splits into whitespace, `--`, whitespace, `package:` in any case, whitespace, a non-empty
run of word runes (`name`), whitespace. -/
theorem pkgreSubmatch_iff (line name : List Char) :
    pkgreSubmatch line = some name ↔ PkgreMatch line name := by
  constructor
  · intro h
    have hname := pkgreSubmatch_name line name h
    unfold pkgreSubmatch at h
    simp only [Option.bind_eq_some] at h
    obtain ⟨s1, h1, s2, h2, s3, h3, s4, h4, h6⟩ := h
    obtain ⟨a, ha, ea⟩ := skipSpaces_split line
    rw [lit_eq_some] at h1
    obtain ⟨b, hb, eb⟩ := spaces1_eq_some _ _ h2
    obtain ⟨P, hP, eP⟩ := (litFold_eq_some _ _ _).1 h3
    obtain ⟨c, hc, ec⟩ := spaces1_eq_some _ _ h4
    split at h6
    · rename_i hd
      simp only [Option.some.injEq] at h6
      refine ⟨a, b, P, c, s4.dropWhile isWord, ?_, ha, hb, hP, hc, hname, ?_⟩
      · rw [ea, h1, eb, eP, ec, ← h6, List.takeWhile_append_dropWhile]
      · exact fun x hx => (List.dropWhile_eq_nil_iff.1 hd.2) x hx
    · cases h6
  · rintro ⟨a, b, P, c, d, rfl, ha, hb, hP, hc, hn, hd⟩
    unfold pkgreSubmatch
    have e0 : skipSpaces (a ++ ("--".toList ++ (b ++ (P ++ (c ++ (name ++ d)))))) =
        "--".toList ++ (b ++ (P ++ (c ++ (name ++ d)))) :=
      skipSpaces_append a _ ha (by intro x hx; simp at hx; subst hx; rfl)
    have e1 : lit "--".toList ("--".toList ++ (b ++ (P ++ (c ++ (name ++ d))))) =
        some (b ++ (P ++ (c ++ (name ++ d)))) := (lit_eq_some _ _ _).2 rfl
    have e2 : spaces1 (b ++ (P ++ (c ++ (name ++ d)))) = some (P ++ (c ++ (name ++ d))) :=
      spaces1_append b _ hb (FoldEq_startsNonSpace _ hP (by decide) (by decide))
    have e3 : litFold "package:".toList (P ++ (c ++ (name ++ d))) = some (c ++ (name ++ d)) :=
      litFold_append _ P _ hP
    have hstart : startsNonSpace (name ++ d) := by
      obtain ⟨n0, ns, rfl⟩ := List.exists_cons_of_ne_nil hn.1
      intro x hx
      simp only [List.cons_append, List.head?_cons, Option.mem_def, Option.some.injEq] at hx
      subst hx
      exact isSpace_of_isWord (hn.2 _ (by simp))
    have e4 : spaces1 (c ++ (name ++ d)) = some (name ++ d) := spaces1_append c _ hc hstart
    obtain ⟨e5, e6⟩ := takeWhile_word_append name d hn.2 hd
    have e7 : skipSpaces d = [] := List.dropWhile_eq_nil_iff.2 hd
    rw [e0, e1, Option.some_bind, e2, Option.some_bind, e3, Option.some_bind, e4,
      Option.some_bind]
    simp only [e5, e6, e7]
    simp [hn.1]

/-! ## Claims on the registry, continued -/

theorem Register_err_iff (reg : List Migration) (m : Migration) :
    (Register reg m).2 ≠ none ↔ ∃ e ∈ reg, e.Revision = m.Revision := by
  unfold Register
  split
  · rename_i h
    simp only [List.any_eq_true, decide_eq_true_eq] at h
    simpa using h
  · rename_i h
    simp only [List.any_eq_true, decide_eq_true_eq] at h
    simpa using h

/-- C11: Register is atomic on duplicates. For every registry state and every migration
`m`, `Register` returns an error exactly when some entry of the registry has the revision
of `m`, and then the registry is returned as it was; after registering 23, 2, 9, 8, 41,
5, 13, 14, registering revision 9 fails and leaves the eight entries in place. -/
theorem register_atomic (reg : List Migration) (m : Migration) :
    ((Register reg m).2 ≠ none ↔ ∃ e ∈ reg, e.Revision = m.Revision) ∧
    ((Register reg m).2 ≠ none → (Register reg m).1 = reg) ∧
    Register (registerAll (Reset []) (revisions [23, 2, 9, 8, 41, 5, 13, 14])).1
        { Revision := 9, descriptor := [] } =
      (revisions [2, 5, 8, 9, 13, 14, 23, 41], some Error.duplicateRevision) := by
  refine ⟨Register_err_iff reg m, ?_, by decide⟩
  intro h
  obtain ⟨e, he⟩ := Option.ne_none_iff_exists'.1 h
  exact Register_fail reg m e he

/-! ## Claims on the directive parser, continued -/

theorem count_nl_unlines (ls : List (List Char)) (h : ∀ l ∈ ls, '\n' ∉ l) :
    (unlines ls).count '\n' = ls.length := by
  induction ls with
  | nil => rfl
  | cons l ls ih =>
    have h1 : l.count '\n' = 0 := List.count_eq_zero.2 (h l (by simp))
    simp only [unlines, List.count_append, List.count_cons_self, List.length_cons,
      ih (fun x hx => h x (by simp [hx])), h1]
    omega

theorem pick_sub (toks : List (List Char)) (ms : List Bool) : ∀ l ∈ pick toks ms, l ∈ toks := by
  induction toks generalizing ms with
  | nil => intro l hl; simp [pick] at hl
  | cons t ts ih =>
    intro l hl
    cases ms with
    | nil => simp [pick] at hl
    | cons b bs =>
      simp only [pick] at hl
      split at hl
      · rcases List.mem_cons.1 hl with rfl | hl
        · simp
        · simp [ih bs l hl]
      · simp [ih bs l hl]

theorem pick_count_le (toks : List (List Char)) :
    ∀ bu bd : Bool, ¬ (bu = true ∧ bd = true) →
      (pick toks (marks "up".toList bu toks)).length +
        (pick toks (marks "down".toList bd toks)).length ≤
      (toks.filter fun l => decide (directive l = none)).length := by
  induction toks with
  | nil => intro bu bd _; simp [pick, marks]
  | cons l ls ih =>
    intro bu bd hb
    cases hm : migreSubmatch l with
    | some kw =>
      have hd : directive l ≠ none := by simp [directive, hm]
      have hflags : ¬ (decide (toLower kw = "up".toList) = true ∧
          decide (toLower kw = "down".toList) = true) := by
        rintro ⟨h1, h2⟩
        have e1 : toLower kw = "up".toList := by simpa using h1
        have e2 : toLower kw = "down".toList := by simpa using h2
        exact absurd (e1.symm.trans e2) (by decide)
      have := ih _ _ hflags
      simp only [marks, hm, pick, List.filter_cons, hd, decide_False]
      simpa using this
    | none =>
      have hd : directive l = none := by simp [directive, hm]
      simp only [marks, hm, pick, List.filter_cons, hd, decide_True, if_true, List.length_cons]
      have := ih bu bd hb
      cases bu <;> cases bd <;>
        simp only [Bool.false_eq_true, if_false, if_true, List.length_cons, and_self,
          not_true_eq_false, and_false, false_and, not_false_eq_true] at hb ⊢ <;> omega

theorem scan_filter_le (data : List Char) (rerr : Option Error) :
    ((scan data rerr).1.filter fun l => decide (directive l = none)).length ≤
      ((rawLines data).filter fun l => decide (directive l = none)).length := by
  unfold scan
  generalize rawLines data = ls
  induction ls with
  | nil => simp [scanTokens]
  | cons l ls ih =>
    simp only [scanTokens]
    split
    · simp
    · simp only [List.filter_cons, directive_dropCR]
      split
      · simp only [List.length_cons]; omega
      · exact ih

/-- C17: Up and Down partition the body without overlap. For every payload no line is
written by both Up and Down; a line written by either is a non-directive line of the
payload; and the number of lines of Up plus the number of lines of Down is at most the
number of non-directive lines of the payload. -/
theorem up_down_disjoint (T : List Char) :
    (∀ i, ¬ (lineWritten (payload T) "up".toList i = true ∧
        lineWritten (payload T) "down".toList i = true)) ∧
    (∀ i, lineWritten (payload T) "up".toList i = true ∨
        lineWritten (payload T) "down".toList i = true →
      i < (rawLines T).length ∧ directive ((rawLines T).getD i []) = none) ∧
    ((Up (payload T)).1 =
        unlines (pick (scannedLines (payload T)) (written (payload T) "up".toList)) ∧
      (Down (payload T)).1 =
        unlines (pick (scannedLines (payload T)) (written (payload T) "down".toList))) ∧
    (Up (payload T)).1.count '\n' + (Down (payload T)).1.count '\n' ≤
      ((rawLines T).filter fun l => decide (directive l = none)).length := by
  have hlen : ∀ i, i < (scannedLines (payload T)).length → i < (rawLines T).length := by
    intro i hi
    have h := scanTokens_take none (rawLines T)
    have : (scannedLines (payload T)).length ≤ (rawLines T).length := by
      show (scanTokens none (rawLines T)).1.length ≤ _
      rw [h, List.length_map, List.length_take]
      exact Nat.min_le_right _ _
    omega
  refine ⟨?_, ?_, ⟨readBetween_pick _ _, readBetween_pick _ _⟩, ?_⟩
  · rintro i ⟨h1, h2⟩
    rw [lineWritten_iff] at h1 h2
    exact absurd (Option.some.inj (h1.2.2.symm.trans h2.2.2)) (by decide)
  · rintro i (h | h)
    · rw [lineWritten_iff] at h
      exact ⟨hlen i h.1, h.2.1⟩
    · rw [lineWritten_iff] at h
      exact ⟨hlen i h.1, h.2.1⟩
  · have hnl : ∀ target, ∀ l ∈ pick (scannedLines (payload T)) (written (payload T) target),
        '\n' ∉ l := fun target l hl => scan_noNL T none l (pick_sub _ _ l hl)
    have e1 : (Up (payload T)).1 = _ := readBetween_pick (payload T) "up".toList
    have e2 : (Down (payload T)).1 = _ := readBetween_pick (payload T) "down".toList
    rw [e1, e2, count_nl_unlines _ (hnl _), count_nl_unlines _ (hnl _)]
    exact le_trans (pick_count_le (scan T none).1 false false (by simp))
      (scan_filter_le T none)

/-- C19, the code at the failing input: a line `--migrate: end`, written as in the doc
comments of Up and Down, does not match `migre`; Up and Down go on past it and return it
with the body. -/
theorem undocumented_end_spelling :
    migreSubmatch "--migrate: end".toList = none ∧
    Up (payload "-- migrate: up\nA;\n--migrate: end\nB;\n".toList) =
      ("A;\n--migrate: end\nB;\n".toList, none) ∧
    Down (payload "-- migrate: down\nA;\n--migrate: end\nB;\n".toList) =
      ("A;\n--migrate: end\nB;\n".toList, none) := by decide

/-! ## Lemmas: determinePackage -/

theorem addName_nodup (names : List (List Char)) (n : List Char) (h : names.Nodup) :
    (addName names n).Nodup := by
  unfold addName
  split
  · exact h
  · rename_i hn
    exact List.Nodup.append h (by simp) (by simpa using hn)

theorem mem_addName (names : List (List Char)) (n x : List Char) :
    x ∈ addName names n ↔ x ∈ names ∨ x = n := by
  unfold addName
  split
  · rename_i hn
    constructor
    · exact Or.inl
    · rintro (h | rfl)
      · exact h
      · exact hn
  · simp

theorem declaredNames_cons_ne (pkg : Migration → List Char × Option Error) (m : Migration)
    (ms : List Migration) (hn : (pkg m).1 ≠ []) :
    declaredNames pkg (m :: ms) = (pkg m).1 :: declaredNames pkg ms := by
  simp [declaredNames, hn]

theorem declaredNames_cons_nil (pkg : Migration → List Char × Option Error) (m : Migration)
    (ms : List Migration) (hn : (pkg m).1 = []) :
    declaredNames pkg (m :: ms) = declaredNames pkg ms := by
  simp [declaredNames, hn]

theorem collectNames_ok (pkg : Migration → List Char × Option Error) (ms : List Migration)
    (hok : ∀ m ∈ ms, (pkg m).2 = none) :
    ∀ acc : List (List Char), acc.Nodup →
      ∃ names, collectNames pkg ms acc = .ok names ∧ names.Nodup ∧
        ∀ x, x ∈ names ↔ x ∈ acc ∨ x ∈ declaredNames pkg ms := by
  induction ms with
  | nil => intro acc h; exact ⟨acc, rfl, h, by simp [declaredNames]⟩
  | cons m ms ih =>
    intro acc h
    have hm := hok m (by simp)
    have ih' := ih (fun x hx => hok x (by simp [hx]))
    simp only [collectNames, hm]
    by_cases hn : (pkg m).1 = []
    · obtain ⟨names, e, nd, hmem⟩ := ih' acc h
      refine ⟨names, by simpa [hn] using e, nd, ?_⟩
      intro x
      rw [hmem x, declaredNames_cons_nil pkg m ms hn]
    · obtain ⟨names, e, nd, hmem⟩ := ih' (addName acc (pkg m).1) (addName_nodup _ _ h)
      refine ⟨names, by simpa [hn] using e, nd, ?_⟩
      intro x
      rw [hmem x, mem_addName, declaredNames_cons_ne pkg m ms hn, List.mem_cons]
      tauto

theorem collectNames_card (pkg : Migration → List Char × Option Error) (ms : List Migration)
    (hok : ∀ m ∈ ms, (pkg m).2 = none) :
    ∃ names, collectNames pkg ms [] = .ok names ∧
      names.length = (declaredNames pkg ms).toFinset.card ∧
      names.toFinset = (declaredNames pkg ms).toFinset := by
  obtain ⟨names, e, nd, hmem⟩ := collectNames_ok pkg ms hok [] List.nodup_nil
  have hset : names.toFinset = (declaredNames pkg ms).toFinset := by
    ext x
    simp [hmem x]
  exact ⟨names, e, by rw [← hset, List.toFinset_card_of_nodup nd], hset⟩

theorem collectNames_filter (pkg : Migration → List Char × Option Error) (ms : List Migration) :
    ∀ acc, collectNames pkg (ms.filter fun m => decide ((pkg m).1 ≠ [])) acc =
      collectNames pkg ms acc ∨ ∃ m ∈ ms, (pkg m).2 ≠ none := by
  induction ms with
  | nil => intro acc; exact Or.inl rfl
  | cons m ms ih =>
    intro acc
    cases hm : (pkg m).2 with
    | some err => exact Or.inr ⟨m, by simp, by simp [hm]⟩
    | none =>
      by_cases hn : (pkg m).1 = []
      · rcases ih acc with h | ⟨x, hx, h⟩
        · left
          simp only [List.filter_cons, hn, ne_eq, not_true_eq_false, decide_False,
            collectNames, hm, if_false]
          simpa using h
        · exact Or.inr ⟨x, by simp [hx], h⟩
      · rcases ih (addName acc (pkg m).1) with h | ⟨x, hx, h⟩
        · left
          simp only [List.filter_cons, hn, ne_eq, not_false_eq_true, decide_True, if_true,
            collectNames, hm]
          exact h
        · exact Or.inr ⟨x, by simp [hx], h⟩

/-- C20: package-name resolution in `determinePackage`. For every list of migrations whose
`Package()` calls all succeed, with S the set of distinct non-empty package names they
declare: if S has more than one element the result is an error, for every outpath; if S is
a single name, that name is returned with a nil error, for every outpath; and leaving out
the migrations that declare no package changes neither the name returned nor whether the
error is nil. -/
theorem determinePackage_resolution (env : PathEnv)
    (pkg : Migration → List Char × Option Error) (ms : List Migration) (outpath : List Char)
    (hok : ∀ m ∈ ms, (pkg m).2 = none) :
    (1 < (declaredNames pkg ms).toFinset.card →
      (determinePackage env pkg ms outpath).2 ≠ none) ∧
    (∀ n, (declaredNames pkg ms).toFinset = {n} →
      determinePackage env pkg ms outpath = (n, none)) ∧
    ((determinePackage env pkg (ms.filter fun m => decide ((pkg m).1 ≠ [])) outpath).1 =
        (determinePackage env pkg ms outpath).1 ∧
      ((determinePackage env pkg (ms.filter fun m => decide ((pkg m).1 ≠ [])) outpath).2 = none ↔
        (determinePackage env pkg ms outpath).2 = none)) := by
  obtain ⟨names, e, hcard, hset⟩ := collectNames_card pkg ms hok
  refine ⟨?_, ?_, ?_⟩
  · intro h
    have : names.length > 1 := by omega
    simp [determinePackage, e, this]
  · intro n hn
    have h1 : names.length = 1 := by rw [hcard, hn]; rfl
    obtain ⟨x, rfl⟩ := List.length_eq_one.1 h1
    have hx : x = n := by
      have : x ∈ ([x] : List (List Char)).toFinset := by simp
      rw [hset, hn] at this
      simpa using this
    simp [determinePackage, e, hx]
  · have hf : collectNames pkg (ms.filter fun m => decide ((pkg m).1 ≠ [])) [] =
        collectNames pkg ms [] := by
      rcases collectNames_filter pkg ms [] with h | ⟨m, hm, h⟩
      · exact h
      · exact absurd (hok m hm) h
    simp only [determinePackage, hf, e]
    split
    · simp
    · split
      · simp
      · split
        · split
          · cases env.getwd <;> simp
          · simp
        · simp

/-- C20, witness: three migrations, one of them without a package directive. -/
theorem determinePackage_resolution_witness :
    determinePackage ⟨id, id, none⟩ (fun m => (if m.Revision = 2 then [] else "foo".toList, none))
      (revisions [1, 2, 3]) "out/gen.go".toList = ("foo".toList, none) :=
  (determinePackage_resolution ⟨id, id, none⟩
    (fun m => (if m.Revision = 2 then [] else "foo".toList, none)) (revisions [1, 2, 3])
    "out/gen.go".toList (by decide)).2.1 "foo".toList (by decide)

/-! ## Lemmas: Repr -/

theorem reprRow_eq (row : List UInt8) :
    ∀ k, reprRow (k + row.length) k row = (" ".toList).intercalate (row.map fmtByte) := by
  induction row with
  | nil => intro k; rfl
  | cons b rest ih =>
    intro k
    have h := ih (k + 1)
    have hl : k + (b :: rest).length = k + 1 + rest.length := by simp; omega
    rw [hl] at *
    simp only [reprRow, h]
    cases rest with
    | nil => simp [List.intercalate]
    | cons c cs =>
      have : k < k + 1 + (c :: cs).length - 1 := by simp only [List.length_cons]; omega
      have h2 : k < k + 1 + cs.length := by omega
      simp [this, h2, List.intercalate]

theorem reprRow_slice (d : Descriptor) (r : Nat) (h : 16 * r < d.length) :
    "\n\t".toList ++
      reprRow ((if 16 * r + 16 > d.length then d.length else 16 * r + 16) - 16 * r) 0
        ((d.drop (16 * r)).take
          ((if 16 * r + 16 > d.length then d.length else 16 * r + 16) - 16 * r)) =
      '\n' :: hexRow d r := by
  have hslice : (d.drop (16 * r)).take
      ((if 16 * r + 16 > d.length then d.length else 16 * r + 16) - 16 * r) = rowBytes d r := by
    unfold rowBytes
    split
    · rename_i hlt
      rw [List.take_of_length_le (by simp), List.take_of_length_le (by simp; omega)]
    · rename_i hge
      congr 1
      omega
  have hm : (if 16 * r + 16 > d.length then d.length else 16 * r + 16) - 16 * r =
      0 + (rowBytes d r).length := by
    unfold rowBytes
    simp only [List.length_take, List.length_drop]
    split <;> omega
  rw [hslice, hm, reprRow_eq]
  rfl

theorem reprLoop_eq (d : Descriptor) :
    ∀ fuel r, numRows d - r ≤ fuel →
      reprLoop d fuel (16 * r) =
        ((List.range' r (numRows d - r)).map fun q => '\n' :: hexRow d q).flatten := by
  intro fuel
  induction fuel with
  | zero =>
    intro r h
    have : numRows d - r = 0 := by omega
    simp [reprLoop, this]
  | succ fuel ih =>
    intro r h
    by_cases hlt : 16 * r < d.length
    · have hr : numRows d - r = (numRows d - (r + 1)) + 1 := by
        unfold numRows; omega
      have hstep := ih (r + 1) (by omega)
      have e16 : 16 * (r + 1) = 16 * r + 16 := by omega
      rw [e16] at hstep
      simp only [reprLoop, hlt, if_true]
      rw [reprRow_slice d r hlt, hstep, hr, List.range'_succ]
      simp
    · have : numRows d - r = 0 := by unfold numRows; omega
      simp [reprLoop, hlt, this]

theorem Repr_eq (d : Descriptor) :
    Repr d = "[]byte\x7b".toList ++
      ((commentLine d :: ((List.range (numRows d)).map (hexRow d) ++ ["\x7d".toList])).map
        fun l => '\n' :: l).flatten := by
  have h := reprLoop_eq d d.length 0 (by unfold numRows; omega)
  simp only [Nat.mul_zero, Nat.sub_zero] at h
  unfold Repr
  rw [h, List.range_eq_range']
  simp [commentLine, List.map_map, Function.comp_def]

theorem splitNL_single (l : List Char) (h : '\n' ∉ l) : splitNL l = [l] := by
  induction l with
  | nil => rfl
  | cons c cs ih =>
    have hc : c ≠ '\n' := fun e => h (by simp [e])
    have hcs : '\n' ∉ cs := fun e => h (by simp [e])
    simp only [splitNL, hc, if_false, ih hcs]

theorem splitNL_lines (xs : List (List Char)) (h : ∀ l ∈ xs, '\n' ∉ l) :
    ∀ a, '\n' ∉ a → splitNL (a ++ (xs.map fun l => '\n' :: l).flatten) = a :: xs := by
  induction xs with
  | nil => intro a ha; simpa using splitNL_single a ha
  | cons x xs ih =>
    intro a ha
    simp only [List.map_cons, List.flatten_cons, List.cons_append]
    rw [splitNL_append_nl a _ ha, ih (fun l hl => h l (by simp [hl])) x (h x (by simp))]

theorem digitChar_hex (k : Nat) (h : k < 16) :
    Nat.digitChar k ∈ "0123456789abcdef".toList ∧ hexVal (Nat.digitChar k) = some k := by
  interval_cases k <;> decide

theorem byte_nibbles (b : UInt8) : b.toNat / 16 < 16 ∧ b.toNat % 16 < 16 := by
  have := UInt8.toNat_lt b
  omega

theorem fmtByte_noNL (b : UInt8) : ∀ c ∈ fmtByte b, c ≠ '\n' ∧ c ≠ ' ' ∧ c ≠ '\t' := by
  obtain ⟨h1, h2⟩ := byte_nibbles b
  have d1 := (digitChar_hex _ h1).1
  have d2 := (digitChar_hex _ h2).1
  have key : ∀ c ∈ "0123456789abcdef".toList, c ≠ '\n' ∧ c ≠ ' ' ∧ c ≠ '\t' := by decide
  intro c hc
  simp only [fmtByte, List.mem_cons, List.mem_singleton, List.not_mem_nil, or_false] at hc
  rcases hc with rfl | rfl | rfl | rfl | rfl
  · decide
  · decide
  · exact key _ d1
  · exact key _ d2
  · decide

theorem intercalate_mem (bs : List UInt8) :
    ∀ c ∈ (" ".toList).intercalate (bs.map fmtByte), c = ' ' ∨ ∃ b ∈ bs, c ∈ fmtByte b := by
  induction bs with
  | nil => intro c hc; simp [List.intercalate] at hc
  | cons b rest ih =>
    intro c hc
    cases rest with
    | nil =>
      simp only [List.map_cons, List.map_nil, List.intercalate, List.intersperse,
        List.flatten_cons, List.flatten_nil, List.append_nil] at hc
      exact Or.inr ⟨b, by simp, hc⟩
    | cons b2 rest2 =>
      have e : (" ".toList).intercalate ((b :: b2 :: rest2).map fmtByte) =
          fmtByte b ++ (" ".toList ++ (" ".toList).intercalate ((b2 :: rest2).map fmtByte)) := by
        simp [List.intercalate, List.intersperse]
      rw [e] at hc
      simp only [List.mem_append] at hc
      rcases hc with hc | hc | hc
      · exact Or.inr ⟨b, by simp, hc⟩
      · left; simpa using hc
      · rcases ih c hc with h | ⟨x, hx, h⟩
        · exact Or.inl h
        · exact Or.inr ⟨x, by simp [hx], h⟩

theorem hexRow_noNL (d : Descriptor) (r : Nat) : '\n' ∉ hexRow d r := by
  intro h
  simp only [hexRow, List.mem_cons] at h
  rcases h with h | h
  · exact absurd h (by decide)
  · rcases intercalate_mem _ _ h with h | ⟨b, _, hb⟩
    · exact absurd h (by decide)
    · exact (fmtByte_noNL b _ hb).1 rfl

theorem toDigitsCore_append (b : Nat) :
    ∀ fuel n ds, Nat.toDigitsCore b fuel n ds = Nat.toDigitsCore b fuel n [] ++ ds := by
  intro fuel
  induction fuel with
  | zero => intro n ds; rfl
  | succ fuel ih =>
    intro n ds
    simp only [Nat.toDigitsCore]
    split
    · rfl
    · rw [ih (n / b) (_ :: ds), ih (n / b) [_]]
      simp

theorem digitChar_dec (k : Nat) (h : k < 10) :
    (Nat.digitChar k).isDigit = true ∧ (Nat.digitChar k).toNat - 48 = k ∧
      Nat.digitChar k ≠ '\n' := by
  interval_cases k <;> decide

theorem toDigitsCore_dec :
    ∀ fuel n, n < fuel →
      parseDigits (Nat.toDigitsCore 10 fuel n []) = n ∧
      ∀ c ∈ Nat.toDigitsCore 10 fuel n [], c.isDigit = true ∧ c ≠ '\n' := by
  intro fuel
  induction fuel with
  | zero => intro n h; omega
  | succ fuel ih =>
    intro n h
    have hd := digitChar_dec (n % 10) (Nat.mod_lt _ (by omega))
    simp only [Nat.toDigitsCore]
    split
    · rename_i h0
      refine ⟨?_, ?_⟩
      · simp only [parseDigits, List.foldl_cons, List.foldl_nil, hd.2.1]
        omega
      · intro c hc
        rw [List.mem_singleton] at hc
        subst hc
        exact ⟨hd.1, hd.2.2⟩
    · rename_i h0
      obtain ⟨h1, h2⟩ := ih (n / 10) (by omega)
      rw [toDigitsCore_append]
      refine ⟨?_, ?_⟩
      · unfold parseDigits at h1 ⊢
        rw [List.foldl_append, h1]
        simp only [List.foldl_cons, List.foldl_nil, hd.2.1]
        omega
      · intro c hc
        rcases List.mem_append.1 hc with hc | hc
        · exact h2 c hc
        · rw [List.mem_singleton] at hc
          subst hc
          exact ⟨hd.1, hd.2.2⟩

theorem toDigits_dec (n : Nat) :
    parseDigits (Nat.toDigits 10 n) = n ∧
      ∀ c ∈ Nat.toDigits 10 n, c.isDigit = true ∧ c ≠ '\n' :=
  toDigitsCore_dec (n + 1) n (Nat.lt_succ_self n)

theorem commentLine_noNL (d : Descriptor) : '\n' ∉ commentLine d := by
  intro h
  simp only [commentLine, List.mem_append] at h
  rcases h with (h | h) | h
  · exact absurd h (by decide)
  · exact ((toDigits_dec d.length).2 _ h).2 rfl
  · exact absurd h (by decide)

theorem splitNL_Repr (d : Descriptor) : splitNL (Repr d) = reprLines d := by
  rw [Repr_eq, splitNL_lines _ _ _ (by decide)]
  · rfl
  · intro l hl
    simp only [List.mem_cons, List.mem_append, List.mem_map, List.mem_range,
      List.mem_singleton, List.not_mem_nil, or_false] at hl
    rcases hl with rfl | ⟨r, _, rfl⟩ | rfl
    · exact commentLine_noNL d
    · exact hexRow_noNL d r
    · decide

/-! ## Lemmas: reading the literals back -/

theorem literalAt_first (c : Char) (rest : List Char) (h : c ≠ '0') :
    literalAt (c :: rest) = none := by
  unfold literalAt
  split
  · rename_i heq
    simp only [List.cons.injEq] at heq
    exact absurd heq.1 h
  · rfl

theorem literalAt_second (c c2 : Char) (rest : List Char) (h : c2 ≠ 'x') :
    literalAt (c :: c2 :: rest) = none := by
  unfold literalAt
  split
  · rename_i heq
    simp only [List.cons.injEq] at heq
    exact absurd heq.2.1 h
  · rfl

theorem literalAt_single (c : Char) : literalAt [c] = none := by
  unfold literalAt
  split
  · rename_i heq
    simp at heq
  · rfl

theorem readLiterals_cons_none (c : Char) (rest : List Char) (h : literalAt (c :: rest) = none) :
    readLiterals (c :: rest) = readLiterals rest := by
  simp only [readLiterals, h]

theorem readLiterals_skip (pre X : List Char) (h : '0' ∉ pre) :
    readLiterals (pre ++ X) = readLiterals X := by
  induction pre with
  | nil => rfl
  | cons c cs ih =>
    have hc : c ≠ '0' := fun e => h (by simp [e])
    rw [List.cons_append, readLiterals_cons_none _ _ (literalAt_first c _ hc)]
    exact ih (fun e => h (by simp [e]))

theorem readLiterals_noX (ds Y : List Char) (h : ∀ c ∈ ds, c ≠ 'x') :
    readLiterals (ds ++ ' ' :: Y) = readLiterals Y := by
  induction ds with
  | nil =>
    exact readLiterals_cons_none _ _ (literalAt_first ' ' Y (by decide))
  | cons c cs ih =>
    have ih' := ih (fun x hx => h x (by simp [hx]))
    rw [List.cons_append]
    cases cs with
    | nil =>
      rw [List.nil_append, readLiterals_cons_none _ _ (literalAt_second c ' ' Y (by decide))]
      exact ih'
    | cons c2 cs2 =>
      rw [List.cons_append, readLiterals_cons_none _ _
        (literalAt_second c c2 _ (h c2 (by simp)))]
      exact ih'

theorem ofNat_nibbles (b : UInt8) : UInt8.ofNat (16 * (b.toNat / 16) + b.toNat % 16) = b := by
  have h : 16 * (b.toNat / 16) + b.toNat % 16 = b.toNat := Nat.div_add_mod _ _
  rw [h]
  apply UInt8.ext
  simp [UInt8.ofNat, UInt8.toNat, Fin.ofNat]

theorem hex_ne_x : ∀ c ∈ "0123456789abcdef".toList, c ≠ 'x' := by decide

theorem readLiterals_fmtByte (b : UInt8) (X : List Char) :
    readLiterals (fmtByte b ++ X) = b :: readLiterals X := by
  obtain ⟨h1, h2⟩ := byte_nibbles b
  obtain ⟨m1, v1⟩ := digitChar_hex _ h1
  obtain ⟨m2, v2⟩ := digitChar_hex _ h2
  have hlit : literalAt (fmtByte b ++ X) = some b := by
    simp only [fmtByte, List.cons_append, List.nil_append, literalAt, v1, v2, ofNat_nibbles]
  have e : fmtByte b ++ X = '0' :: 'x' :: Nat.digitChar (b.toNat / 16) ::
      Nat.digitChar (b.toNat % 16) :: ',' :: X := rfl
  rw [e] at hlit ⊢
  simp only [readLiterals, hlit]
  congr 1
  have s1 : literalAt ('x' :: Nat.digitChar (b.toNat / 16) ::
      Nat.digitChar (b.toNat % 16) :: ',' :: X) = none := literalAt_first _ _ (by decide)
  have s2 : literalAt (Nat.digitChar (b.toNat / 16) ::
      Nat.digitChar (b.toNat % 16) :: ',' :: X) = none :=
    literalAt_second _ _ _ (hex_ne_x _ m2)
  have s3 : literalAt (Nat.digitChar (b.toNat % 16) :: ',' :: X) = none :=
    literalAt_second _ _ _ (by decide)
  have s4 : literalAt (',' :: X) = none := literalAt_first _ _ (by decide)
  cases X with
  | nil => simp only [s1, s2, s3, literalAt_single, readLiterals]
  | cons x xs => simp only [s1, s2, s3, s4]

theorem readLiterals_intercalate (bs : List UInt8) (X : List Char) :
    readLiterals ((" ".toList).intercalate (bs.map fmtByte) ++ X) = bs ++ readLiterals X := by
  induction bs with
  | nil => simp [List.intercalate]
  | cons b rest ih =>
    cases rest with
    | nil =>
      have e : (" ".toList).intercalate ([b].map fmtByte) = fmtByte b := by
        simp [List.intercalate, List.intersperse]
      rw [e, readLiterals_fmtByte]
      rfl
    | cons b2 rest2 =>
      have e : (" ".toList).intercalate ((b :: b2 :: rest2).map fmtByte) ++ X =
          fmtByte b ++ (' ' :: ((" ".toList).intercalate ((b2 :: rest2).map fmtByte) ++ X)) := by
        simp [List.intercalate, List.intersperse]
      rw [e, readLiterals_fmtByte,
        readLiterals_cons_none _ _ (literalAt_first ' ' _ (by decide)), ih]
      rfl

theorem readLiterals_hexRow (d : Descriptor) (r : Nat) (X : List Char) :
    readLiterals ('\n' :: hexRow d r ++ X) = rowBytes d r ++ readLiterals X := by
  have e : '\n' :: hexRow d r ++ X =
      '\n' :: '\t' :: ((" ".toList).intercalate ((rowBytes d r).map fmtByte) ++ X) := rfl
  rw [e, readLiterals_cons_none _ _ (literalAt_first '\n' _ (by decide)),
    readLiterals_cons_none _ _ (literalAt_first '\t' _ (by decide)), readLiterals_intercalate]

theorem readLiterals_rows (d : Descriptor) (X : List Char) :
    ∀ k r, readLiterals (((List.range' r k).map fun q => '\n' :: hexRow d q).flatten ++ X) =
      ((List.range' r k).map (rowBytes d)).flatten ++ readLiterals X := by
  intro k
  induction k with
  | zero => intro r; rfl
  | succ k ih =>
    intro r
    simp only [List.range'_succ, List.map_cons, List.flatten_cons, List.append_assoc]
    rw [readLiterals_hexRow, ih]

theorem rows_flatten (d : Descriptor) :
    ∀ k r, ((List.range' r k).map (rowBytes d)).flatten = (d.drop (16 * r)).take (16 * k) := by
  intro k
  induction k with
  | zero => intro r; simp
  | succ k ih =>
    intro r
    simp only [List.range'_succ, List.map_cons, List.flatten_cons]
    rw [ih (r + 1), rowBytes, show 16 * (k + 1) = 16 + 16 * k by omega, List.take_add,
      List.drop_drop]
    congr 2

theorem readLiterals_Repr (d : Descriptor) : readLiterals (Repr d) = d := by
  have hx : ∀ c ∈ Nat.toDigits 10 d.length, c ≠ 'x' := by
    intro c hc h
    have := ((toDigits_dec d.length).2 c hc).1
    rw [h] at this
    exact absurd this (by decide)
  have e : Repr d = "[]byte\x7b\n\t// ".toList ++ (Nat.toDigits 10 d.length ++
      ' ' :: ("bytes of compressed tidal.Descriptor data".toList ++
        (((List.range' 0 (numRows d)).map fun q => '\n' :: hexRow d q).flatten ++
          "\n\x7d".toList))) := by
    have h := reprLoop_eq d d.length 0 (by unfold numRows; omega)
    simp only [Nat.mul_zero, Nat.sub_zero] at h
    unfold Repr
    rw [h]
    simp
  rw [e, readLiterals_skip _ _ (by decide), readLiterals_noX _ _ hx,
    readLiterals_skip _ _ (by decide), readLiterals_rows, rows_flatten]
  have : readLiterals "\n\x7d".toList = [] := by decide
  rw [this, List.append_nil, Nat.mul_zero, List.drop_zero]
  exact List.take_of_length_le (by unfold numRows; omega)

theorem rowBytes_length (d : Descriptor) (r : Nat) :
    (rowBytes d r).length = min 16 (d.length - 16 * r) := by
  simp [rowBytes, List.length_take, List.length_drop]

theorem readLiterals_row (d : Descriptor) (r : Nat) : readLiterals (hexRow d r) = rowBytes d r := by
  have h := readLiterals_hexRow d r []
  rw [List.append_nil, readLiterals_cons_none _ _ (literalAt_first '\n' _ (by decide))] at h
  simpa [readLiterals] using h

/-! ## The claims on Repr -/

theorem intercalate_last (bs : List UInt8) (h : bs ≠ []) :
    ((" ".toList).intercalate (bs.map fmtByte)).getLast? = some ',' := by
  induction bs with
  | nil => exact absurd rfl h
  | cons b rest ih =>
    cases rest with
    | nil => simp [List.intercalate, List.intersperse, fmtByte]
    | cons b2 rest2 =>
      have e : (" ".toList).intercalate ((b :: b2 :: rest2).map fmtByte) =
          (fmtByte b ++ [' ']) ++ (" ".toList).intercalate ((b2 :: rest2).map fmtByte) := by
        simp [List.intercalate, List.intersperse]
      rw [e, List.getLast?_append, ih (by simp)]
      rfl

theorem hexRow_last (d : Descriptor) (r : Nat) : (hexRow d r).getLast? ≠ some ' ' := by
  unfold hexRow
  cases hb : rowBytes d r with
  | nil => simp [List.intercalate]
  | cons b bs =>
    have h := intercalate_last (b :: bs) (by simp)
    have e : ('\t' :: (" ".toList).intercalate ((b :: bs).map fmtByte)) =
        ['\t'] ++ (" ".toList).intercalate ((b :: bs).map fmtByte) := rfl
    rw [e, List.getLast?_append, h]
    simp

theorem commentLine_last (d : Descriptor) : (commentLine d).getLast? ≠ some ' ' := by
  unfold commentLine
  rw [List.getLast?_append]
  have : (" bytes of compressed tidal.Descriptor data".toList).getLast? = some 'a' := by decide
  rw [this]
  simp

set_option maxRecDepth 8000 in
theorem generatedDescriptor_length : generatedDescriptor.length = 405 := by decide

/-- C12 (as amended): for the empty descriptor `Repr` returns exactly the text
`[]byte{`, newline, tab, `// 0 bytes of compressed tidal.Descriptor data`, newline, `}`;
and for every descriptor of n bytes the comment line of `Repr` is a tab, `// `, the
decimal digits of n and ` bytes of compressed tidal.Descriptor data`. -/
theorem repr_comment_line (d : Descriptor) :
    Repr [] = "[]byte\x7b\n\t// 0 bytes of compressed tidal.Descriptor data\n\x7d".toList ∧
    (splitNL (Repr d)).getD 1 [] =
      "\t// ".toList ++ Nat.toDigits 10 d.length ++
        " bytes of compressed tidal.Descriptor data".toList ∧
    parseDigits (Nat.toDigits 10 d.length) = d.length ∧
    (splitNL (Repr generatedDescriptor)).getD 1 [] =
      "\t// 405 bytes of compressed tidal.Descriptor data".toList := by
  refine ⟨by decide, ?_, (toDigits_dec d.length).1, ?_⟩
  · rw [splitNL_Repr]
    rfl
  · have hlen := generatedDescriptor_length
    rw [splitNL_Repr]
    show commentLine generatedDescriptor = _
    unfold commentLine
    rw [hlen]
    decide

/-- C12 as stated fails: the comment of the empty descriptor reads `tidal.Descriptor
data`, not `descriptor data`. -/
theorem repr_comment_line_counterexample :
    Repr [] ≠ "[]byte\x7b\n\t// 0 bytes of compressed descriptor data\n\x7d".toList := by decide

/-- C13: row structure of `Repr`. For every descriptor of n bytes the lines of `Repr` are
`[]byte{`, the comment line, `ceil(n/16)` hex rows and `}`; every hex row but the last
holds 16 literals, the last holds `n - 16 * (ceil(n/16) - 1)`, and every row holds
between 1 and 16; 17 bytes give two rows of 16 and 1 literals. -/
theorem repr_row_structure (d : Descriptor) :
    splitNL (Repr d) =
      "[]byte\x7b".toList :: commentLine d ::
        ((List.range (numRows d)).map (hexRow d) ++ ["\x7d".toList]) ∧
    (d.length ≤ 16 * numRows d ∧ 16 * numRows d < d.length + 16) ∧
    (∀ r, r < numRows d →
      (readLiterals (hexRow d r)).length =
        (if r + 1 < numRows d then 16 else d.length - 16 * (numRows d - 1)) ∧
      1 ≤ (readLiterals (hexRow d r)).length ∧ (readLiterals (hexRow d r)).length ≤ 16) ∧
    (splitNL (Repr (List.replicate 17 0xab))).map (fun l => (readLiterals l).length) =
      [0, 0, 16, 1, 0] := by
  refine ⟨splitNL_Repr d, by unfold numRows; omega, ?_, by decide⟩
  intro r hr
  rw [readLiterals_row, rowBytes_length]
  unfold numRows at hr ⊢
  refine ⟨?_, ?_, ?_⟩
  · split <;> omega
  · omega
  · omega

/-- C14: element format of `Repr`. Each byte is rendered as `0x`, two lower-case
hexadecimal digits that denote it, and a comma; a hex row is a tab followed by the
literals of its bytes with exactly one space between consecutive literals; and no line of
the output ends with a space. -/
theorem repr_element_format (d : Descriptor) :
    (∀ b : UInt8, ∃ h l, fmtByte b = ['0', 'x', h, l, ','] ∧
      h ∈ "0123456789abcdef".toList ∧ l ∈ "0123456789abcdef".toList ∧
      hexVal h = some (b.toNat / 16) ∧ hexVal l = some (b.toNat % 16) ∧
      16 * (b.toNat / 16) + b.toNat % 16 = b.toNat) ∧
    (∀ r, r < numRows d →
      (splitNL (Repr d)).getD (2 + r) [] =
        '\t' :: (" ".toList).intercalate ((rowBytes d r).map fmtByte) ∧
      ∃ rest, (splitNL (Repr d)).getD (2 + r) [] = '\t' :: '0' :: 'x' :: rest) ∧
    (∀ line ∈ splitNL (Repr d), line.getLast? ≠ some ' ') := by
  refine ⟨?_, ?_, ?_⟩
  · intro b
    obtain ⟨h1, h2⟩ := byte_nibbles b
    exact ⟨_, _, rfl, (digitChar_hex _ h1).1, (digitChar_hex _ h2).1, (digitChar_hex _ h1).2,
      (digitChar_hex _ h2).2, Nat.div_add_mod _ _⟩
  · intro r hr
    have hline : (splitNL (Repr d)).getD (2 + r) [] = hexRow d r := by
      rw [splitNL_Repr, reprLines, show 2 + r = r + 1 + 1 by omega, List.getD_cons_succ,
        List.getD_cons_succ, List.getD_eq_getElem?_getD,
        List.getElem?_append_left (by simpa using hr), List.getElem?_map,
        List.getElem?_range hr]
      rfl
    refine ⟨hline, ?_⟩
    rw [hline]
    have hne : rowBytes d r ≠ [] := by
      intro h
      have := rowBytes_length d r
      rw [h] at this
      unfold numRows at hr
      simp at this
      omega
    obtain ⟨b, bs, hb⟩ := List.exists_cons_of_ne_nil hne
    have ht : ∃ tail, (" ".toList).intercalate ((b :: bs).map fmtByte) = fmtByte b ++ tail := by
      cases bs with
      | nil => exact ⟨[], by simp [List.intercalate, List.intersperse]⟩
      | cons b2 bs2 =>
        exact ⟨' ' :: (" ".toList).intercalate ((b2 :: bs2).map fmtByte),
          by simp [List.intercalate, List.intersperse]⟩
    obtain ⟨tail, ht⟩ := ht
    unfold hexRow
    rw [hb, ht]
    exact ⟨Nat.digitChar (b.toNat / 16) :: Nat.digitChar (b.toNat % 16) :: ',' :: tail, rfl⟩
  · intro line hl
    rw [splitNL_Repr] at hl
    simp only [reprLines, List.mem_cons, List.mem_append, List.mem_map, List.mem_range,
      List.mem_singleton, List.not_mem_nil, or_false] at hl
    rcases hl with rfl | rfl | ⟨r, _, rfl⟩ | rfl
    · decide
    · exact commentLine_last d
    · exact hexRow_last d r
    · decide

theorem commentCount_Repr (d : Descriptor) : commentCount (Repr d) = d.length := by
  have hd := toDigits_dec d.length
  have e : (commentLine d).drop 4 =
      Nat.toDigits 10 d.length ++ " bytes of compressed tidal.Descriptor data".toList := by
    unfold commentLine
    rw [List.append_assoc]
    exact List.drop_left "\t// ".toList _
  have ht : (Nat.toDigits 10 d.length ++
      " bytes of compressed tidal.Descriptor data".toList).takeWhile Char.isDigit =
      Nat.toDigits 10 d.length := by
    rw [List.takeWhile_append_of_pos (fun c hc => (hd.2 c hc).1)]
    have : (" bytes of compressed tidal.Descriptor data".toList).takeWhile Char.isDigit = [] := by
      decide
    rw [this, List.append_nil]
  unfold commentCount
  rw [splitNL_Repr]
  show parseDigits (((commentLine d).drop 4).takeWhile Char.isDigit) = d.length
  rw [e, ht]
  exact hd.1

set_option maxRecDepth 8000 in
theorem hexRows_generatedDescriptor :
    commentLine generatedDescriptor ::
      ((List.range 26).map (hexRow generatedDescriptor) ++ ["\x7d".toList]) = generatedLines := by
  have hlen := generatedDescriptor_length
  unfold commentLine
  rw [hlen]
  decide

theorem Repr_generatedDescriptor : Repr generatedDescriptor = generatedText := by
  have hn : numRows generatedDescriptor = 26 := by
    unfold numRows
    rw [generatedDescriptor_length]
  rw [Repr_eq, hn, hexRows_generatedDescriptor]
  rfl

/-- C18: `Repr` is a lossless encoding. For every descriptor d, the `0x..` literals of
`Repr(d)`, read in order of appearance and decoded as hexadecimal bytes, are exactly d; the
number in the comment line is the number of literals; so `Repr` is injective. The text of
`generatedDescriptor` in the test file is `Repr` of its 405 bytes. -/
theorem repr_lossless (d : Descriptor) :
    readLiterals (Repr d) = d ∧
    commentCount (Repr d) = (readLiterals (Repr d)).length ∧
    (∀ d2, Repr d = Repr d2 → d = d2) ∧
    (Repr generatedDescriptor = generatedText ∧
      readLiterals generatedText = generatedDescriptor ∧ commentCount generatedText = 405) := by
  refine ⟨readLiterals_Repr d, ?_, ?_, Repr_generatedDescriptor, ?_, ?_⟩
  · rw [commentCount_Repr, readLiterals_Repr]
  · intro d2 h
    rw [← readLiterals_Repr d, h, readLiterals_Repr]
  · rw [← Repr_generatedDescriptor, readLiterals_Repr]
  · rw [← Repr_generatedDescriptor, commentCount_Repr, generatedDescriptor_length]

/-! ## Lemmas: the gzip header -/

set_option maxRecDepth 8000 in
theorem Info_generatedDescriptor (gz : Gzip) :
    Info gz generatedDescriptor =
      ("0001_test_migration.sql".toList, some (1597325091 * second), none) := by
  rfl

/-- The header model against the test fixture: the first 34 bytes of
`generatedDescriptor` are the header `gzip.Writer` writes for its name and time. -/
theorem writeHeader_generatedDescriptor :
    writeHeader (1597325091 * second) "0001_test_migration.sql".toList =
      generatedDescriptor.take 34 := by decide

theorem toNat_ofNat_byte (n : Nat) : (UInt8.ofNat n).toNat = n % 256 := by
  simp [UInt8.ofNat, UInt8.toNat, Fin.ofNat]

theorem getUint32_putUint32 (v : Nat) (h : v < 2 ^ 32) :
    getUint32 (UInt8.ofNat (v % 256)) (UInt8.ofNat (v / 256 % 256))
      (UInt8.ofNat (v / 65536 % 256)) (UInt8.ofNat (v / 16777216 % 256)) = v := by
  simp only [getUint32, toNat_ofNat_byte]
  omega

theorem mtimeField_lt (now : Nat) : mtimeField now < 2 ^ 32 := by
  unfold mtimeField
  split
  · exact Nat.mod_lt _ (by decide)
  · decide

theorem readString_name (bs rest : List UInt8) (hnz : ∀ b ∈ bs, b ≠ 0) :
    ∀ i, i + bs.length < 512 → readString i (bs ++ 0 :: rest) = .ok (bs, rest) := by
  induction bs with
  | nil =>
    intro i hi
    have : ¬ i ≥ 512 := by simpa using hi
    simp [readString, this]
  | cons b bs ih =>
    intro i hi
    simp only [List.length_cons] at hi
    have h1 : ¬ i ≥ 512 := by omega
    have hb : b ≠ 0 := hnz b (by simp)
    have e := ih (fun x hx => hnz x (by simp [hx])) (i + 1) (by omega)
    rw [List.cons_append]
    simp only [readString, h1, hb, if_false]
    rw [e]

theorem readString_long (bs rest : List UInt8) (hnz : ∀ b ∈ bs, b ≠ 0) :
    ∀ i, 512 ≤ i + bs.length → readString i (bs ++ 0 :: rest) = .error Error.gzipHeader := by
  induction bs with
  | nil =>
    intro i hi
    have : i ≥ 512 := by simpa using hi
    simp [readString, this]
  | cons b bs ih =>
    intro i hi
    simp only [List.length_cons] at hi
    have hb : b ≠ 0 := hnz b (by simp)
    by_cases h1 : i ≥ 512
    · simp [readString, h1]
    · have e := ih (fun x hx => hnz x (by simp [hx])) (i + 1) (by omega)
      rw [List.cons_append]
      simp only [readString, h1, hb, if_false]
      rw [e]

theorem latin1_bytes (N : List Char) (h : ∀ c ∈ N, c.toNat ≤ 255) :
    latin1 (N.map fun v => UInt8.ofNat v.toNat) = N := by
  induction N with
  | nil => rfl
  | cons c cs ih =>
    have hc : c.toNat % 256 = c.toNat := Nat.mod_eq_of_lt (by have := h c (by simp); omega)
    have ih' := ih (fun x hx => h x (by simp [hx]))
    simp only [latin1, List.map_cons, List.map_map, toNat_ofNat_byte, hc, Char.ofNat_toNat,
      List.cons.injEq, true_and] at ih' ⊢
    exact ih'

theorem nameBytes_nonzero (N : List Char) (h : ∀ c ∈ N, c.toNat ≠ 0 ∧ c.toNat ≤ 255) :
    ∀ b ∈ N.map (fun v => UInt8.ofNat v.toNat), b ≠ 0 := by
  intro b hb
  obtain ⟨c, hc, rfl⟩ := List.mem_map.1 hb
  intro e
  have := congrArg UInt8.toNat e
  rw [toNat_ofNat_byte] at this
  have hh := h c hc
  have h0 : (0 : UInt8).toNat = 0 := rfl
  rw [h0] at this
  omega

theorem nonLatin1_false (N : List Char) (h : ∀ c ∈ N, c.toNat ≠ 0 ∧ c.toNat ≤ 255) :
    nonLatin1 N = false := by
  unfold nonLatin1
  rw [List.any_eq_false]
  intro c hc
  have := h c hc
  simp only [Bool.or_eq_true, decide_eq_true_eq, not_or, not_lt]
  omega

theorem readHeader_writeHeader (gz : Gzip) (now : Nat) (N : List Char) (body : List UInt8)
    (hN : ∀ c ∈ N, c.toNat ≠ 0 ∧ c.toNat ≤ 255) (hlen : N.length ≤ 511) :
    readHeader gz (writeHeader now N ++ body) =
      .ok ({ Name := N,
             ModTime := if 0 < mtimeField now then some (mtimeField now * second) else none },
        body) := by
  have ht := getUint32_putUint32 (mtimeField now) (mtimeField_lt now)
  by_cases hne : N = []
  · subst hne
    have e : writeHeader now [] ++ body =
        0x1f :: 0x8b :: 8 :: 0 :: UInt8.ofNat (mtimeField now % 256) ::
          UInt8.ofNat (mtimeField now / 256 % 256) ::
          UInt8.ofNat (mtimeField now / 65536 % 256) ::
          UInt8.ofNat (mtimeField now / 16777216 % 256) :: 2 :: 255 :: body := by
      simp [writeHeader, putUint32]
    rw [e]
    have f2 : flagSet 0 2 = false := by decide
    have f3 : flagSet 0 3 = false := by decide
    have f4 : flagSet 0 4 = false := by decide
    have f1 : flagSet 0 1 = false := by decide
    simp [readHeader, readOptional, readExtra, readField, readCrc, fieldBytes, f1, f2, f3, f4,
      ht, latin1, Except.bind, Except.map]
  · have e : writeHeader now N ++ body =
        0x1f :: 0x8b :: 8 :: 8 :: UInt8.ofNat (mtimeField now % 256) ::
          UInt8.ofNat (mtimeField now / 256 % 256) ::
          UInt8.ofNat (mtimeField now / 65536 % 256) ::
          UInt8.ofNat (mtimeField now / 16777216 % 256) :: 2 :: 255 ::
          (N.map (fun v => UInt8.ofNat v.toNat) ++ 0 :: body) := by
      simp [writeHeader, putUint32, hne]
    rw [e]
    have f2 : flagSet 8 2 = false := by decide
    have f3 : flagSet 8 3 = true := by decide
    have f4 : flagSet 8 4 = false := by decide
    have f1 : flagSet 8 1 = false := by decide
    have hs := readString_name (N.map fun v => UInt8.ofNat v.toNat) body
      (nameBytes_nonzero N hN) 0 (by simp; omega)
    simp [readHeader, readOptional, readExtra, readField, readCrc, fieldBytes, f1, f2, f3, f4,
      ht, hs, latin1_bytes N (fun c hc => (hN c hc).2), Except.bind, Except.map]

theorem mtime_truncated (now : Nat) (h : second ≤ now ∧ now < 2 ^ 32 * second) :
    mtimeField now = now / second ∧ 0 < mtimeField now := by
  unfold mtimeField second at *
  have h0 : 0 < now := by omega
  simp only [h0, if_true]
  have : now / 1000000000 < 2 ^ 32 := by
    rw [Nat.div_lt_iff_lt_mul (by decide)]
    exact h.2
  rw [Nat.mod_eq_of_lt this]
  refine ⟨rfl, ?_⟩
  exact Nat.div_pos h.1 (by decide)

/-! ## The claims on the gzip envelope -/

/-- C15 (as amended): identity round trip. For every text T, every name N of at most 511
runes that are all Latin-1 (1 to 255) and every clock reading `now` from one second after
the epoch to the end of the 32-bit seconds, `NewDescriptor(T, N)` succeeds and `Info` of
the descriptor returns N unchanged with a nil error, and as modification time `now` cut
down to whole seconds: a time not after `now` and less than one second before it. -/
theorem info_round_trip (gz : Gzip) (now : Nat) (T N : List Char)
    (hN : ∀ c ∈ N, c.toNat ≠ 0 ∧ c.toNat ≤ 255) (hlen : N.length ≤ 511)
    (hnow : second ≤ now ∧ now < 2 ^ 32 * second) :
    ∃ d, NewDescriptor gz now T N = .ok d ∧
      Info gz d = (N, some (now / second * second), none) ∧
      now / second * second ≤ now ∧ now < now / second * second + second := by
  obtain ⟨hm, hpos⟩ := mtime_truncated now hnow
  refine ⟨writeHeader now N ++ gz.deflate T, ?_, ?_, ?_, ?_⟩
  · simp [NewDescriptor, nonLatin1_false N hN]
  · rw [hm] at hpos
    simp only [Info, readHeader_writeHeader gz now N _ hN hlen, hm, hpos, if_true]
  · exact Nat.div_mul_le_self now second
  · have : 0 < second := by decide
    exact Nat.lt_div_mul_add this

/-- C15, witness: the name of the test descriptor, half a second into a second. -/
theorem info_round_trip_witness :
    ∃ d, NewDescriptor cutOff 1597325091500000000 "SELECT 1;".toList
        "0001_test_migration.sql".toList = .ok d ∧
      Info cutOff d = ("0001_test_migration.sql".toList,
        some (1597325091500000000 / second * second), none) ∧
      1597325091500000000 / second * second ≤ 1597325091500000000 ∧
      1597325091500000000 < 1597325091500000000 / second * second + second :=
  info_round_trip cutOff 1597325091500000000 "SELECT 1;".toList
    "0001_test_migration.sql".toList (by decide) (by decide) (by decide)

theorem Info_long_name (gz : Gzip) (now : Nat) (N : List Char) (body : List UInt8)
    (hN : ∀ c ∈ N, c.toNat ≠ 0 ∧ c.toNat ≤ 255) (hlen : 512 ≤ N.length) :
    Info gz (writeHeader now N ++ body) = ([], none, some Error.gzipHeader) := by
  have hne : N ≠ [] := by
    rintro rfl
    simp at hlen
  have e : writeHeader now N ++ body =
      0x1f :: 0x8b :: 8 :: 8 :: UInt8.ofNat (mtimeField now % 256) ::
        UInt8.ofNat (mtimeField now / 256 % 256) ::
        UInt8.ofNat (mtimeField now / 65536 % 256) ::
        UInt8.ofNat (mtimeField now / 16777216 % 256) :: 2 :: 255 ::
        (N.map (fun v => UInt8.ofNat v.toNat) ++ 0 :: body) := by
    simp [writeHeader, putUint32, hne]
  rw [e]
  have f2 : flagSet 8 2 = false := by decide
  have f3 : flagSet 8 3 = true := by decide
  have hs := readString_long (N.map fun v => UInt8.ofNat v.toNat) body
    (nameBytes_nonzero N hN) 0 (by simpa using hlen)
  simp [Info, readHeader, readOptional, readExtra, readField, f2, f3, hs, Except.bind,
    Except.map]

/-- C15 as stated fails: a name with a rune outside Latin-1 makes `NewDescriptor` fail; a
name of 512 runes gives a descriptor whose header `Info` rejects; and the time `Info`
returns is cut to whole seconds, so it lies before a call that began at 1597325091.5 s. -/
theorem info_round_trip_counterexample :
    NewDescriptor cutOff 1597325091500000000 "SELECT 1;".toList "\u65e5\u672c.sql".toList =
      .error Error.gzipNonLatin1 ∧
    (NewDescriptor cutOff 1597325091500000000 "SELECT 1;".toList (List.replicate 512 'a') =
        .ok (writeHeader 1597325091500000000 (List.replicate 512 'a') ++ []) ∧
      Info cutOff (writeHeader 1597325091500000000 (List.replicate 512 'a') ++ []) =
        ([], none, some Error.gzipHeader)) ∧
    (NewDescriptor cutOff 1597325091500000000 "SELECT 1;".toList "a.sql".toList =
        .ok (writeHeader 1597325091500000000 "a.sql".toList ++ []) ∧
      Info cutOff (writeHeader 1597325091500000000 "a.sql".toList ++ []) =
        ("a.sql".toList, some 1597325091000000000, none) ∧
      1597325091000000000 < 1597325091500000000) := by
  have ha : ∀ c ∈ List.replicate 512 'a', c.toNat ≠ 0 ∧ c.toNat ≤ 255 := by
    intro c hc
    rw [(List.mem_replicate.1 hc).2]
    decide
  refine ⟨by rfl, ⟨?_, ?_⟩, by rfl, by rfl, by decide⟩
  · unfold NewDescriptor
    rw [nonLatin1_false _ ha]
    rfl
  · exact Info_long_name cutOff _ _ [] ha (by rw [List.length_replicate])

theorem scanTokens_err (rerr : Option Error) (h : rerr ≠ none) (ls : List (List Char)) :
    (scanTokens rerr ls).2 ≠ none := by
  induction ls with
  | nil => exact h
  | cons l ls ih =>
    simp only [scanTokens]
    split
    · simp
    · exact ih

theorem packageLoop_err (serr : Option Error) (h : serr ≠ none) (toks : List (List Char)) :
    (packageLoop serr toks).2 = none ↔ ∃ t ∈ toks, (pkgreSubmatch t).isSome = true := by
  induction toks with
  | nil => simp [packageLoop, h]
  | cons t ts ih =>
    cases hm : pkgreSubmatch t with
    | some name => simp [packageLoop, hm]
    | none => simp [packageLoop, hm, ih]

theorem readHeader_magic (gz : Gzip) (d : Descriptor) (h : d.take 2 ≠ [0x1f, 0x8b]) :
    ∃ e, readHeader gz d = .error e := by
  unfold readHeader
  split
  · exact ⟨_, rfl⟩
  · rename_i b0 b1 b2 flg t0 t1 t2 t3 xfl os input
    have hb : b0 ≠ 0x1f ∨ b1 ≠ 0x8b := by
      by_contra hc
      simp only [not_or, not_not] at hc
      apply h
      simp [hc.1, hc.2]
    have hc : b0 ≠ 0x1f ∨ b1 ≠ 0x8b ∨ b2 ≠ 8 := by tauto
    simp only [hc, if_true]
    exact ⟨_, rfl⟩
  · exact ⟨_, rfl⟩

/-- C16 (as amended): for every byte sequence d that is not a valid gzip envelope, Up and
Down return a non-nil error. When the header is not read (the empty sequence, a sequence
that does not start with 0x1f 0x8b, ...) Info and Package return a non-nil error too. When
the header is read and the stream after it is damaged or cut, Info returns the header's
name and time with a nil error, and Package returns a nil error exactly when the scanner
delivers a line that matches the package directive. -/
theorem malformed_rejected (gz : Gzip) (d : Descriptor) (h : ¬ validEnvelope gz d) :
    ((Up (openReader gz d)).2 ≠ none ∧ (Down (openReader gz d)).2 ≠ none) ∧
    (∀ e, readHeader gz d = .error e →
      (Info gz d).2.2 ≠ none ∧ (Package (openReader gz d)).2 ≠ none) ∧
    (∀ r, readHeader gz d = .ok r →
      Info gz d = (r.1.Name, r.1.ModTime, none) ∧
      ((Package (openReader gz d)).2 = none ↔
        ∃ t ∈ scannedLines (openReader gz d), (pkgreSubmatch t).isSome = true)) ∧
    (d.take 2 ≠ [0x1f, 0x8b] → ∃ e, readHeader gz d = .error e) := by
  have key : ∀ target, (readBetween (openReader gz d) target).2 ≠ none := by
    intro target
    cases hr : readHeader gz d with
    | error e => simp [openReader, hr, readBetween]
    | ok r =>
      have hne : (gz.inflate r.2).2 ≠ none := fun hn => h ⟨r, hr, hn⟩
      simp only [openReader, hr, readBetween, scan]
      exact scanTokens_err _ hne _
  refine ⟨⟨key _, key _⟩, ?_, ?_, readHeader_magic gz d⟩
  · intro e hr
    simp [Info, openReader, hr, Package]
  · intro r hr
    have hne : (gz.inflate r.2).2 ≠ none := fun hn => h ⟨r, hr, hn⟩
    refine ⟨by simp [Info, hr], ?_⟩
    simp only [openReader, hr, Package, scannedLines, scan]
    exact packageLoop_err _ (scanTokens_err _ hne _) _

/-- C16, witness: the empty sequence and the library cut off at once. -/
theorem malformed_rejected_witness :
    ¬ validEnvelope cutOff [] ∧
    (Up (openReader cutOff [])).2 ≠ none ∧ (Down (openReader cutOff [])).2 ≠ none ∧
    (Info cutOff []).2.2 ≠ none ∧ (Package (openReader cutOff [])).2 ≠ none :=
  have hv : ¬ validEnvelope cutOff [] := by simp [validEnvelope, cutOff]
  have h := malformed_rejected cutOff [] hv
  ⟨hv, h.1.1, h.1.2, (h.2.1 Error.ioEOF rfl).1, (h.2.1 Error.ioEOF rfl).2⟩

/-- C16 as stated fails: the header of the test descriptor with nothing after it is no
valid envelope, yet Info returns its name and time with a nil error; and on the test
descriptor's header with a stream that delivers a package line and ends with a checksum
error, Package returns the name with a nil error. -/
theorem malformed_rejected_counterexample :
    (¬ validEnvelope cutOff (generatedDescriptor.take 34) ∧
      Info cutOff (generatedDescriptor.take 34) =
        ("0001_test_migration.sql".toList, some (1597325091 * second), none)) ∧
    (¬ validEnvelope (badTrailer "-- package: foo\n".toList) generatedDescriptor ∧
      Package (openReader (badTrailer "-- package: foo\n".toList) generatedDescriptor) =
        ("foo".toList, none)) := by
  refine ⟨⟨by simp [validEnvelope, cutOff], by rfl⟩, by simp [validEnvelope, badTrailer], ?_⟩
  rfl

/-! ## Claim on the spelling of directives -/

theorem FoldEq_of_lower (p P : List Char) (hP : P.map Char.toLower = p)
    (hp : ∀ q ∈ p, q ∈ patternRunes ∧ foldMatch q q = true) : FoldEq p P := by
  induction p generalizing P with
  | nil =>
    have : P = [] := by simpa using hP
    subst this
    exact List.Forall₂.nil
  | cons q qs ih =>
    cases P with
    | nil => simp at hP
    | cons c cs =>
      simp only [List.map_cons, List.cons.injEq] at hP
      have hq := hp q (by simp)
      have hc : foldMatch q c = true := by
        rw [← foldMatch_toLower c q hq.1, hP.1]
        exact hq.2
      exact List.Forall₂.cons hc (ih cs hP.2 (fun r hr => hp r (by simp [hr])))

theorem pkgreSubmatch_respelled (wa wm1 P wm2 name wb : List Char)
    (ha : lineSpace wa) (hm1 : wm1 ≠ [] ∧ lineSpace wm1) (hm2 : wm2 ≠ [] ∧ lineSpace wm2)
    (hb : lineSpace wb) (hP : P.map Char.toLower = "package:".toList)
    (hname : name ≠ [] ∧ ∀ c ∈ name, isWord c = true) :
    pkgreSubmatch (wa ++ ("--".toList ++ (wm1 ++ (P ++ (wm2 ++ (name ++ wb)))))) = some name ∧
    '\n' ∉ wa ++ ("--".toList ++ (wm1 ++ (P ++ (wm2 ++ (name ++ wb))))) := by
  constructor
  · exact (pkgreSubmatch_iff _ _).2 ⟨wa, wm1, P, wm2, wb, rfl, fun c hc => (ha c hc).1,
      ⟨hm1.1, fun c hc => (hm1.2 c hc).1⟩, FoldEq_of_lower _ _ hP (by decide),
      ⟨hm2.1, fun c hc => (hm2.2 c hc).1⟩, hname, fun c hc => (hb c hc).1⟩
  · have hPn : '\n' ∉ P := noNL_of_case P "package:".toList hP (by decide)
    have hnn : '\n' ∉ name := by
      intro h
      have := hname.2 _ h
      exact absurd this (by decide)
    intro h
    simp only [List.mem_append] at h
    rcases h with h | h | h | h | h | h | h
    · exact (ha _ h).2 rfl
    · exact absurd h (by decide)
    · exact (hm1.2 _ h).2 rfl
    · exact hPn h
    · exact (hm2.2 _ h).2 rfl
    · exact hnn h
    · exact (hb _ h).2 rfl

/-- C7 (as amended): directive matching is case-insensitive and whitespace-tolerant. In a
payload that does not end in a line of exactly 65536 bytes without a newline, a
migrate-directive line `l` can be replaced by a respelling of it (letters changed in case,
spaces or tabs added in front and behind) that is still shorter than 65536 bytes, and
`readBetween`, Up and Down return the same. And a line that spells the package directive
with any letter case of `package:` and any whitespace of a line (class `\s` without the
newline) in front, behind, after the dashes and before the name, that is shorter than
65536 bytes and follows only lines shorter than 65536 bytes that are no package directive,
makes Package return the identifier it names, whatever follows it. -/
theorem directive_spelling_irrelevant (pre : List (List Char)) (Q l m ws1 ws2 target : List Char)
    (hpre : ∀ x ∈ pre, '\n' ∉ x) (hQ : lineEnd Q) (hnl : '\n' ∉ l)
    (hd : (directive l).isSome = true)
    (hm : m.map Char.toLower = l.map Char.toLower)
    (h1 : ∀ c ∈ ws1, isBlank c = true) (h2 : ∀ c ∈ ws2, isBlank c = true)
    (hfit : fits (ws1 ++ m ++ ws2))
    (_ : endsAtLimit (unlines pre ++ l ++ Q) = false ∧
      endsAtLimit (unlines pre ++ (ws1 ++ m ++ ws2) ++ Q) = false)
    (preP : List (List Char)) (wa wm1 P wm2 name wb R : List Char)
    (hpreP : ∀ x ∈ preP, '\n' ∉ x ∧ fits x ∧ pkgreSubmatch x = none)
    (ha : lineSpace wa) (hm1 : wm1 ≠ [] ∧ lineSpace wm1) (hm2 : wm2 ≠ [] ∧ lineSpace wm2)
    (hb : lineSpace wb) (hP : P.map Char.toLower = "package:".toList)
    (hname : name ≠ [] ∧ ∀ c ∈ name, isWord c = true) (hR : lineEnd R)
    (hfitP : fits (wa ++ ("--".toList ++ (wm1 ++ (P ++ (wm2 ++ (name ++ wb))))))) :
    (readBetween (payload (unlines pre ++ (ws1 ++ m ++ ws2) ++ Q)) target =
        readBetween (payload (unlines pre ++ l ++ Q)) target ∧
      Up (payload (unlines pre ++ (ws1 ++ m ++ ws2) ++ Q)) =
        Up (payload (unlines pre ++ l ++ Q)) ∧
      Down (payload (unlines pre ++ (ws1 ++ m ++ ws2) ++ Q)) =
        Down (payload (unlines pre ++ l ++ Q))) ∧
    Package (payload (unlines preP ++
      (wa ++ ("--".toList ++ (wm1 ++ (P ++ (wm2 ++ (name ++ wb)))))) ++ R)) = (name, none) := by
  have hdd := directive_respelled l m ws1 ws2 hm h1 h2
  have hnl' : '\n' ∉ ws1 ++ m ++ ws2 := noNL_spelled ws1 m ws2 h1 h2 (noNL_of_case m l hm hnl)
  have hf : fits l := Nat.lt_of_le_of_lt (utf8Len_le_respelled l m ws1 ws2 hm) hfit
  have key : ∀ t, readBetween (payload (unlines pre ++ (ws1 ++ m ++ ws2) ++ Q)) t =
      readBetween (payload (unlines pre ++ l ++ Q)) t :=
    fun t => readBetween_replace_line pre Q l _ t hpre hQ hnl hnl' hd hdd hf hfit
  obtain ⟨hmatch, hline⟩ := pkgreSubmatch_respelled wa wm1 P wm2 name wb ha hm1 hm2 hb hP hname
  exact ⟨⟨key _, key _, key _⟩, Package_first preP _ R name hpreP hline hfitP hmatch hR⟩

/-- C7, witness: `-- migrate: up` respelled `-- MIGRATE: Up` between blanks, and the
package directive respelled with upper-case letters, tabs and a carriage return on the
second line of a payload that has another package line after it. -/
theorem directive_spelling_irrelevant_witness :
    (Up (payload ("SELECT 0;\n".toList ++ "  -- MIGRATE: Up\t".toList ++ "\nA;\n".toList)) =
        Up (payload ("SELECT 0;\n".toList ++ "-- migrate: up".toList ++ "\nA;\n".toList)) ∧
      Down (payload ("SELECT 0;\n".toList ++ "  -- MIGRATE: Up\t".toList ++ "\nA;\n".toList)) =
        Down (payload ("SELECT 0;\n".toList ++ "-- migrate: up".toList ++ "\nA;\n".toList))) ∧
    Package (payload ("SELECT 0;\n".toList ++ " \t--\t PACKAGE: \tfoo\t \r".toList ++
      "\n-- package: bar\n".toList)) = ("foo".toList, none) :=
  have h := directive_spelling_irrelevant ["SELECT 0;".toList] "\nA;\n".toList
    "-- migrate: up".toList "-- MIGRATE: Up".toList "  ".toList "\t".toList "up".toList
    (by decide) (by decide) (by decide) (by decide) (by decide) (by decide) (by decide)
    (by decide) (by decide) ["SELECT 0;".toList] " \t".toList "\t ".toList "PACKAGE:".toList
    " \t".toList "foo".toList "\t \r".toList "\n-- package: bar\n".toList
    (by decide) (by decide) (by decide) (by decide) (by decide) (by decide) (by decide)
    (by decide) (by decide)
  ⟨⟨h.1.2.1, h.1.2.2⟩, h.2⟩

/-- C7 as stated fails: 65536 spaces in front of `-- migrate: up` give a line the scanner
cannot hold, and Up of the respelled payload is `ErrTooLong` instead of the body. -/
theorem directive_spelling_irrelevant_counterexample :
    (∀ c ∈ List.replicate maxScanTokenSize ' ', isBlank c = true) ∧
    Up (payload (upLine ++ '\n' :: "A;\n".toList)) = ("A;\n".toList, none) ∧
    Up (payload (paddedUpLine ++ '\n' :: "A;\n".toList)) = ([], some Error.ErrTooLong) := by
  refine ⟨?_, by decide, ?_⟩
  · intro c hc
    rw [(List.mem_replicate.1 hc).2]
    rfl
  · have hnl : '\n' ∉ paddedUpLine := by
      unfold paddedUpLine
      intro h
      rcases List.mem_append.1 h with h | h
      · exact absurd (List.mem_replicate.1 h).2 (by decide)
      · exact absurd h (by decide)
    have hlong : maxScanTokenSize ≤ utf8Len paddedUpLine := by
      have hs : Char.utf8Size ' ' = 1 := by decide
      rw [paddedUpLine, utf8Len_append, utf8Len_replicate, hs]
      omega
    exact readBetween_tooLong [] paddedUpLine _ "up".toList (by simp) hnl hlong

end Tidal
